import Mathlib

/-!
A verification development for the incremental Markdown rendering core of
AKARI-Markdown.js (v1.2.0, `akari-markdown.js`).  Text is modelled as
`List Char`; each JavaScript method of the component is embedded as an
executable Lean function, and the testable properties of the design are
stated and settled against those functions.
-/

set_option maxRecDepth 4000

namespace Akari

/-- Text is modelled as a list of characters (JS strings are sequences of
UTF-16 code units; for the fragments manipulated here the identification
with Unicode characters is exact). -/
abbrev Str := List Char

/-- Conversion from a Lean string literal. -/
def js (s : String) : Str := s.data

/-- The backtick character U+0060. -/
def btk : Char := Char.ofNat 96

/-- The closing/opening fence marker "```". -/
def fenceMarker : Str := [btk, btk, btk]

/-- The character class of the JavaScript `\s` regex escape (the members
relevant to source text; used by `trim` and by `/^\s*`). -/
def jsWhite (c : Char) : Bool :=
  c = ' ' || c = '\t' || c = '\n' || c = '\r' ||
  c = Char.ofNat 11 || c = Char.ofNat 12 || c = Char.ofNat 160 ||
  c = Char.ofNat 0x2028 || c = Char.ofNat 0x2029 || c = Char.ofNat 0xfeff

/-- JavaScript `String.prototype.trim`: strip `\s` characters from both ends. -/
def jsTrim (s : Str) : Str :=
  ((s.dropWhile jsWhite).reverse.dropWhile jsWhite).reverse

/-- Last hit of `pat` in `s` at an index `≤ start` (helper for `lastIndexOf`). -/
def lastHit (s pat : Str) : Nat → Option Nat
  | 0 => if pat.isPrefixOf s then some 0 else none
  | i + 1 =>
    if pat.isPrefixOf (s.drop (i + 1)) then some (i + 1) else lastHit s pat i

/-- JavaScript `String.prototype.lastIndexOf` for a non-regex pattern. -/
def lastIndexOfC (s pat : Str) : Option Nat := lastHit s pat s.length

/-- The bounded suffix of the trimmed snippet used as the search anchor:
`trimmedSnippet.slice(-Math.min(trimmedSnippet.length, 50))`. -/
def searchPartOf (snippet : Str) : Str :=
  let t := jsTrim snippet
  t.drop (t.length - min t.length 50)

/-- The test `/^\s*```/.test(stringAfter)`. -/
def wsFence (s : Str) : Bool := fenceMarker.isPrefixOf (s.dropWhile jsWhite)

/-- `_checkMermaidIntegrity` (v1.2.0): decide whether the candidate block
content `snippet` is actually closed in the full accumulated source
`latest`, by anchoring a bounded suffix of the trimmed snippet at its last
occurrence in the source and testing for `(whitespace)* ```` ``` ```` after it. -/
def _checkMermaidIntegrity (latest snippet : Str) : Bool :=
  if latest.isEmpty then false
  else if (jsTrim snippet).length = 0 then false
  else
    match lastIndexOfC latest (searchPartOf snippet) with
    | none => false
    | some i => wsFence (latest.drop (i + (searchPartOf snippet).length))

/-- Tokens of a `class` attribute value, split on whitespace runs
(the semantics of `classList`). -/
def classTokensAux : Str → Str → List Str
  | cur, [] => if cur = [] then [] else [cur.reverse]
  | cur, c :: cs =>
    if jsWhite c then
      if cur = [] then classTokensAux [] cs
      else cur.reverse :: classTokensAux [] cs
    else classTokensAux (c :: cur) cs

def classTokens (s : Str) : List Str := classTokensAux [] s

/-- A node of the rendered tree: a text node or an element node.  Element
nodes carry the attributes the reconciler inspects (`tagName`, `class`,
`data-code`, `data-rendered`) plus their serialized content. -/
inductive DNode where
  | text (content : Str)
  | elem (tag : Str) (className : Str) (dataCode : Option Str)
      (dataRendered : Option Str) (innerHTML : Str)
  deriving DecidableEq

/-- `classList.contains cls` on a node. -/
def DNode.hasCls : DNode → Str → Bool
  | .text _, _ => false
  | .elem _ cn _ _ _, cls => (classTokens cn).contains cls

/-- Serialization of an optional attribute. -/
def attrStr (name : Str) (v : Option Str) : Str :=
  match v with
  | none => []
  | some s => ' ' :: (name ++ ('=' :: '"' :: (s ++ ['"'])))

/-- `outerHTML` of a node (text nodes serialize to their content). -/
def outerHTML : DNode → Str
  | .text c => c
  | .elem tag cn dc dr ih =>
    '<' :: (tag ++ (js " class=\"" ++ cn ++ ['"'])
      ++ attrStr (js "data-code") dc ++ attrStr (js "data-rendered") dr
      ++ ('>' :: ih) ++ ('<' :: '/' :: (tag ++ ['>'])))

/-- A recorded mutation of the live tree. -/
inductive Mutation where
  | append (n : DNode)
  | removeNode (old : DNode)
  | replace (old n : DNode)
  | setText (old n : Str)
  deriving DecidableEq

/-- The Mermaid preservation test of `_updateDOM`: candidate and old node
both carry class `mermaid`, the old node has `dataset.rendered === "true"`,
and the candidate's `data-code` is truthy and equal to the old one's. -/
def dataRenderedOf : DNode → Option Str
  | .text _ => none
  | .elem _ _ _ dr _ => dr

def dataCodeOf : DNode → Option Str
  | .text _ => none
  | .elem _ _ dc _ _ => dc

def mermaidSkip (oldN newN : DNode) : Bool :=
  newN.hasCls (js "mermaid") && oldN.hasCls (js "mermaid") &&
  (dataRenderedOf oldN == some (js "true")) &&
  (match dataCodeOf newN with
   | some nh => !nh.isEmpty && (dataCodeOf oldN == some nh)
   | none => false)

/-- Reconciliation of one same-position pair of nodes: returns the node
left in the tree at that position plus the mutations performed. -/
def patchNode (oldN newN : DNode) : DNode × List Mutation :=
  match oldN, newN with
  | .text oc, .text nc =>
    if nc = oc then (.text oc, [])
    else (.text nc, [.setText oc nc])
  | .text oc, .elem nt ncn ndc ndr nih =>
    (.elem nt ncn ndc ndr nih,
      [.replace (.text oc) (.elem nt ncn ndc ndr nih)])
  | .elem ot ocn odc odr oih, .text nc =>
    (.text nc, [.replace (.elem ot ocn odc odr oih) (.text nc)])
  | .elem ot ocn odc odr oih, .elem nt ncn ndc ndr nih =>
    if nt ≠ ot then
      (.elem nt ncn ndc ndr nih,
        [.replace (.elem ot ocn odc odr oih) (.elem nt ncn ndc ndr nih)])
    else if mermaidSkip (.elem ot ocn odc odr oih) (.elem nt ncn ndc ndr nih) then
      (.elem ot ocn odc odr oih, [])
    else if outerHTML (.elem nt ncn ndc ndr nih) ≠
        outerHTML (.elem ot ocn odc odr oih) then
      (.elem nt ncn ndc ndr nih,
        [.replace (.elem ot ocn odc odr oih) (.elem nt ncn ndc ndr nih)])
    else (.elem ot ocn odc odr oih, [])

/-- `_updateDOM`: position-indexed shallow reconciliation of the live
container children against the freshly parsed candidate children.
Returns the resulting children plus all mutations performed. -/
def _updateDOM : List DNode → List DNode → List DNode × List Mutation
  | [], [] => ([], [])
  | [], n :: ns =>
    let r := _updateDOM [] ns
    (n :: r.1, .append n :: r.2)
  | o :: os, [] =>
    let r := _updateDOM os []
    (r.1, .removeNode o :: r.2)
  | o :: os, n :: ns =>
    let p := patchNode o n
    let r := _updateDOM os ns
    (p.1 :: r.1, p.2 ++ r.2)

/-- Wrap an integer into 32-bit two's complement range (the effect of
JavaScript's `| 0` coercion, here `hash & hash` and `<< 5`). -/
def int32 (n : Int) : Int := (n + 2 ^ 31) % 2 ^ 32 - 2 ^ 31

/-- One iteration of the `_hashCode` loop:
`hash = ((hash << 5) - hash) + char; hash = hash & hash`. -/
def hashStep (hash : Int) (c : Nat) : Int := int32 (int32 (hash * 32) - hash + c)

def base36Digit (n : Nat) : Char :=
  if n < 10 then Char.ofNat (48 + n) else Char.ofNat (87 + n)

/-- Digit-accumulation loop of `toString(36)`, with an explicit fuel (the
starting number itself always suffices, since each step divides by 36). -/
def base36AuxF : Nat → Nat → Str → Str
  | 0, _, acc => acc
  | f + 1, n, acc =>
    if n = 0 then acc
    else base36AuxF f (n / 36) (base36Digit (n % 36) :: acc)

def base36Aux (n : Nat) : Str := base36AuxF n n []

/-- `Number.prototype.toString(36)` on a 32-bit integer. -/
def intToString36 (n : Int) : Str :=
  if n = 0 then ['0']
  else if n < 0 then '-' :: base36Aux n.natAbs
  else base36Aux n.natAbs

/-- `_hashCode`: the deterministic content fingerprint, folded over the
string's UTF-16 code units. -/
def _hashCode (units : List Nat) : Str :=
  intToString36 (units.foldl hashStep 0)

/-- UTF-16 code units of a string (identified with character codes; the
source fragments handled here are BMP text). -/
def codeUnits (s : Str) : List Nat := s.map Char.toNat

/-- `_escapeHtml`: HTML-escape the five special characters. -/
def escapeChar (c : Char) : Str :=
  if c = '&' then js "&amp;"
  else if c = '<' then js "&lt;"
  else if c = '>' then js "&gt;"
  else if c = '"' then js "&quot;"
  else if c = '\'' then js "&#039;"
  else [c]

def _escapeHtml (s : Str) : Str := (s.map escapeChar).flatten

/-- The placeholder bookkeeping of one pass: the shared counter and the two
insertion-ordered protection tables (`codeMap`, `mathMap`). -/
structure PState where
  counter : Nat
  codeMap : List (Str × Str)
  mathMap : List (Str × Str × Bool)
  deriving DecidableEq

/-- The five placeholder kinds. -/
inductive TokKind where
  | cb | ci | ed | mb | mi
  deriving DecidableEq

def kindPre : TokKind → Str
  | .cb => js "CODEBLOCK"
  | .ci => js "CODEINLINE"
  | .ed => js "ESCAPEDDOLLAR"
  | .mb => js "MATHBLOCK"
  | .mi => js "MATHINLINE"

def kindSuf : TokKind → Str
  | .cb => js "ENDCODE"
  | .ci => js "ENDCODE"
  | .ed => js "END"
  | .mb => js "ENDMATH"
  | .mi => js "ENDMATH"

/-- Decimal digits, with an explicit fuel (the number itself always
suffices, since each step divides by 10). -/
def natDigitsF : Nat → Nat → Str
  | 0, n => [Char.ofNat (48 + n % 10)]
  | f + 1, n =>
    if n < 10 then [Char.ofNat (48 + n)]
    else natDigitsF f (n / 10) ++ [Char.ofNat (48 + n % 10)]

/-- Decimal digits of a counter value (template-literal interpolation). -/
def natDigits (n : Nat) : Str := natDigitsF n n

/-- A generated placeholder token, e.g. `CODEBLOCK3ENDCODE`. -/
def mkKey (k : TokKind) (n : Nat) : Str := kindPre k ++ natDigits n ++ kindSuf k

/-- A stage matcher: given the at-string-start flag, the remaining text and
the pass state, either no match at this position, or the replacement text
to emit, the number of consumed characters (always ≥ 1) and the updated
state. -/
abbrev StageMatcher := Bool → Str → PState → Option (Str × Nat × PState)

/-- One global regex-replace pass: repeatedly find the leftmost match and
substitute its replacement, continuing after the match (JS `String.replace`
with a `/g` regex and a callback). -/
def scanRepF (M : StageMatcher) : Nat → Bool → Str → PState → Str × PState
  | _, _, [], st => ([], st)
  | 0, _, s, st => (s, st)
  | f + 1, atStart, c :: cs, st =>
    match M atStart (c :: cs) st with
    | some (out, k, st') =>
      let r := scanRepF M f false ((c :: cs).drop (max k 1)) st'
      (out ++ r.1, r.2)
    | none =>
      let r := scanRepF M f false cs st
      (c :: r.1, r.2)

def scanRep (M : StageMatcher) (atStart : Bool) (s : Str) (st : PState) :
    Str × PState :=
  scanRepF M s.length atStart s st

/-- First occurrence of "```" in `s`: the (lazy) body before it plus the
rest after the three backticks. -/
def findFence : Str → Option (Str × Str)
  | [] => none
  | c :: cs =>
    if fenceMarker.isPrefixOf (c :: cs) then some ([], (c :: cs).drop 3)
    else match findFence cs with
      | some (b, r) => some (c :: b, r)
      | none => none

/-- Stage-1 matcher, `/(\n|^)```[\s\S]*?```/g`: an opening fence at the very
start or directly after a newline (the newline is part of the match), lazily
extended to the next "```".  The whole match is replaced by a fresh
`CODEBLOCK…ENDCODE` key and stored in `codeMap`. -/
def matchCB : StageMatcher := fun atStart s st =>
  if ('\n' :: fenceMarker).isPrefixOf s then
    match findFence (s.drop 4) with
    | some (body, _) =>
      some (mkKey .cb st.counter, 4 + body.length + 3,
        { st with
          counter := st.counter + 1
          codeMap := st.codeMap ++
            [(mkKey .cb st.counter, s.take (4 + body.length + 3))] })
    | none => none
  else if atStart && fenceMarker.isPrefixOf s then
    match findFence (s.drop 3) with
    | some (body, _) =>
      some (mkKey .cb st.counter, 3 + body.length + 3,
        { st with
          counter := st.counter + 1
          codeMap := st.codeMap ++
            [(mkKey .cb st.counter, s.take (3 + body.length + 3))] })
    | none => none
  else none

/-- Length of the run of backticks at the head of `s`. -/
def btkRun : Str → Nat
  | [] => 0
  | c :: cs => if c = btk then btkRun cs + 1 else 0

/-- The character class of the regex `.` (anything but a line terminator). -/
def dotChar (c : Char) : Bool :=
  !(c = '\n' || c = '\r' || c = Char.ofNat 0x2028 || c = Char.ofNat 0x2029)

/-- Lazy search for the backreferenced closing run of `k` backticks
(`(.*?)\1`): the body may contain any non-line-terminator characters,
shortest body first.  Returns (body, body.length + k). -/
def findTicks (k : Nat) : Str → Option (Str × Nat)
  | [] => if (List.replicate k btk).isPrefixOf [] then some ([], k) else none
  | c :: cs =>
    if (List.replicate k btk).isPrefixOf (c :: cs) then some ([], k)
    else if !dotChar c then none
    else match findTicks k cs with
      | some (b, t) => some (c :: b, t + 1)
      | none => none

/-- Backtracking over the greedy `(`+)` capture: try the full opening run
first, then shorter runs. -/
def tryInline : Nat → Str → Option Nat
  | 0, _ => none
  | k + 1, s =>
    match findTicks (k + 1) (s.drop (k + 1)) with
    | some (_, t) => some (k + 1 + t)
    | none => tryInline k s

/-- Stage-2 matcher, `/(`+)(.*?)\1/g`: inline code spans. -/
def matchCI : StageMatcher := fun _ s st =>
  if btkRun s = 0 then none
  else match tryInline (btkRun s) s with
    | some len =>
      some (mkKey .ci st.counter, len,
        { st with
          counter := st.counter + 1
          codeMap := st.codeMap ++ [(mkKey .ci st.counter, s.take len)] })
    | none => none

/-- Stage-3 matcher, `/\\\$/g`: escaped dollar signs. -/
def matchED : StageMatcher := fun _ s st =>
  if ('\\' :: ['$']).isPrefixOf s then
    some (mkKey .ed st.counter, 2,
      { st with
        counter := st.counter + 1
        codeMap := st.codeMap ++ [(mkKey .ed st.counter, ['\\', '$'])] })
  else none

/-- Does `s` start with the closing `$$` of a block formula, followed by
end-of-input or a newline (`\$\$($|\n)`)?  Returns the consumed suffix. -/
def mbSuffix (s : Str) : Option Str :=
  if ('$' :: ['$']).isPrefixOf s then
    match s.drop 2 with
    | [] => some []
    | c :: _ => if c = '\n' then some ['\n'] else none
  else none

/-- Lazy search for the closing of a block formula (`([\s\S]+?)\$\$($|\n)`):
non-empty body, shortest first.  Returns (body, consumed suffix). -/
def findMB : Str → Option (Str × Str)
  | [] => none
  | c :: cs =>
    match mbSuffix cs with
    | some suf => some ([c], suf)
    | none =>
      match findMB cs with
      | some (b, suf) => some (c :: b, suf)
      | none => none

/-- Stage-4 matcher, `/(^|\n)\$\$([\s\S]+?)\$\$($|\n)/g`: block math.  The
prefix and suffix are re-emitted around the fresh `MATHBLOCK…ENDMATH` key;
the formula body is stored in `mathMap` with the display flag. -/
def matchMB : StageMatcher := fun atStart s st =>
  if ('\n' :: '$' :: ['$']).isPrefixOf s then
    match findMB (s.drop 3) with
    | some (body, suf) =>
      some ('\n' :: (mkKey .mb st.counter ++ suf),
        3 + body.length + 2 + suf.length,
        { st with
          counter := st.counter + 1
          mathMap := st.mathMap ++ [(mkKey .mb st.counter, body, true)] })
    | none => none
  else if atStart && ('$' :: ['$']).isPrefixOf s then
    match findMB (s.drop 2) with
    | some (body, suf) =>
      some (mkKey .mb st.counter ++ suf,
        2 + body.length + 2 + suf.length,
        { st with
          counter := st.counter + 1
          mathMap := st.mathMap ++ [(mkKey .mb st.counter, body, true)] })
    | none => none
  else none

/-- Does the string start with the given character? -/
def headIs (c : Char) : Str → Bool
  | [] => false
  | d :: _ => d = c

/-- Lazy search for the closing `$` of an inline formula
(`([^\n]+?)\$`): non-empty single-line body, shortest first. -/
def findIM : Str → Option Str
  | [] => none
  | c :: cs =>
    if c = '\n' then none
    else if headIs '$' cs then some [c]
    else
      match findIM cs with
      | some b => some (c :: b)
      | none => none

def isCJK (c : Char) : Bool := 0x4e00 ≤ c.toNat && c.toNat ≤ 0x9fa5

def hasCJK (s : Str) : Bool := s.any isCJK

/-- `tex.includes('\\text')`. -/
def textMarker : Str := '\\' :: js "text"

/-- Substring occurrence test. -/
def isSubstrB (pat : Str) : Str → Bool
  | [] => pat.isEmpty
  | c :: cs => pat.isPrefixOf (c :: cs) || isSubstrB pat cs

/-- Stage-5 matcher, `/\$([^\n]+?)\$/g`: inline math.  A candidate whose
body contains a CJK ideograph (U+4E00–U+9FA5) and no `\text` marker is
consumed but emitted unchanged (`return match`) and no key is created;
otherwise it is replaced by a fresh `MATHINLINE…ENDMATH` key. -/
def matchMI : StageMatcher := fun _ s st =>
  match s with
  | c :: rest =>
    if c = '$' then
      match findIM rest with
      | some tex =>
        if hasCJK tex && !(isSubstrB textMarker tex) then
          some (s.take (1 + tex.length + 1), 1 + tex.length + 1, st)
        else
          some (mkKey .mi st.counter, 1 + tex.length + 1,
            { st with
              counter := st.counter + 1
              mathMap := st.mathMap ++ [(mkKey .mi st.counter, tex, false)] })
      | none => none
    else none
  | [] => none

/-- JS string-replacement `$`-pattern expansion for a plain-string pattern:
`$$`, `$&` (the match), ``$` `` (the text before), `$'` (the text after). -/
def expandRepl (matched before after : Str) : Str → Str
  | [] => []
  | '$' :: '$' :: r => '$' :: expandRepl matched before after r
  | '$' :: '&' :: r => matched ++ expandRepl matched before after r
  | '$' :: c :: r =>
    if c = btk then before ++ expandRepl matched before after r
    else if c = '\'' then after ++ expandRepl matched before after r
    else '$' :: c :: expandRepl matched before after r
  | c :: r => c :: expandRepl matched before after r

/-- `String.prototype.replace` with a plain-string pattern: replace the
leftmost occurrence (if any), with `$`-expansion in the replacement.
`pre` accumulates the already-scanned text, reversed. -/
def replaceFirstAux (pat repl : Str) : Str → Str → Str
  | pre, s =>
    if pat.isPrefixOf s then
      expandRepl pat pre.reverse (s.drop pat.length) repl ++ s.drop pat.length
    else match s with
      | [] => []
      | c :: cs => c :: replaceFirstAux pat repl (c :: pre) cs

def replaceFirstJS (s pat repl : Str) : Str := replaceFirstAux pat repl [] s

/-- The post-protection substitution
`this.codeMap.forEach((value, key) => processed = processed.replace(key, value))`. -/
def restoreCodeKeys (entries : List (Str × Str)) (processed : Str) : Str :=
  entries.foldl (fun acc kv => replaceFirstJS acc kv.1 kv.2) processed

/-- `_protectCodeAndMath` (v1.2.0): the five protection stages applied in
order to the previous stage's output, then the code placeholders are
substituted straight back.  Returns the processed text plus the pass state
(the caller has just reset counter and maps). -/
def _protectCodeAndMath (text : Str) : Str × PState :=
  if text.isEmpty then ([], ⟨0, [], []⟩)
  else
    let r1 := scanRep matchCB true text ⟨0, [], []⟩
    let r2 := scanRep matchCI true r1.1 r1.2
    let r3 := scanRep matchED true r2.1 r2.2
    let r4 := scanRep matchMB true r3.1 r3.2
    let r5 := scanRep matchMI true r4.1 r4.2
    (restoreCodeKeys r5.2.codeMap r5.1, r5.2)

/-- `split(key).join(rendered)`: replace every occurrence of `pat`
(placeholder keys are never empty). -/
def replaceAllF (pat repl : Str) : Nat → Str → Str
  | 0, s => s
  | f + 1, s =>
    if pat.isPrefixOf s ∧ pat ≠ [] then
      repl ++ replaceAllF pat repl f (s.drop pat.length)
    else match s with
      | [] => []
      | c :: cs => c :: replaceAllF pat repl f cs

def replaceAllJS (s pat repl : Str) : Str := replaceAllF pat repl s.length s

/-- `_restoreAndRenderMath` (v1.2.0): substitute every math placeholder by
the typeset output of the external engine (`katex.renderToString`), or by
the raw expression text when the engine raises. -/
def _restoreAndRenderMath (kat : Str → Bool → Except Unit Str)
    (mathMap : List (Str × Str × Bool)) (html : Str) : Str :=
  mathMap.foldl (fun acc kv =>
    match kat kv.2.1 kv.2.2 with
    | .ok rendered => replaceAllJS acc kv.1 rendered
    | .error _ => replaceAllJS acc kv.1 kv.2.1) html

/-- The streaming preview node emitted for an unclosed diagram fence:
`<div class="mermaid-streaming">…escaped…</div>`. -/
def streamingNode (cleanCode : Str) : DNode :=
  .elem (js "div") (js "mermaid-streaming") none none (_escapeHtml cleanCode)

/-- The closed diagram candidate node carrying its content fingerprint:
`<div class="mermaid" data-code="…">…escaped…</div>`. -/
def mermaidNode (cleanCode : Str) : DNode :=
  .elem (js "div") (js "mermaid") (some (_hashCode (codeUnits cleanCode)))
    none (_escapeHtml cleanCode)

/-- `<pre><code class="…">…</code></pre>` markup. -/
def preCode (cls content : Str) : Str :=
  js "<pre><code class=\"" ++ cls ++ js "\">" ++ content ++ js "</code></pre>"

/-- The `renderer.code` hook installed by `_initLibraries` (v1.2.0).
External collaborators are parameters: `decode` is `_decodeHtml` (entity
decoding through a textarea), `getLang` is `hljs.getLanguage`, and
`highlight` is `hljs.highlight` (`.error` = raised exception, swallowed by
the empty catch so the plain-escape fallback runs).  Returns the emitted
markup. -/
def rendererCode (decode : Str → Str) (getLang : Str → Bool)
    (highlight : Str → Str → Except Unit Str) (latest : Str)
    (code : Str) (lang0 : Option Str) : Str :=
  let lang := lang0.getD []
  if lang = js "mermaid" then
    let cleanCode := decode code
    if !(_checkMermaidIntegrity latest cleanCode) then
      outerHTML (streamingNode cleanCode)
    else
      outerHTML (mermaidNode cleanCode)
  else if lang ≠ [] ∧ getLang lang = true then
    match highlight code lang with
    | .ok highlighted => preCode (js "hljs language-" ++ lang) highlighted
    | .error _ => preCode (js "hljs") (_escapeHtml code)
  else preCode (js "hljs") (_escapeHtml code)

/-- The sub-render scan `this.container.querySelectorAll('.mermaid')`:
selects exactly the nodes whose class token list contains `mermaid`. -/
def mermaidScan (nodes : List DNode) : List DNode :=
  nodes.filter (fun n => n.hasCls (js "mermaid"))

/-- A node as seen by the sub-render pipeline: whether it already contains
an `svg` child (materialized), its text content, and the fields the
pipeline writes. -/
structure MNode where
  hasSvg : Bool
  textContent : Str
  innerHTML : Str
  dataRendered : Option Str
  errorClass : Bool
  deriving DecidableEq

/-- The error banner written into a node on a diagram engine failure:
an error summary plus the escaped raw source (surrounding template
whitespace elided). -/
def mermaidErrorBanner (msg code : Str) : Str :=
  js "<div class=\"mermaid-error-msg\">⚠️ Mermaid Error:\n" ++
    _escapeHtml msg ++ js "</div><div class=\"mermaid-source\">" ++
    _escapeHtml code ++ js "</div>"

/-- Processing of one node in a sub-render firing (`_scheduleMermaidRender`
loop body).  The external diagram engine `mermaid.render` is a parameter
that either returns the svg markup or raises with an error message; the
per-node `try`/`catch` of the source is the `Except` case split.  Skips
nodes that already contain an svg and nodes with blank source. -/
def mermaidStep (engine : Str → Except Str Str) (decode : Str → Str)
    (n : MNode) : MNode :=
  if n.hasSvg then n
  else
    let code := decode n.textContent
    if (jsTrim code).isEmpty then n
    else
      match engine code with
      | .ok svg =>
        { n with
          innerHTML := svg
          hasSvg := true
          dataRendered := some (js "true")
          errorClass := false }
      | .error msg =>
        { n with
          innerHTML := mermaidErrorBanner msg code
          errorClass := true }

/-- One firing of the debounced sub-render scheduler: guarded by the
`_isMermaidWorking` reentrancy flag, it processes every selected node in
order and finally clears the flag. -/
def mermaidFiring (engine : Str → Except Str Str) (decode : Str → Str)
    (working : Bool) (nodes : List MNode) : List MNode × Bool :=
  if working then (nodes, working)
  else (nodes.map (mermaidStep engine decode), false)

/-- The external collaborators of one pass (`_performRender`):
`beforeParse`/`afterSanitize` hooks, `marked.parse`, `DOMPurify.sanitize`
(both may throw), the parsing of the produced markup into candidate nodes,
and the math typesetting engine. -/
structure RenderEnv where
  beforeParse : Str → Str
  afterSanitize : Str → Str
  parse : Str → Except Str Str
  sanitize : Str → Except Str Str
  parseDom : Str → List DNode
  kat : Str → Bool → Except Unit Str

/-- The fallible body of `_performRender` (v1.2.0), inside the `try`:
protect, parse, sanitize, hook, restore math, then (and only then) write
the container. -/
def performRenderE (env : RenderEnv) (latest : Str) (container : List DNode)
    (forceFullRender : Bool) : Except Str (List DNode) := do
  let text := env.beforeParse latest
  let pr := _protectCodeAndMath text
  let parsed ← env.parse pr.1
  let sanitized ← env.sanitize parsed
  let hooked := env.afterSanitize sanitized
  let restored := _restoreAndRenderMath env.kat pr.2.mathMap hooked
  if forceFullRender then
    pure (env.parseDom restored)
  else
    pure (_updateDOM container (env.parseDom restored)).1

/-- `_performRender` with its surrounding `try`/`catch`: returns the
container children after the pass together with the console error entry
logged by the catch, if any. -/
def _performRender (env : RenderEnv) (latest : Str) (container : List DNode)
    (forceFullRender : Bool) : List DNode × Option Str :=
  match performRenderE env latest container forceFullRender with
  | .ok c => (c, none)
  | .error e => (container, some (js "[AkariMarkdown] Render Error: " ++ e))

/-- A JavaScript value as passed to the public `render`/`value` surface. -/
inductive JSVal where
  | vnull | vundef | vstr (s : Str)
  deriving DecidableEq

def jsFalsy : JSVal → Bool
  | .vnull => true
  | .vundef => true
  | .vstr s => s.isEmpty

/-- `markdownText || ''`. -/
def orEmpty (v : JSVal) : Str :=
  match v with
  | .vstr s => if s.isEmpty then [] else s
  | _ => []

/-- The write `this._latestMarkdown = markdownText || ''` performed by
`render(markdownText)`. -/
def renderStore (v : JSVal) : JSVal := .vstr (orEmpty v)

/-- The public getter `get value() { return this._latestMarkdown; }`. -/
def valueGetter (latest : JSVal) : JSVal := latest

/-- Concrete fixtures for the sub-render pipeline witness: an engine that
fails on one diagram source and succeeds on another. -/
def demoEngine : Str → Except Str Str := fun c =>
  if c = js "good" then .ok (js "<svg></svg>") else .error (js "boom")

def demoBadNode : MNode := ⟨false, js "bad", [], none, false⟩

def demoGoodNode : MNode := ⟨false, js "good", [], none, false⟩

/-- The at-start flag seen by the continuation of a scan after a span `p`
has been passed through unchanged. -/
def contFlag (p : Str) (a : Bool) : Bool := if p.isEmpty then a else false

/-- Value of a decimal digit string (left fold). -/
def digitsToNat (s : Str) : Nat :=
  s.foldl (fun acc c => acc * 10 + (c.toNat - 48)) 0

/-- All placeholder keys generated so far in one pass, in table order. -/
def allKeys (st : PState) : List Str :=
  st.codeMap.map Prod.fst ++ st.mathMap.map Prod.fst

/-- Bookkeeping invariant of one pass: every generated key is a
well-formed token whose index is below the shared counter, and the keys
are pairwise distinct. -/
def KeysWF (st : PState) : Prop :=
  List.Pairwise (· ≠ ·) (allKeys st) ∧
  ∀ key ∈ allKeys st, ∃ k n, key = mkKey k n ∧ n < st.counter

/-- Grammar of well-behaved documents for the round-trip theorem: plain
prose interleaved with fenced code blocks, inline code spans, display
formulas and inline formulas, in source order. -/
inductive Seg where
  | plain (p : Str)
  | fenced (b : Str)
  | icode (b : Str)
  | mblock (t : Str)
  | minline (t : Str)
  deriving DecidableEq

/-- Source text of one segment: a fenced block is `\n⁢```b```⁢`, an inline
span is `` `b` ``, a display formula is `\n$$t$$\n`, an inline formula is
`$t$`. -/
def renderSeg : Seg → Str
  | .plain p => p
  | .fenced b => '\n' :: (fenceMarker ++ b ++ fenceMarker)
  | .icode b => btk :: (b ++ [btk])
  | .mblock t => '\n' :: '$' :: '$' :: (t ++ '$' :: '$' :: ['\n'])
  | .minline t => '$' :: (t ++ ['$'])

/-- Source text of a whole document. -/
def renderDoc (segs : List Seg) : Str := (segs.map renderSeg).flatten

/-- Well-formedness of one segment: delimiter characters do not occur in
contents, inline contents are non-empty and single-line, contents do not
end in a backslash (which would merge with a closing dollar into an escaped
dollar), and inline formulas carry no CJK ideographs (which stage 5 leaves
as literal prose). -/
def segWFB : Seg → Bool
  | .plain p => p.all (fun c => !(c = btk || c = '$' || c = '\\'))
  | .fenced b => b.all (fun c => !(c = btk || c = '$'))
  | .icode b => !b.isEmpty && b.all (fun c => !(c = btk || c = '$') && dotChar c)
  | .mblock t => !t.isEmpty && t.all (fun c => !(c = btk || c = '$')) &&
      !(t.getLast? == some '\\')
  | .minline t => !t.isEmpty &&
      t.all (fun c => !(c = btk || c = '$' || c = '\n')) &&
      !(t.getLast? == some '\\') && !hasCJK t

def docWFB (segs : List Seg) : Bool := segs.all segWFB

/-- The placeholder vocabulary: the five token prefix words and the shared
suffix stem `END`. -/
def tokWords : List Str :=
  [kindPre .cb, kindPre .ci, kindPre .ed, kindPre .mb, kindPre .mi, js "END"]

/-- A string free of the placeholder vocabulary. -/
def wordFreeB (s : Str) : Bool := tokWords.all (fun w => !isSubstrB w s)

/-- Decimal digit character. -/
def isDigC (c : Char) : Bool := 48 ≤ c.toNat && c.toNat ≤ 57

/-- Upper-case ASCII letter. -/
def isUpC (c : Char) : Bool := 65 ≤ c.toNat && c.toNat ≤ 90

/-- The character alphabet of placeholder tokens. -/
def tokChar (c : Char) : Bool := isUpC c || isDigC c

/-- A typeset output that cannot interact with placeholder tokens: free of
the vocabulary, non-empty, and fenced by non-token boundary characters
(KaTeX output starts with `<` and ends with `>`). -/
def sealedOutB (s : Str) : Bool :=
  wordFreeB s && !s.isEmpty &&
  (match s.head? with | some c => !tokChar c | none => true) &&
  (match s.getLast? with | some c => !tokChar c | none => true)

/-- Processing status of one segment in the middle of a pass: still its
source text, replaced by a placeholder key, or substituted by a typeset
rendering. -/
inductive SStat where
  | raw
  | keyed (k : TokKind) (n : Nat)
  | subst (r : Str)
  deriving DecidableEq

abbrev SegSt := Seg × SStat

def isMB : Seg → Bool
  | .mblock _ => true
  | _ => false

/-- Current text of one segment under its status.  A keyed or substituted
display formula keeps the newlines around it: the stage-4 pattern consumes
and re-emits them. -/
def renderSegSt (ss : SegSt) : Str :=
  match ss.2 with
  | .raw => renderSeg ss.1
  | .keyed k n =>
    if isMB ss.1 then '\n' :: (mkKey k n ++ ['\n']) else mkKey k n
  | .subst r => if isMB ss.1 then '\n' :: (r ++ ['\n']) else r

/-- Current text of the whole document mid-pass. -/
def renderSts (sts : List SegSt) : Str := (sts.map renderSegSt).flatten

/-- The original source text of the remaining segments, ignoring status. -/
def origText (sts : List SegSt) : Str :=
  (sts.map (fun ss => renderSeg ss.1)).flatten

/-- Stage 1 on the status list: key every raw fenced block, threading the
shared counter; returns the new statuses, the next counter and the
`codeMap` entries appended by the stage. -/
def flipCB : List SegSt → Nat → List SegSt × Nat × List (Str × Str)
  | [], c => ([], c, [])
  | (Seg.fenced b, SStat.raw) :: rest, c =>
    let r := flipCB rest (c + 1)
    ((Seg.fenced b, SStat.keyed .cb c) :: r.1, r.2.1,
      (mkKey .cb c, renderSeg (Seg.fenced b)) :: r.2.2)
  | ss :: rest, c =>
    let r := flipCB rest c
    (ss :: r.1, r.2.1, r.2.2)

/-- Stage 2 on the status list: key every raw inline code span. -/
def flipCI : List SegSt → Nat → List SegSt × Nat × List (Str × Str)
  | [], c => ([], c, [])
  | (Seg.icode b, SStat.raw) :: rest, c =>
    let r := flipCI rest (c + 1)
    ((Seg.icode b, SStat.keyed .ci c) :: r.1, r.2.1,
      (mkKey .ci c, renderSeg (Seg.icode b)) :: r.2.2)
  | ss :: rest, c =>
    let r := flipCI rest c
    (ss :: r.1, r.2.1, r.2.2)

/-- Stage 4 on the status list: key every raw display formula, recording
`mathMap` entries with the display flag. -/
def flipMB : List SegSt → Nat → List SegSt × Nat × List (Str × Str × Bool)
  | [], c => ([], c, [])
  | (Seg.mblock t, SStat.raw) :: rest, c =>
    let r := flipMB rest (c + 1)
    ((Seg.mblock t, SStat.keyed .mb c) :: r.1, r.2.1,
      (mkKey .mb c, t, true) :: r.2.2)
  | ss :: rest, c =>
    let r := flipMB rest c
    (ss :: r.1, r.2.1, r.2.2)

/-- Stage 5 on the status list: key every raw inline formula. -/
def flipMI : List SegSt → Nat → List SegSt × Nat × List (Str × Str × Bool)
  | [], c => ([], c, [])
  | (Seg.minline t, SStat.raw) :: rest, c =>
    let r := flipMI rest (c + 1)
    ((Seg.minline t, SStat.keyed .mi c) :: r.1, r.2.1,
      (mkKey .mi c, t, false) :: r.2.2)
  | ss :: rest, c =>
    let r := flipMI rest c
    (ss :: r.1, r.2.1, r.2.2)

/-- A chunk of the mid-restore document: literal source text, a placeholder
key, or an inert typeset insertion. -/
inductive RChunk where
  | lit (s : Str)
  | key (k : TokKind) (n : Nat)
  | sealed (s : Str)
  deriving DecidableEq

def renderChunk : RChunk → Str
  | .lit s => s
  | .key k n => mkKey k n
  | .sealed s => s

def renderChunks (cs : List RChunk) : Str := (cs.map renderChunk).flatten

/-- The chunk decomposition of a status list: maximal runs of literal text
between placeholder keys and typeset insertions.  `acc` is the pending
literal run. -/
def chunksOf : List SegSt → Str → List RChunk
  | [], acc => if acc.isEmpty then [] else [.lit acc]
  | ss :: rest, acc =>
    match ss.2 with
    | .raw => chunksOf rest (acc ++ renderSeg ss.1)
    | .keyed k n =>
      if isMB ss.1 then
        .lit (acc ++ ['\n']) :: .key k n :: chunksOf rest ['\n']
      else
        (if acc.isEmpty then [] else [.lit acc]) ++ .key k n :: chunksOf rest []
    | .subst r =>
      if isMB ss.1 then
        .lit (acc ++ ['\n']) :: .sealed r :: chunksOf rest ['\n']
      else
        (if acc.isEmpty then [] else [.lit acc]) ++ .sealed r :: chunksOf rest []

def isLitC : RChunk → Bool
  | .lit _ => true
  | _ => false

/-- No two adjacent literal chunks (letters cannot flow across an invisible
boundary). -/
def noLLB : List RChunk → Bool
  | [] => true
  | [_] => true
  | a :: b :: rest => !(isLitC a && isLitC b) && noLLB (b :: rest)

/-- Hygiene of a chunk decomposition: literal chunks are free of the
placeholder vocabulary, typeset insertions are inert, and no two literal
chunks are adjacent. -/
def chunksWF (cs : List RChunk) : Prop :=
  (∀ s, RChunk.lit s ∈ cs → wordFreeB s = true) ∧
  (∀ s, RChunk.sealed s ∈ cs → sealedOutB s = true) ∧
  noLLB cs = true

/-- The final text of one segment after the math restore pass: code spans
verbatim, formulas replaced by the typeset output of the engine (or the raw
expression when the engine raises). -/
def finalSegRender (kat : Str → Bool → Except Unit Str) : Seg → Str
  | .plain p => p
  | .fenced b => renderSeg (.fenced b)
  | .icode b => renderSeg (.icode b)
  | .mblock t =>
    '\n' :: ((match kat t true with | .ok r => r | .error _ => t) ++ ['\n'])
  | .minline t => match kat t false with | .ok r => r | .error _ => t

def finalRender (kat : Str → Bool → Except Unit Str) (segs : List Seg) : Str :=
  (segs.map (finalSegRender kat)).flatten

/-- Segment kind tests for the counting conclusions. -/
def isFencedS : Seg → Bool
  | .fenced _ => true
  | _ => false

def isIcodeS : Seg → Bool
  | .icode _ => true
  | _ => false

def isMinlineS : Seg → Bool
  | .minline _ => true
  | _ => false

/-- The `codeMap`/`mathMap` entries still keyed in a status list for one
token kind, in document order. -/
def codeEntriesOf (k0 : TokKind) (sts : List SegSt) : List (Str × Str) :=
  sts.foldr (fun ss acc =>
    match ss.2 with
    | .keyed k n => if k = k0 then (mkKey k n, renderSeg ss.1) :: acc else acc
    | _ => acc) []

/-- The keys of the keyed statuses, in document order. -/
def stsKeys (sts : List SegSt) : List (TokKind × Nat) :=
  sts.foldr (fun ss acc =>
    match ss.2 with
    | .keyed k n => (k, n) :: acc
    | _ => acc) []

/-- All keyed counters lie below the bound. -/
def keysBelow (sts : List SegSt) (c : Nat) : Prop :=
  ∀ k n, (SStat.keyed k n) ∈ sts.map Prod.snd → n < c

/-- The content of a segment. -/
def texOf : Seg → Str
  | .plain p => p
  | .fenced b => b
  | .icode b => b
  | .mblock t => t
  | .minline t => t

/-- The `mathMap` entries still keyed in a status list for one token kind,
in document order, with the display flag. -/
def mathEntriesOf (k0 : TokKind) (dflag : Bool) (sts : List SegSt) :
    List (Str × Str × Bool) :=
  sts.foldr (fun ss acc =>
    match ss.2 with
    | .keyed k n =>
      if k = k0 then (mkKey k n, texOf ss.1, dflag) :: acc else acc
    | _ => acc) []

/-- Restore all keys of one kind to raw source. -/
def unkeyK (k0 : TokKind) (sts : List SegSt) : List SegSt :=
  sts.map (fun ss =>
    match ss.2 with
    | .keyed k _ => if k = k0 then (ss.1, SStat.raw) else ss
    | _ => ss)

/-- The text substituted for one formula: the typeset output, or the raw
expression when the engine raises. -/
def substOutcome (kat : Str → Bool → Except Unit Str) (t : Str) (d : Bool) :
    Str :=
  match kat t d with
  | .ok r => r
  | .error _ => t

/-- Substitute all keys of one kind by their typeset outcome. -/
def substK (k0 : TokKind) (dflag : Bool)
    (kat : Str → Bool → Except Unit Str) (sts : List SegSt) : List SegSt :=
  sts.map (fun ss =>
    match ss.2 with
    | .keyed k _ =>
      if k = k0 then
        (ss.1, SStat.subst (substOutcome kat (texOf ss.1) dflag))
      else ss
    | _ => ss)

/-- The status of every segment at the end of the whole pipeline: code
spans restored to source, formulas substituted. -/
def phaseF (kat : Str → Bool → Except Unit Str) (ss : SegSt) : Prop :=
  match ss.1 with
  | .mblock t => ss.2 = SStat.subst (substOutcome kat t true)
  | .minline t => ss.2 = SStat.subst (substOutcome kat t false)
  | _ => ss.2 = SStat.raw

/-- Phase invariants of the status list at the entry of each encode stage:
which segment kinds are already keyed (with which token kind). -/
def phaseA (ss : SegSt) : Prop := ss.2 = SStat.raw

def phaseB (ss : SegSt) : Prop :=
  match ss.1 with
  | .fenced _ => ∃ n, ss.2 = SStat.keyed .cb n
  | _ => ss.2 = SStat.raw

def phaseC (ss : SegSt) : Prop :=
  match ss.1 with
  | .fenced _ => ∃ n, ss.2 = SStat.keyed .cb n
  | .icode _ => ∃ n, ss.2 = SStat.keyed .ci n
  | _ => ss.2 = SStat.raw

def phaseD (ss : SegSt) : Prop :=
  match ss.1 with
  | .fenced _ => ∃ n, ss.2 = SStat.keyed .cb n
  | .icode _ => ∃ n, ss.2 = SStat.keyed .ci n
  | .mblock _ => ∃ n, ss.2 = SStat.keyed .mb n
  | _ => ss.2 = SStat.raw

def phaseE (ss : SegSt) : Prop :=
  match ss.1 with
  | .fenced _ => ∃ n, ss.2 = SStat.keyed .cb n
  | .icode _ => ∃ n, ss.2 = SStat.keyed .ci n
  | .mblock _ => ∃ n, ss.2 = SStat.keyed .mb n
  | .minline _ => ∃ n, ss.2 = SStat.keyed .mi n
  | .plain _ => ss.2 = SStat.raw

/-- A span `u` (followed by `R`) on which a stage matcher can never fire:
at its head under the incoming flag or `false`, and at every interior
position under `false` (interior positions of a scan never see the
at-start flag). -/
def KillsOn (M : StageMatcher) (st : PState) (a : Bool) (u R : Str) : Prop :=
  (u ≠ [] → ∀ b, (b = a ∨ b = false) → M b (u ++ R) st = none) ∧
  (∀ i, 1 ≤ i → i < u.length → M false (u.drop i ++ R) st = none)

/-- Substituted statuses only carry inert typeset outputs. -/
def SubSealed (sts : List SegSt) : Prop :=
  ∀ r, SStat.subst r ∈ sts.map Prod.snd → sealedOutB r = true

/-- Which token kind keys which segment kind. -/
def kindSegB : TokKind → Seg → Bool
  | .cb, .fenced _ => true
  | .ci, .icode _ => true
  | .mb, .mblock _ => true
  | .mi, .minline _ => true
  | _, _ => false

/-- A keyed status always sits on the segment kind its stage protects. -/
def KindOK (sts : List SegSt) : Prop :=
  ∀ ss ∈ sts, ∀ k n, ss.2 = SStat.keyed k n → kindSegB k ss.1 = true

/-- The status list at entry of the pass: everything raw. -/
def sts0 (segs : List Seg) : List SegSt :=
  segs.map (fun s => (s, SStat.raw))

/-- The status bookkeeping of the four key-creating stages, threading the
shared counter from zero. -/
def pipe1 (segs : List Seg) : List SegSt × Nat × List (Str × Str) :=
  flipCB (sts0 segs) 0

def pipe2 (segs : List Seg) : List SegSt × Nat × List (Str × Str) :=
  flipCI (pipe1 segs).1 (pipe1 segs).2.1

def pipe3 (segs : List Seg) :
    List SegSt × Nat × List (Str × Str × Bool) :=
  flipMB (pipe2 segs).1 (pipe2 segs).2.1

def pipe4 (segs : List Seg) :
    List SegSt × Nat × List (Str × Str × Bool) :=
  flipMI (pipe3 segs).1 (pipe3 segs).2.1

/-- Concrete fixtures for the round-trip witness: a document exercising
every protected span kind, and an engine producing a fixed inert output. -/
def demoSegs : List Seg :=
  [Seg.plain (js "Intro "), Seg.fenced (js "code"),
   Seg.plain (js " mid "), Seg.icode (js "x"),
   Seg.mblock (js "a+b"), Seg.plain (js " tail "),
   Seg.minline (js "c")]

def demoKat : Str → Bool → Except Unit Str := fun _ _ => .ok (js "<x>")

end Akari

namespace Akari

theorem lastHit_some_isPrefixOf {s pat : Str} {start i : Nat}
    (h : lastHit s pat start = some i) :
    pat.isPrefixOf (s.drop i) ∧ i ≤ start := by
  induction start with
  | zero =>
    simp only [lastHit] at h
    split at h
    · cases h; simpa using ‹pat.isPrefixOf s›
    · exact absurd h (by simp)
  | succ n ih =>
    simp only [lastHit] at h
    split at h
    · cases h; exact ⟨‹_›, le_refl _⟩
    · obtain ⟨hp, hle⟩ := ih h
      exact ⟨hp, Nat.le_succ_of_le hle⟩

theorem lastHit_eq_of_hit {s pat : Str} {start i : Nat}
    (hhit : pat.isPrefixOf (s.drop i))
    (hle : i ≤ start)
    (hno : ∀ j, i < j → j ≤ start → ¬ pat.isPrefixOf (s.drop j)) :
    lastHit s pat start = some i := by
  induction start with
  | zero =>
    have : i = 0 := Nat.le_zero.mp hle
    subst this
    simp only [lastHit]
    simpa using hhit
  | succ n ih =>
    simp only [lastHit]
    rcases Nat.lt_or_ge i (n + 1) with hlt | hge
    · have hnotp : ¬ pat.isPrefixOf (s.drop (n + 1)) :=
        hno (n + 1) hlt (le_refl _)
      rw [if_neg hnotp]
      exact ih (Nat.lt_succ_iff.mp hlt)
        (fun j hj1 hj2 => hno j hj1 (Nat.le_succ_of_le hj2))
    · have : i = n + 1 := Nat.le_antisymm hle hge
      subst this
      rw [if_pos hhit]

theorem searchPartOf_length (snippet : Str) :
    (searchPartOf snippet).length = min (jsTrim snippet).length 50 := by
  simp only [searchPartOf, List.length_drop]
  omega

theorem check_true_elim {latest snippet : Str}
    (hc : _checkMermaidIntegrity latest snippet = true) :
    latest.isEmpty = false ∧ (jsTrim snippet).length ≠ 0 ∧
      ∃ i, lastIndexOfC latest (searchPartOf snippet) = some i ∧
        wsFence (latest.drop (i + (searchPartOf snippet).length)) = true := by
  unfold _checkMermaidIntegrity at hc
  split at hc
  · exact absurd hc (by simp)
  · split at hc
    · exact absurd hc (by simp)
    · refine ⟨by simpa using ‹¬latest.isEmpty = true›, ‹_›, ?_⟩
      split at hc
      · exact absurd hc (by simp)
      · exact ⟨_, ‹_›, hc⟩

theorem wsFence_append {s ext : Str} (h : wsFence s = true) :
    wsFence (s ++ ext) = true := by
  unfold wsFence at h ⊢
  have hne : (s.dropWhile jsWhite).isEmpty = false := by
    cases hdw : s.dropWhile jsWhite with
    | nil => rw [hdw] at h; exact absurd h (by decide)
    | cons a l => simp
  rw [List.dropWhile_append, hne, if_neg (by simp)]
  exact List.isPrefixOf_iff_prefix.mpr
    ((List.isPrefixOf_iff_prefix.mp h).trans (List.prefix_append _ _))

/-- C4 (counterexample): `_checkMermaidIntegrity` is not monotone under
character-by-character extension of the source.  With block content "A",
the source "A```" is judged closed, but appending the single character
'A' (which makes the last occurrence of the search suffix move past the
fence) makes the same block revert to unclosed. -/
theorem C4_monotonicity_counterexample :
    _checkMermaidIntegrity (js "A```") (js "A") = true ∧
      _checkMermaidIntegrity (js "A```" ++ ['A']) (js "A") = false := by
  constructor <;> decide

/-- C4 (amended): once `_checkMermaidIntegrity` reports a block closed —
which requires the full closing marker "```" to be present in the source —
it keeps reporting it closed under any extension of the source that
introduces no new occurrence of the block's search suffix after the
anchored occurrence.  (Without that proviso closure can revert, see the
counterexample.) -/
theorem C4_fence_completeness_monotonicity
    (latest ext snippet : Str) (i : Nat)
    (hc : _checkMermaidIntegrity latest snippet = true)
    (hi : lastIndexOfC latest (searchPartOf snippet) = some i)
    (hno : ∀ j, j ≤ (latest ++ ext).length → i < j →
      ¬ (searchPartOf snippet).isPrefixOf ((latest ++ ext).drop j)) :
    _checkMermaidIntegrity (latest ++ ext) snippet = true ∧
      fenceMarker <:+: latest := by
  obtain ⟨hne, htne, i', hi', hfence⟩ := check_true_elim hc
  rw [hi] at hi'
  cases hi'
  have hlne : latest ≠ [] := fun h => by simp [h] at hne
  obtain ⟨hpfx, hile⟩ := lastHit_some_isPrefixOf hi
  have hlen : (searchPartOf snippet).length + i ≤ latest.length := by
    have := (List.isPrefixOf_iff_prefix.mp hpfx).length_le
    simp only [List.length_drop] at this
    omega
  have hdropext : (latest ++ ext).drop i = latest.drop i ++ ext :=
    List.drop_append_of_le_length (by omega)
  have hlast : lastIndexOfC (latest ++ ext) (searchPartOf snippet) = some i := by
    unfold lastIndexOfC
    exact lastHit_eq_of_hit
      (by
        rw [hdropext]
        exact List.isPrefixOf_iff_prefix.mpr
          ((List.isPrefixOf_iff_prefix.mp hpfx).trans (List.prefix_append _ _)))
      (by simp; omega)
      (fun j h1 h2 => hno j (by simpa using h2) h1)
  have hdrop2 : (latest ++ ext).drop (i + (searchPartOf snippet).length) =
      latest.drop (i + (searchPartOf snippet).length) ++ ext :=
    List.drop_append_of_le_length (by omega)
  constructor
  · unfold _checkMermaidIntegrity
    rw [if_neg (fun h =>
      hlne (List.append_eq_nil.mp (List.isEmpty_iff.mp h)).1)]
    rw [if_neg htne, hlast]
    have hres : wsFence ((latest ++ ext).drop
        (i + (searchPartOf snippet).length)) = true := by
      rw [hdrop2]; exact wsFence_append hfence
    exact hres
  · have h1 : fenceMarker <+:
        ((latest.drop (i + (searchPartOf snippet).length)).dropWhile jsWhite) :=
      List.isPrefixOf_iff_prefix.mp hfence
    have h2 : ((latest.drop (i + (searchPartOf snippet).length)).dropWhile jsWhite)
        <:+ latest :=
      (List.dropWhile_suffix jsWhite).trans (List.drop_suffix _ _)
    exact h1.isInfix.trans h2.isInfix

theorem patchNode_self (n : DNode) : patchNode n n = (n, []) := by
  cases n with
  | text c => simp [patchNode]
  | elem t cn dc dr ih => simp [patchNode]

theorem patchNode_fst_or (o n : DNode) :
    (patchNode o n).1 = n ∨ patchNode o n = (o, []) := by
  cases o with
  | text oc =>
    cases n with
    | text nc =>
      by_cases h : nc = oc
      · right; simp [patchNode, h]
      · left; simp [patchNode, h]
    | elem nt ncn ndc ndr nih => left; simp [patchNode]
  | elem ot ocn odc odr oih =>
    cases n with
    | text nc => left; simp [patchNode]
    | elem nt ncn ndc ndr nih =>
      simp only [patchNode]
      split_ifs with h1 h2 h3
      · left; rfl
      · right; rfl
      · left; rfl
      · right; rfl

theorem patchNode_idem (o n : DNode) :
    patchNode (patchNode o n).1 n = ((patchNode o n).1, []) := by
  rcases patchNode_fst_or o n with h | h
  · rw [h]; exact patchNode_self n
  · rw [h]; simpa using h

theorem updateDOM_nil_fst (os : List DNode) : (_updateDOM os []).1 = [] := by
  induction os with
  | nil => simp [_updateDOM]
  | cons o os ih => simp [_updateDOM, ih]

/-- C1: idempotence of reconciliation.  Reconciling the container a second
time against the same candidate children performs zero mutations (no
append, remove, replace, or text update) and leaves the tree unchanged. -/
theorem C1_second_pass_zero_mutations (container template : List DNode) :
    _updateDOM (_updateDOM container template).1 template =
      ((_updateDOM container template).1, ([] : List Mutation)) := by
  induction template generalizing container with
  | nil => simp [updateDOM_nil_fst, _updateDOM]
  | cons n ns ih =>
    cases container with
    | nil => simp [_updateDOM, patchNode_self, ih]
    | cons o os => simp [_updateDOM, patchNode_idem, ih]

/-- C2: the Mermaid preservation rule.  When the candidate node is a
diagram node (class `mermaid`), the old same-position node is materialized
(`dataset.rendered === "true"`), and both carry the same non-empty
`data-code` fingerprint, `patchNode` skips the position: the old node is
returned untouched with zero mutations.  Moreover `_hashCode` is a
deterministic function of the content, so identical raw content always
yields identical fingerprints. -/
theorem C2_fingerprint_preservation
    (tag ocn ncn oih nih hsh : Str) (ndr : Option Str)
    (hoc : (DNode.elem tag ocn (some hsh) (some (js "true")) oih).hasCls
      (js "mermaid") = true)
    (hnc : (DNode.elem tag ncn (some hsh) ndr nih).hasCls (js "mermaid") = true)
    (hne : hsh ≠ []) :
    patchNode (.elem tag ocn (some hsh) (some (js "true")) oih)
        (.elem tag ncn (some hsh) ndr nih) =
      (.elem tag ocn (some hsh) (some (js "true")) oih, []) ∧
    (∀ u v : List Nat, u = v → _hashCode u = _hashCode v) := by
  refine ⟨?_, fun u v h => by rw [h]⟩
  have hskip : mermaidSkip (.elem tag ocn (some hsh) (some (js "true")) oih)
      (.elem tag ncn (some hsh) ndr nih) = true := by
    simp only [mermaidSkip, hoc, hnc]
    simp [dataRenderedOf, dataCodeOf, List.isEmpty_iff, hne]
  simp [patchNode, hskip]

/-- C2 witness: a concrete rendered diagram node is preserved untouched
when the candidate carries the same non-empty fingerprint. -/
theorem C2_fingerprint_preservation_witness :
    patchNode
        (.elem (js "div") (js "mermaid") (some (js "1abc")) (some (js "true"))
          (js "<svg></svg>"))
        (.elem (js "div") (js "mermaid") (some (js "1abc")) none
          (js "graph TD")) =
      (.elem (js "div") (js "mermaid") (some (js "1abc")) (some (js "true"))
        (js "<svg></svg>"), []) ∧
    (∀ u v : List Nat, u = v → _hashCode u = _hashCode v) :=
  C2_fingerprint_preservation (js "div") (js "mermaid") (js "mermaid")
    (js "<svg></svg>") (js "graph TD") (js "1abc") none
    (by decide) (by decide) (by decide)

/-- C4 witness: the amended monotonicity theorem applied at a concrete
closed fence and a harmless one-character extension. -/
theorem C4_fence_completeness_monotonicity_witness :
    _checkMermaidIntegrity (js "A```" ++ ['!']) (js "A") = true ∧
      fenceMarker <:+: js "A```" :=
  C4_fence_completeness_monotonicity (js "A```") ['!'] (js "A") 0
    (by decide) (by decide) (by decide)

/-- C5: an unclosed diagram fence renders as the streaming-preview node —
class `mermaid-streaming`, content the HTML-escaped literal source — and
the sub-render scan (which selects only class `mermaid`, a whole class
token that `mermaid-streaming` is not) never selects it in any container
state, so no materialization is ever attempted for it. -/
theorem C5_streaming_never_materialized
    (decode : Str → Str) (getLang : Str → Bool)
    (highlight : Str → Str → Except Unit Str) (latest code : Str)
    (hunclosed : _checkMermaidIntegrity latest (decode code) = false) :
    rendererCode decode getLang highlight latest code (some (js "mermaid")) =
      outerHTML (streamingNode (decode code)) ∧
    (streamingNode (decode code)).hasCls (js "mermaid") = false ∧
    ∀ nodes : List DNode, streamingNode (decode code) ∉ mermaidScan nodes := by
  refine ⟨?_, ?_, ?_⟩
  · simp [rendererCode, hunclosed]
  · simp only [streamingNode, DNode.hasCls]
    decide
  · intro nodes hmem
    have h := (List.mem_filter.mp hmem).2
    simp only [streamingNode, DNode.hasCls] at h
    exact absurd h (by decide)

/-- C5 witness: the streaming-preview guarantee at a concrete unclosed
fence, including that a container holding both the streaming node and a
closed diagram node only has the latter scanned. -/
theorem C5_streaming_never_materialized_witness :
    rendererCode (fun s => s) (fun _ => false) (fun _ _ => .error ()) []
        (js "graph TD") (some (js "mermaid")) =
      outerHTML (streamingNode (js "graph TD")) ∧
    (streamingNode (js "graph TD")).hasCls (js "mermaid") = false ∧
    streamingNode (js "graph TD") ∉
      mermaidScan [streamingNode (js "graph TD"), mermaidNode (js "graph TD")] :=
  ⟨(C5_streaming_never_materialized (fun s => s) (fun _ => false)
      (fun _ _ => .error ()) [] (js "graph TD") (by decide)).1,
   (C5_streaming_never_materialized (fun s => s) (fun _ => false)
      (fun _ _ => .error ()) [] (js "graph TD") (by decide)).2.1,
   (C5_streaming_never_materialized (fun s => s) (fun _ => false)
      (fun _ _ => .error ()) [] (js "graph TD") (by decide)).2.2 _⟩

/-- C7: per-node failure containment in a sub-render firing.  Every node's
outcome is `mermaidStep` of that node alone — an engine failure on any
sibling never prevents it from being attempted — and after the loop the
reentrancy flag `_isMermaidWorking` is cleared so later firings remain
possible. -/
theorem C7_per_node_failure_containment
    (engine : Str → Except Str Str) (decode : Str → Str)
    (nodes : List MNode) (j : Nat) (hj : j < nodes.length) :
    (mermaidFiring engine decode false nodes).1[j]? =
      some (mermaidStep engine decode nodes[j]) ∧
    (mermaidFiring engine decode false nodes).2 = false := by
  constructor
  · simp [mermaidFiring, List.getElem?_eq_getElem hj]
  · simp [mermaidFiring]

/-- C7 witness: with an engine that throws on the first node's source, the
second node is still attempted (and materialized) in the same firing, and
the reentrancy flag ends cleared. -/
theorem C7_per_node_failure_containment_witness :
    (mermaidFiring demoEngine (fun s => s) false
        [demoBadNode, demoGoodNode]).1[1]? =
      some (mermaidStep demoEngine (fun s => s) demoGoodNode) ∧
    (mermaidFiring demoEngine (fun s => s) false
        [demoBadNode, demoGoodNode]).2 = false :=
  C7_per_node_failure_containment demoEngine (fun s => s)
    [demoBadNode, demoGoodNode] 1 (by decide)

/-- C8: if the parse step or the sanitize step of a pass throws, the pass
is aborted with the live container exactly as the previous completed pass
left it — no node added, removed, or modified — and the failure is
surfaced to the error log. -/
theorem C8_failed_pass_leaves_tree
    (env : RenderEnv) (latest : Str) (container : List DNode) (force : Bool)
    (hfail :
      (∃ e, env.parse (_protectCodeAndMath (env.beforeParse latest)).1 =
        .error e) ∨
      (∃ h e, env.parse (_protectCodeAndMath (env.beforeParse latest)).1 =
          .ok h ∧ env.sanitize h = .error e)) :
    (_performRender env latest container force).1 = container ∧
    ∃ msg, (_performRender env latest container force).2 = some msg := by
  unfold _performRender performRenderE
  rcases hfail with ⟨e, he⟩ | ⟨h, e, hok, he⟩
  · simp [he, Bind.bind, Except.bind]
  · simp [hok, he, Bind.bind, Except.bind]

/-- C8 witness: a concretely failing parse leaves a concrete container
untouched and surfaces an error log entry. -/
theorem C8_failed_pass_leaves_tree_witness :
    (_performRender
        ⟨fun s => s, fun s => s, fun _ => .error (js "boom"),
          fun s => .ok s, fun _ => [], fun _ _ => .ok []⟩
        (js "# t") [DNode.text (js "old")] false).1 =
      [DNode.text (js "old")] ∧
    (_performRender
        ⟨fun s => s, fun s => s, fun _ => .error (js "boom"),
          fun s => .ok s, fun _ => [], fun _ _ => .ok []⟩
        (js "# t") [DNode.text (js "old")] false).2 =
      some (js "[AkariMarkdown] Render Error: " ++ js "boom") :=
  ⟨(C8_failed_pass_leaves_tree
      ⟨fun s => s, fun s => s, fun _ => .error (js "boom"),
        fun s => .ok s, fun _ => [], fun _ _ => .ok []⟩
      (js "# t") [DNode.text (js "old")] false
      (Or.inl ⟨js "boom", rfl⟩)).1, by decide⟩

/-- C10: the public input surface is total and string-valued.  For every
argument — null, undefined, or a string — the stored source becomes the
string `t || ''`; the public getter afterwards returns exactly that string
(never null or undefined); and the encode step applied to the empty string
totally returns the empty string with empty protection tables. -/
theorem C10_render_value_total (t : JSVal) :
    valueGetter (renderStore t) = .vstr (orEmpty t) ∧
    (jsFalsy t = true → orEmpty t = []) ∧
    (jsFalsy t = false → JSVal.vstr (orEmpty t) = t) ∧
    _protectCodeAndMath [] = ([], ⟨0, [], []⟩) := by
  refine ⟨rfl, ?_, ?_, by simp [_protectCodeAndMath]⟩
  · cases t with
    | vnull => intro; rfl
    | vundef => intro; rfl
    | vstr s => intro h; simp [jsFalsy] at h; simp [orEmpty, h]
  · cases t with
    | vnull => intro h; exact absurd h (by simp [jsFalsy])
    | vundef => intro h; exact absurd h (by simp [jsFalsy])
    | vstr s => intro h; simp [jsFalsy] at h; simp [orEmpty, h]

/-- C10 witness: the surface evaluated at `null` and the encoder at the
empty string. -/
theorem C10_render_value_total_witness :
    valueGetter (renderStore JSVal.vnull) = .vstr [] ∧
    orEmpty JSVal.vnull = [] ∧
    _protectCodeAndMath [] = ([], ⟨0, [], []⟩) :=
  ⟨(C10_render_value_total .vnull).1,
   (C10_render_value_total .vnull).2.1 rfl,
   (C10_render_value_total .vnull).2.2.2⟩

/-- C9 (counterexample): an inline-math candidate whose body is the
non-Latin (Cyrillic) prose character 'д', with no `\text` marker, is NOT
left unprotected: the encoder replaces it by a `MATHINLINE` placeholder
and records it for typesetting.  The source's guard tests only the CJK
range U+4E00–U+9FA5, not all non-Latin prose. -/
theorem C9_nonlatin_counterexample :
    (_protectCodeAndMath (js "$д$")).1 = js "MATHINLINE0ENDMATH" ∧
    (_protectCodeAndMath (js "$д$")).2.mathMap =
      [(js "MATHINLINE0ENDMATH", js "д", false)] := by
  constructor <;> decide

/-- C6 (counterexample): placeholder tokens can collide with literal text
of the document.  Encoding a document that literally contains
"CODEBLOCK0ENDCODE" next to a real fenced block generates that very token,
which does occur as a substring of the document being encoded. -/
theorem C6_collision_counterexample :
    (_protectCodeAndMath (js "CODEBLOCK0ENDCODE\n```a```")).2.codeMap.map
        Prod.fst = [js "CODEBLOCK0ENDCODE"] ∧
    isSubstrB (js "CODEBLOCK0ENDCODE") (js "CODEBLOCK0ENDCODE\n```a```") =
      true := by
  constructor <;> decide

theorem scanRepF_ge (M : StageMatcher) :
    ∀ (f : Nat) (a : Bool) (s : Str) (st : PState), s.length ≤ f →
      scanRepF M f a s st = scanRepF M s.length a s st := by
  intro f
  induction f using Nat.strong_induction_on with
  | _ f ih =>
    intro a s st hle
    match f, s with
    | f, [] =>
      cases f <;> rfl
    | 0, c :: cs =>
      simp at hle
    | f + 1, c :: cs =>
      have hcs : cs.length ≤ f := by simpa using hle
      simp only [scanRepF, List.length_cons]
      cases hM : M a (c :: cs) st with
      | none =>
        simp only []
        rw [ih f (Nat.lt_succ_self f) false cs st hcs,
          ih cs.length (Nat.lt_succ_of_le hcs) false cs st (le_refl _)]
      | some r =>
        obtain ⟨out, k, st'⟩ := r
        have hrest : ((c :: cs).drop (max k 1)).length ≤ cs.length := by
          simp only [List.length_drop, List.length_cons]
          omega
        simp only []
        rw [ih f (Nat.lt_succ_self f) false _ st' (le_trans hrest hcs),
          ih cs.length (Nat.lt_succ_of_le hcs) false _ st' hrest]

theorem scanRep_nil (M : StageMatcher) (a : Bool) (st : PState) :
    scanRep M a [] st = ([], st) := rfl

theorem scanRep_cons_none {M : StageMatcher} {a : Bool} {c : Char} {cs : Str}
    {st : PState} (h : M a (c :: cs) st = none) :
    scanRep M a (c :: cs) st =
      (c :: (scanRep M false cs st).1, (scanRep M false cs st).2) := by
  simp only [scanRep, List.length_cons, scanRepF, h]

theorem scanRep_cons_some {M : StageMatcher} {a : Bool} {c : Char} {cs : Str}
    {st st' : PState} {out : Str} {k : Nat}
    (h : M a (c :: cs) st = some (out, k, st')) :
    scanRep M a (c :: cs) st =
      (out ++ (scanRep M false ((c :: cs).drop (max k 1)) st').1,
        (scanRep M false ((c :: cs).drop (max k 1)) st').2) := by
  have hrest : ((c :: cs).drop (max k 1)).length ≤ cs.length := by
    simp only [List.length_drop, List.length_cons]; omega
  simp only [scanRep, List.length_cons, scanRepF, h]
  rw [scanRepF_ge M cs.length false _ st' hrest]

theorem scanRep_id_of_none {M : StageMatcher} {st : PState} :
    ∀ (s : Str), (∀ i b, i < s.length → M b (s.drop i) st = none) →
      ∀ a, scanRep M a s st = (s, st) := by
  intro s
  induction s with
  | nil => intro _ a; rfl
  | cons c cs ih =>
    intro h a
    rw [scanRep_cons_none (h 0 a (by simp))]
    rw [ih (fun i b hi => h (i + 1) b (by simpa using hi)) false]

theorem isSubstrB_of_isPrefixOf {pat s : Str} (h : pat.isPrefixOf s = true) :
    isSubstrB pat s = true := by
  cases s with
  | nil =>
    have : pat = [] := by simpa using List.isPrefixOf_iff_prefix.mp h
    simp [isSubstrB, this]
  | cons c cs => simp [isSubstrB, h]

theorem isSubstrB_drop {pat s : Str} {i : Nat}
    (h : isSubstrB pat (s.drop i) = true) : isSubstrB pat s = true := by
  induction s generalizing i with
  | nil => simpa using h
  | cons c cs ih =>
    cases i with
    | zero => simpa using h
    | succ j =>
      simp only [List.drop_succ_cons] at h
      simp [isSubstrB, ih h]

theorem mem_of_mem_dropStr {c : Char} {s : Str} {i : Nat}
    (h : c ∈ s.drop i) : c ∈ s :=
  (List.drop_subset i s) h

/-- Stage-1 failure: no triple backtick can start here when the text has no
backtick-triple at all — in particular when its head region is
backtick-free. -/
theorem matchCB_none {s : Str} (h : isSubstrB fenceMarker s = false) :
    ∀ b st, matchCB b s st = none := by
  intro b st
  unfold matchCB
  have h1 : ('\n' :: fenceMarker).isPrefixOf s = false := by
    cases hp : ('\n' :: fenceMarker).isPrefixOf s
    · rfl
    · exfalso
      have hpre := List.isPrefixOf_iff_prefix.mp hp
      have : fenceMarker.isPrefixOf (s.drop 1) = true := by
        obtain ⟨t, ht⟩ := hpre
        subst ht
        simp [List.isPrefixOf_iff_prefix]
      have := isSubstrB_drop (isSubstrB_of_isPrefixOf this)
      rw [h] at this; exact absurd this (by simp)
  have h2 : fenceMarker.isPrefixOf s = false := by
    cases hp : fenceMarker.isPrefixOf s
    · rfl
    · have := isSubstrB_of_isPrefixOf hp
      rw [h] at this; exact absurd this (by simp)
  rw [h1, h2]
  simp

/-- Stage-2 failure on a backtick-free head. -/
theorem matchCI_none {c : Char} {cs : Str} (h : c ≠ btk) :
    ∀ b st, matchCI b (c :: cs) st = none := by
  intro b st
  unfold matchCI
  have : btkRun (c :: cs) = 0 := by simp [btkRun, h]
  rw [this]
  simp

/-- Stage-3 failure on a backslash-free head. -/
theorem matchED_none {c : Char} {cs : Str} (h : c ≠ '\\') :
    ∀ b st, matchED b (c :: cs) st = none := by
  intro b st
  unfold matchED
  have : ('\\' :: ['$']).isPrefixOf (c :: cs) = false := by
    simp [List.isPrefixOf]
    intro hc
    exact absurd hc.symm h
  rw [this]
  simp

/-- Stage-4 failure when no two adjacent dollars occur. -/
theorem matchMB_none {s : Str} (h : isSubstrB ('$' :: ['$']) s = false) :
    ∀ b st, matchMB b s st = none := by
  intro b st
  unfold matchMB
  have h2 : ('$' :: ['$']).isPrefixOf s = false := by
    cases hp : ('$' :: ['$']).isPrefixOf s
    · rfl
    · have := isSubstrB_of_isPrefixOf hp
      rw [h] at this; exact absurd this (by simp)
  have h1 : ('\n' :: '$' :: ['$']).isPrefixOf s = false := by
    cases hp : ('\n' :: '$' :: ['$']).isPrefixOf s
    · rfl
    · exfalso
      have hpre := List.isPrefixOf_iff_prefix.mp hp
      have : ('$' :: ['$']).isPrefixOf (s.drop 1) = true := by
        obtain ⟨t, ht⟩ := hpre
        subst ht
        simp [List.isPrefixOf_iff_prefix]
      have := isSubstrB_drop (isSubstrB_of_isPrefixOf this)
      rw [h] at this; exact absurd this (by simp)
  rw [h1, h2]
  simp

/-- Stage-5 failure on a dollar-free head. -/
theorem matchMI_none {c : Char} {cs : Str} (h : c ≠ '$') :
    ∀ b st, matchMI b (c :: cs) st = none := by
  intro b st
  simp [matchMI, h]

theorem mem_of_isSubstrB {pat s : Str} (h : isSubstrB pat s = true) :
    ∀ c ∈ pat, c ∈ s := by
  induction s with
  | nil =>
    intro c hc
    simp only [isSubstrB, List.isEmpty_iff] at h
    subst h
    exact absurd hc (by simp)
  | cons d ds ih =>
    intro c hc
    simp only [isSubstrB, Bool.or_eq_true] at h
    rcases h with h | h
    · exact (List.isPrefixOf_iff_prefix.mp h).sublist.subset hc
    · exact List.mem_cons_of_mem d (ih h c hc)

theorem noFence_of_no_btk {s : Str} (h : btk ∉ s) :
    isSubstrB fenceMarker s = false := by
  cases hf : isSubstrB fenceMarker s
  · rfl
  · exact absurd (mem_of_isSubstrB hf btk (by simp [fenceMarker])) h

theorem noDD_tail : ∀ (u : Str), '$' ∉ u →
    isSubstrB ('$' :: ['$']) (u ++ ['$']) = false := by
  intro u
  induction u with
  | nil => intro _; decide
  | cons c u' ih =>
    intro h
    have hc : c ≠ '$' := fun hc => h (hc ▸ List.mem_cons_self c u')
    simp only [List.cons_append, isSubstrB, Bool.or_eq_false_iff]
    constructor
    · simp [List.isPrefixOf]
      intro hcc
      exact absurd hcc.symm hc
    · exact ih (fun hm => h (List.mem_cons_of_mem c hm))

theorem span_noDD {tex : Str} (hne : tex ≠ []) (hnd : '$' ∉ tex) :
    isSubstrB ('$' :: ['$']) ('$' :: (tex ++ ['$'])) = false := by
  simp only [isSubstrB, Bool.or_eq_false_iff]
  refine ⟨?_, noDD_tail tex hnd⟩
  cases tex with
  | nil => exact absurd rfl hne
  | cons c tex' =>
    have hc : c ≠ '$' := fun h => hnd (h ▸ List.mem_cons_self c tex')
    simp [List.isPrefixOf]
    intro hcc
    exact absurd hcc.symm hc

theorem findIM_exact : ∀ (tex rest : Str), tex ≠ [] →
    (∀ c ∈ tex, c ≠ '\n' ∧ c ≠ '$') →
    findIM (tex ++ '$' :: rest) = some tex := by
  intro tex
  induction tex with
  | nil => intro rest h; exact absurd rfl h
  | cons c tex' ih =>
    intro rest _ hch
    obtain ⟨hnl, _⟩ := hch c (List.mem_cons_self c tex')
    simp only [List.cons_append, findIM, if_neg hnl]
    cases tex' with
    | nil =>
      simp [headIs]
    | cons d tex'' =>
      have hd : d ≠ '$' := (hch d (by simp)).2
      rw [if_neg (by simp [headIs, hd])]
      rw [show (d :: tex'').append ('$' :: rest) = d :: tex'' ++ '$' :: rest
        from rfl]
      rw [ih rest (by simp) (fun e he => hch e (List.mem_cons_of_mem c he))]

/-- The CJK bail-out of stage 5 on an exact inline-math span: the span is
consumed but emitted unchanged and the state is untouched. -/
theorem scan5_cjk_span {tex : Str} (hne : tex ≠ [])
    (hch : ∀ c ∈ tex, c ≠ '\n' ∧ c ≠ '$')
    (hcjk : hasCJK tex = true) (hmark : isSubstrB textMarker tex = false) :
    ∀ a st, scanRep matchMI a ('$' :: (tex ++ ['$'])) st =
      ('$' :: (tex ++ ['$']), st) := by
  intro a st
  have hfind : findIM (tex ++ ['$']) = some tex := by
    have := findIM_exact tex [] hne hch
    simpa using this
  have htake : ('$' :: (tex ++ ['$'])).take (1 + tex.length + 1) =
      '$' :: (tex ++ ['$']) := by
    apply List.take_of_length_le
    simp only [List.length_cons, List.length_append, List.length_nil]
    omega
  have hm : matchMI a ('$' :: (tex ++ ['$'])) st =
      some ('$' :: (tex ++ ['$']), 1 + tex.length + 1, st) := by
    simp [matchMI, hfind, hcjk, hmark, htake]
  rw [scanRep_cons_some hm]
  have hlen : max (1 + tex.length + 1) 1 = ('$' :: (tex ++ ['$'])).length := by
    simp
    omega
  rw [hlen, List.drop_length, scanRep_nil]
  simp

/-- C9 (amended): for every inline-math candidate `$tex$` whose body
contains a CJK ideograph (U+4E00–U+9FA5) and no explicit `\text` marker —
and which is otherwise a plain single-line candidate free of the other
protected delimiters — the encoder leaves the span unprotected: the
processed text is the span itself and no placeholder of any kind is
created. -/
theorem C9_cjk_literal_amended (tex : Str)
    (hne : tex ≠ []) (hnl : '\n' ∉ tex) (hnd : '$' ∉ tex)
    (hnb : btk ∉ tex) (hnbs : '\\' ∉ tex)
    (hcjk : hasCJK tex = true) (hmark : isSubstrB textMarker tex = false) :
    _protectCodeAndMath ('$' :: (tex ++ ['$'])) =
      ('$' :: (tex ++ ['$']), ⟨0, [], []⟩) := by
  set span := '$' :: (tex ++ ['$']) with hspan
  have hmemc : ∀ c ∈ span, c = '$' ∨ c ∈ tex := by
    intro c hc
    rcases List.mem_cons.mp hc with h | h
    · exact Or.inl h
    · rcases List.mem_append.mp h with h | h
      · exact Or.inr h
      · simp at h; exact Or.inl h
  have hspan_btk : btk ∉ span := by
    intro hm
    rcases hmemc btk hm with h | h
    · exact absurd h (by decide)
    · exact hnb h
  have hspan_bs : '\\' ∉ span := by
    intro hm
    rcases hmemc '\\' hm with h | h
    · exact absurd h (by decide)
    · exact hnbs h
  have hDD : isSubstrB ('$' :: ['$']) span = false := span_noDD hne hnd
  have hhead : ∀ i, i < span.length → ∃ c cs, span.drop i = c :: cs ∧
      c ∈ span := by
    intro i hi
    cases hd : span.drop i with
    | nil =>
      have := List.drop_eq_nil_iff.mp hd
      omega
    | cons c cs =>
      exact ⟨c, cs, rfl, mem_of_mem_dropStr (hd ▸ List.mem_cons_self c cs)⟩
  have h1 : ∀ st, scanRep matchCB true span st = (span, st) := by
    intro st
    exact scanRep_id_of_none span
      (fun i b _ => matchCB_none
        (noFence_of_no_btk (fun hm => hspan_btk (mem_of_mem_dropStr hm)))
        b st) true
  have h2 : ∀ st, scanRep matchCI true span st = (span, st) := by
    intro st
    refine scanRep_id_of_none span (fun i b hi => ?_) true
    obtain ⟨c, cs, hd, hc⟩ := hhead i hi
    rw [hd]
    refine matchCI_none (fun hcb => ?_) b st
    rcases hmemc c hc with h | h
    · exact absurd (hcb ▸ h) (by decide)
    · exact hnb (hcb ▸ h)
  have h3 : ∀ st, scanRep matchED true span st = (span, st) := by
    intro st
    refine scanRep_id_of_none span (fun i b hi => ?_) true
    obtain ⟨c, cs, hd, hc⟩ := hhead i hi
    rw [hd]
    exact matchED_none (fun hcb => hspan_bs (hcb ▸ hc)) b st
  have h4 : ∀ st, scanRep matchMB true span st = (span, st) := by
    intro st
    refine scanRep_id_of_none span (fun i b _ => ?_) true
    refine matchMB_none ?_ b st
    cases hdd : isSubstrB ('$' :: ['$']) (span.drop i)
    · rfl
    · rw [isSubstrB_drop hdd] at hDD
      exact absurd hDD (by simp)
  have hch : ∀ c ∈ tex, c ≠ '\n' ∧ c ≠ '$' :=
    fun c hc => ⟨fun h => hnl (h ▸ hc), fun h => hnd (h ▸ hc)⟩
  have h5 : ∀ st, scanRep matchMI true span st = (span, st) :=
    fun st => scan5_cjk_span hne hch hcjk hmark true st
  unfold _protectCodeAndMath
  rw [hspan]
  simp only [List.isEmpty_cons, Bool.false_eq_true, if_false, ← hspan,
    h1, h2, h3, h4, h5, restoreCodeKeys, List.foldl_nil]
  rw [if_neg (by simp [hspan])]

/-- C9 witness: a concrete CJK inline-math candidate is passed through the
whole encoder unchanged, with no placeholder created. -/
theorem C9_cjk_literal_amended_witness :
    _protectCodeAndMath ('$' :: (js "中" ++ ['$'])) =
      ('$' :: (js "中" ++ ['$']), ⟨0, [], []⟩) :=
  C9_cjk_literal_amended (js "中") (by decide) (by decide) (by decide)
    (by decide) (by decide) (by decide) (by decide)

theorem natDigitsF_ge : ∀ (f n : Nat), n ≤ f → natDigitsF f n = natDigits n := by
  intro f
  induction f using Nat.strong_induction_on with
  | _ f ih =>
    intro n hle
    match f, n with
    | f, 0 =>
      cases f with
      | zero => rfl
      | succ g => simp [natDigitsF, natDigits]
    | 0, n + 1 => exact absurd hle (by omega)
    | f + 1, n + 1 =>
      by_cases h10 : n + 1 < 10
      · simp [natDigitsF, natDigits, h10]
      · have hd2 : (n + 1) / 10 ≤ n := by
          have := Nat.div_lt_self (Nat.succ_pos n) (by norm_num : 1 < 10)
          omega
        simp only [natDigits, natDigitsF, if_neg h10]
        rw [ih f (by omega) _ (by omega), ih n (by omega) _ hd2]

theorem natDigits_eq (n : Nat) : natDigits n =
    if n < 10 then [Char.ofNat (48 + n)]
    else natDigits (n / 10) ++ [Char.ofNat (48 + n % 10)] := by
  cases n with
  | zero => decide
  | succ m =>
    by_cases h10 : m + 1 < 10
    · simp [natDigits, natDigitsF, h10]
    · have hd2 : (m + 1) / 10 ≤ m := by
        have := Nat.div_lt_self (Nat.succ_pos m) (by norm_num : 1 < 10)
        omega
      simp only [natDigits, natDigitsF, if_neg h10]
      rw [natDigitsF_ge m _ hd2]
      rfl

theorem digit_toNat : ∀ d, d < 10 → (Char.ofNat (48 + d)).toNat = 48 + d := by
  intro d hd
  interval_cases d <;> decide

theorem digitsToNat_natDigits : ∀ n, digitsToNat (natDigits n) = n := by
  intro n
  induction n using Nat.strong_induction_on with
  | _ n ih =>
    rw [natDigits_eq]
    by_cases h10 : n < 10
    · rw [if_pos h10]
      simp [digitsToNat, digit_toNat n h10]
    · rw [if_neg h10]
      have hrec := ih (n / 10) (Nat.div_lt_self (by omega) (by norm_num))
      have hmod := digit_toNat (n % 10) (Nat.mod_lt _ (by norm_num))
      simp only [digitsToNat, List.foldl_append, List.foldl_cons,
        List.foldl_nil] at hrec ⊢
      rw [hrec, hmod]
      omega

theorem natDigits_inj {a b : Nat} (h : natDigits a = natDigits b) : a = b := by
  have h2 := congrArg digitsToNat h
  rwa [digitsToNat_natDigits, digitsToNat_natDigits] at h2

theorem mkKey_inj {k₁ k₂ : TokKind} {n₁ n₂ : Nat}
    (h : mkKey k₁ n₁ = mkKey k₂ n₂) : k₁ = k₂ ∧ n₁ = n₂ := by
  cases k₁ <;> cases k₂ <;>
    simp only [mkKey, kindPre, kindSuf] at h ⊢
  all_goals
    first
    | (refine ⟨by trivial, natDigits_inj ?_⟩
       simp [js] at h
       exact h)
    | (exfalso; simp [js] at h)

theorem keysWF_insert_code {st : PState} (k : TokKind) (v : Str)
    (h : KeysWF st) :
    KeysWF { st with
      counter := st.counter + 1
      codeMap := st.codeMap ++ [(mkKey k st.counter, v)] } := by
  obtain ⟨hpw, hsh⟩ := h
  have hx : ∀ y ∈ allKeys st, y ≠ mkKey k st.counter := by
    intro y hy heq
    obtain ⟨k', n', hk', hn'⟩ := hsh y hy
    rw [hk'] at heq
    have := (mkKey_inj heq).2
    omega
  simp only [KeysWF, allKeys] at hpw hsh hx ⊢
  constructor
  · simp only [List.map_append, List.map_cons, List.map_nil]
    rw [List.pairwise_append] at hpw ⊢
    obtain ⟨hA, hB, hAB⟩ := hpw
    refine ⟨?_, hB, ?_⟩
    · rw [List.pairwise_append]
      refine ⟨hA, by simp, ?_⟩
      intro a ha b hb
      simp at hb
      subst hb
      exact hx a (List.mem_append_left _ ha)
    · intro a ha b hb
      rcases List.mem_append.mp ha with ha' | ha'
      · exact hAB a ha' b hb
      · simp at ha'
        subst ha'
        exact fun heq =>
          hx b (List.mem_append_right _ hb) heq.symm
  · intro key hkey
    simp only [List.map_append, List.map_cons, List.map_nil] at hkey
    rcases List.mem_append.mp hkey with hk | hk
    · rcases List.mem_append.mp hk with hk' | hk'
      · obtain ⟨k', n', he, hn⟩ := hsh key (List.mem_append_left _ hk')
        exact ⟨k', n', he, by omega⟩
      · simp at hk'
        exact ⟨k, st.counter, hk', by omega⟩
    · obtain ⟨k', n', he, hn⟩ := hsh key (List.mem_append_right _ hk)
      exact ⟨k', n', he, by omega⟩

theorem keysWF_insert_math {st : PState} (k : TokKind) (tex : Str) (d : Bool)
    (h : KeysWF st) :
    KeysWF { st with
      counter := st.counter + 1
      mathMap := st.mathMap ++ [(mkKey k st.counter, tex, d)] } := by
  obtain ⟨hpw, hsh⟩ := h
  have hx : ∀ y ∈ allKeys st, y ≠ mkKey k st.counter := by
    intro y hy heq
    obtain ⟨k', n', hk', hn'⟩ := hsh y hy
    rw [hk'] at heq
    have := (mkKey_inj heq).2
    omega
  simp only [KeysWF, allKeys] at hpw hsh hx ⊢
  constructor
  · simp only [List.map_append, List.map_cons, List.map_nil]
    rw [← List.append_assoc]
    rw [List.pairwise_append]
    rw [List.pairwise_append] at hpw
    obtain ⟨hA, hB, hAB⟩ := hpw
    refine ⟨?_, by simp, ?_⟩
    · rw [List.pairwise_append]
      exact ⟨hA, hB, hAB⟩
    · intro a ha b hb
      simp at hb
      subst hb
      exact hx a ha
  · intro key hkey
    simp only [List.map_append, List.map_cons, List.map_nil] at hkey
    rcases List.mem_append.mp hkey with hk | hk
    · obtain ⟨k', n', he, hn⟩ := hsh key (List.mem_append_left _ hk)
      exact ⟨k', n', he, by omega⟩
    · rcases List.mem_append.mp hk with hk' | hk'
      · obtain ⟨k', n', he, hn⟩ := hsh key (List.mem_append_right _ hk')
        exact ⟨k', n', he, by omega⟩
      · simp at hk'
        exact ⟨k, st.counter, hk', by omega⟩

theorem matchCB_keysWF {b : Bool} {s : Str} {st : PState}
    {r : Str × Nat × PState} (h : matchCB b s st = some r)
    (hwf : KeysWF st) : KeysWF r.2.2 := by
  unfold matchCB at h
  split at h
  · cases hf : findFence (s.drop 4) with
    | none => rw [hf] at h; exact absurd h (by simp)
    | some br =>
      rw [hf] at h
      cases h
      exact keysWF_insert_code .cb _ hwf
  · split at h
    · cases hf : findFence (s.drop 3) with
      | none => rw [hf] at h; exact absurd h (by simp)
      | some br =>
        rw [hf] at h
        cases h
        exact keysWF_insert_code .cb _ hwf
    · exact absurd h (by simp)

theorem matchCI_keysWF {b : Bool} {s : Str} {st : PState}
    {r : Str × Nat × PState} (h : matchCI b s st = some r)
    (hwf : KeysWF st) : KeysWF r.2.2 := by
  unfold matchCI at h
  split at h
  · exact absurd h (by simp)
  · cases ht : tryInline (btkRun s) s with
    | none => rw [ht] at h; exact absurd h (by simp)
    | some len =>
      rw [ht] at h
      cases h
      exact keysWF_insert_code .ci _ hwf

theorem matchED_keysWF {b : Bool} {s : Str} {st : PState}
    {r : Str × Nat × PState} (h : matchED b s st = some r)
    (hwf : KeysWF st) : KeysWF r.2.2 := by
  unfold matchED at h
  split at h
  · cases h
    exact keysWF_insert_code .ed _ hwf
  · exact absurd h (by simp)

theorem matchMB_keysWF {b : Bool} {s : Str} {st : PState}
    {r : Str × Nat × PState} (h : matchMB b s st = some r)
    (hwf : KeysWF st) : KeysWF r.2.2 := by
  unfold matchMB at h
  split at h
  · cases hf : findMB (s.drop 3) with
    | none => rw [hf] at h; exact absurd h (by simp)
    | some br =>
      rw [hf] at h
      obtain ⟨body, suf⟩ := br
      cases h
      exact keysWF_insert_math .mb _ _ hwf
  · split at h
    · cases hf : findMB (s.drop 2) with
      | none => rw [hf] at h; exact absurd h (by simp)
      | some br =>
        rw [hf] at h
        obtain ⟨body, suf⟩ := br
        cases h
        exact keysWF_insert_math .mb _ _ hwf
    · exact absurd h (by simp)

theorem matchMI_keysWF {b : Bool} {s : Str} {st : PState}
    {r : Str × Nat × PState} (h : matchMI b s st = some r)
    (hwf : KeysWF st) : KeysWF r.2.2 := by
  cases s with
  | nil => exact absurd h (by simp [matchMI])
  | cons c rest =>
    simp only [matchMI] at h
    split at h
    · split at h
      next tex hf =>
        by_cases hc : (hasCJK tex && !isSubstrB textMarker tex) = true
        · rw [if_pos hc] at h
          cases h
          exact hwf
        · rw [if_neg hc] at h
          cases h
          exact keysWF_insert_math .mi _ _ hwf
      next => exact absurd h (by simp)
    · exact absurd h (by simp)

theorem scanRep_keysWF {M : StageMatcher}
    (hM : ∀ b s st r, M b s st = some r → KeysWF st → KeysWF r.2.2) :
    ∀ (n : Nat) (s : Str), s.length ≤ n → ∀ a st, KeysWF st →
      KeysWF (scanRep M a s st).2 := by
  intro n
  induction n with
  | zero =>
    intro s hs a st hwf
    cases s with
    | nil => rw [scanRep_nil]; exact hwf
    | cons c cs => simp at hs
  | succ m ih =>
    intro s hs a st hwf
    cases s with
    | nil => rw [scanRep_nil]; exact hwf
    | cons c cs =>
      cases hm : M a (c :: cs) st with
      | none =>
        rw [scanRep_cons_none hm]
        exact ih cs (by simpa using hs) false st hwf
      | some r =>
        obtain ⟨out, k, st'⟩ := r
        rw [scanRep_cons_some hm]
        refine ih _ ?_ false st' (hM a _ st _ hm hwf)
        simp only [List.length_drop, List.length_cons]
        simp only [List.length_cons] at hs
        omega

theorem keysWF_empty : KeysWF ⟨0, [], []⟩ := by
  constructor
  · simp [allKeys]
  · intro key hk
    simp [allKeys] at hk

/-- The bookkeeping invariant holds at the end of every encode pass. -/
theorem protect_keysWF (text : Str) :
    KeysWF (_protectCodeAndMath text).2 := by
  unfold _protectCodeAndMath
  split
  · exact keysWF_empty
  · simp only []
    exact scanRep_keysWF (fun _ _ _ _ h hw => matchMI_keysWF h hw) _ _ (le_refl _) _ _
      (scanRep_keysWF (fun _ _ _ _ h hw => matchMB_keysWF h hw) _ _ (le_refl _) _ _
        (scanRep_keysWF (fun _ _ _ _ h hw => matchED_keysWF h hw) _ _ (le_refl _) _ _
          (scanRep_keysWF (fun _ _ _ _ h hw => matchCI_keysWF h hw) _ _ (le_refl _) _ _
            (scanRep_keysWF (fun _ _ _ _ h hw => matchCB_keysWF h hw) _ _ (le_refl _) _ _
              keysWF_empty))))

/-- Any token shape starts with 'C', 'E' or 'M': a document containing
none of those characters contains no token-shaped substring. -/
theorem noTok_of_no_heads {s : Str} (hC : 'C' ∉ s) (hE : 'E' ∉ s)
    (hM : 'M' ∉ s) : ∀ k n, isSubstrB (mkKey k n) s = false := by
  intro k n
  cases hss : isSubstrB (mkKey k n) s
  · rfl
  · exfalso
    have hmem := mem_of_isSubstrB hss
    cases k with
    | cb => exact hC (hmem 'C' (by simp [mkKey, kindPre, js]))
    | ci => exact hC (hmem 'C' (by simp [mkKey, kindPre, js]))
    | ed => exact hE (hmem 'E' (by simp [mkKey, kindPre, js]))
    | mb => exact hM (hmem 'M' (by simp [mkKey, kindPre, js]))
    | mi => exact hM (hmem 'M' (by simp [mkKey, kindPre, js]))

/-- C6 (amended): the placeholder tokens generated in one encode pass are
pairwise distinct (the shared counter increases strictly and the key shape
is injective), and they never collide with the literal text of a document
that contains no token-shaped substring.  (A document that does contain
one can collide — see the counterexample.) -/
theorem C6_tokens_distinct_amended (text : Str)
    (hno : ∀ k n, isSubstrB (mkKey k n) text = false) :
    List.Pairwise (· ≠ ·) (allKeys (_protectCodeAndMath text).2) ∧
    ∀ key ∈ allKeys (_protectCodeAndMath text).2,
      isSubstrB key text = false := by
  have hwf := protect_keysWF text
  refine ⟨hwf.1, ?_⟩
  intro key hk
  obtain ⟨k, n, he, _⟩ := hwf.2 key hk
  rw [he]
  exact hno k n

/-- C6 witness: on a concrete document with one fenced block, one inline
code span and one math expression, the three generated tokens are pairwise
distinct and collide with nothing. -/
theorem C6_tokens_distinct_amended_witness :
    List.Pairwise (· ≠ ·)
      (allKeys (_protectCodeAndMath (js "hi `a` $x$\n```js\nf()\n```")).2) ∧
    (allKeys (_protectCodeAndMath (js "hi `a` $x$\n```js\nf()\n```")).2).length
      = 3 :=
  ⟨(C6_tokens_distinct_amended (js "hi `a` $x$\n```js\nf()\n```")
      (noTok_of_no_heads (by decide) (by decide) (by decide))).1,
   by decide⟩

/-- C3 (counterexample): the placeholder round trip can leak a token.  On
the document "CODEBLOCK0ENDCODE\n```a```" (whose literal text collides
with the generated key) the encode pass followed by the math restore pass
leaves the literal placeholder token `CODEBLOCK0ENDCODE` in the final
output: the restore substituted the colliding literal occurrence instead
of the placeholder. -/
theorem C3_roundtrip_counterexample :
    _restoreAndRenderMath (fun _ _ => .ok [])
        (_protectCodeAndMath (js "CODEBLOCK0ENDCODE\n```a```")).2.mathMap
        (_protectCodeAndMath (js "CODEBLOCK0ENDCODE\n```a```")).1 =
      js "\n```a```CODEBLOCK0ENDCODE" := by decide

theorem renderSts_cons (ss : SegSt) (sts : List SegSt) :
    renderSts (ss :: sts) = renderSegSt ss ++ renderSts sts := by
  simp [renderSts]

theorem renderSts_nil : renderSts [] = [] := rfl

theorem pfx_false_head {c d : Char} {w t : Str} (h : d ≠ c) :
    (d :: w).isPrefixOf (c :: t) = false := by
  simp [List.isPrefixOf, h]

theorem pfx_false_second {c1 c2 d1 d2 : Char} {w t : Str} (h : d2 ≠ c2) :
    (d1 :: d2 :: w).isPrefixOf (c1 :: c2 :: t) = false := by
  simp [List.isPrefixOf, h]

/-- Passing an unmatched span through a scan: the span is copied and the
scan continues after it with a cleared at-start flag. -/
theorem scanRep_skip {M : StageMatcher} {st : PState} :
    ∀ (u : Str) (R : Str) (a : Bool), KillsOn M st a u R →
      scanRep M a (u ++ R) st =
        (u ++ (scanRep M (contFlag u a) R st).1,
          (scanRep M (contFlag u a) R st).2) := by
  intro u
  induction u with
  | nil => intro R a _; simp [contFlag]
  | cons c u' ih =>
    intro R a h
    have h0 : M a ((c :: u') ++ R) st = none :=
      h.1 (by simp) a (Or.inl rfl)
    rw [show (c :: u') ++ R = c :: (u' ++ R) from rfl] at h0 ⊢
    rw [scanRep_cons_none h0]
    have hK : KillsOn M st false u' R := by
      refine ⟨?_, ?_⟩
      · intro hne b hb
        have h1 := h.2 1 (le_refl 1) (by
          cases u' with
          | nil => exact absurd rfl hne
          | cons x xs => simp)
        simpa using hb.elim (fun e => e ▸ h1) (fun e => e ▸ h1)
      · intro i hi1 hilt
        have := h.2 (i + 1) (by omega) (by simpa using Nat.succ_lt_succ hilt)
        simpa using this
    rw [ih R false hK]
    have hcf : contFlag u' false = false := by
      unfold contFlag; split <;> rfl
    have hcf2 : contFlag (c :: u') a = false := by
      unfold contFlag; simp
    rw [hcf, hcf2]
    simp

/-- Gluing two kill spans. -/
theorem killsOn_append {M : StageMatcher} {st : PState} {a : Bool}
    {u v R : Str} (hu : u ≠ [])
    (h1 : KillsOn M st a u (v ++ R)) (h2 : KillsOn M st false v R) :
    KillsOn M st a (u ++ v) R := by
  refine ⟨?_, ?_⟩
  · intro _ b hb
    rw [List.append_assoc]
    exact h1.1 hu b hb
  · intro i hi1 hilt
    by_cases hiu : i < u.length
    · rw [List.drop_append_of_le_length (Nat.le_of_lt hiu), List.append_assoc]
      exact h1.2 i hi1 hiu
    · push_neg at hiu
      have hi : i = u.length + (i - u.length) := by omega
      rw [hi, List.drop_append]
      have hlt : i - u.length < v.length := by
        have := hilt
        simp only [List.length_append] at this
        omega
      rcases Nat.eq_zero_or_pos (i - u.length) with hz | hp
      · rw [hz, List.drop_zero]
        have hv : v ≠ [] := by
          intro he
          rw [he] at hlt
          simp at hlt
        exact h2.1 hv false (Or.inr rfl)
      · exact h2.2 (i - u.length) hp hlt

theorem drop_shape {u : Str} {i : Nat} (h : i < u.length) :
    ∃ c w, u.drop i = c :: w ∧ c ∈ u ∧ ∀ x ∈ w, x ∈ u := by
  refine ⟨u[i], u.drop (i + 1), List.drop_eq_getElem_cons h,
    List.getElem_mem h, ?_⟩
  intro x hx
  exact List.drop_subset _ _ hx

/-- Building a kill span from a uniform per-position kill. -/
theorem killsOn_of_all {M : StageMatcher} {st : PState} {u R : Str} {a : Bool}
    (h : ∀ i, i < u.length → ∀ b, M b (u.drop i ++ R) st = none) :
    KillsOn M st a u R := by
  refine ⟨?_, fun i _ hilt => h i hilt false⟩
  intro hne b _
  have h0 := h 0 (by cases u with
    | nil => exact absurd rfl hne
    | cons x xs => simp) b
  simpa using h0

/-- Building a kill span from characters that kill the matcher with no
lookahead. -/
theorem killsOn_of_chars {M : StageMatcher} {st : PState} {u R : Str}
    {a : Bool}
    (h : ∀ c ∈ u, ∀ (t : Str) (b : Bool), M b (c :: t) st = none) :
    KillsOn M st a u R := by
  apply killsOn_of_all
  intro i hilt b
  obtain ⟨c, w, hdrop, hcm, _⟩ := drop_shape hilt
  rw [hdrop, List.cons_append]
  exact h c hcm _ b

/-- A single-character kill span. -/
theorem killsOn_single {M : StageMatcher} {st : PState} {c : Char} {R : Str}
    {a : Bool} (h : ∀ b, (b = a ∨ b = false) → M b (c :: R) st = none) :
    KillsOn M st a [c] R := by
  refine ⟨fun _ b hb => h b hb, fun i hi1 hilt => ?_⟩
  simp at hilt
  omega

theorem matchCB_kill {s : Str}
    (h1 : ('\n' :: fenceMarker).isPrefixOf s = false)
    (h2 : fenceMarker.isPrefixOf s = false) :
    ∀ b st, matchCB b s st = none := by
  intro b st
  unfold matchCB
  rw [h1, h2]
  simp

theorem matchCB_false_kill {s : Str}
    (h1 : ('\n' :: fenceMarker).isPrefixOf s = false) :
    ∀ st, matchCB false s st = none := by
  intro st
  unfold matchCB
  rw [h1]
  simp

theorem matchMB_kill {s : Str}
    (h1 : ('\n' :: '$' :: ['$']).isPrefixOf s = false)
    (h2 : ('$' :: ['$']).isPrefixOf s = false) :
    ∀ b st, matchMB b s st = none := by
  intro b st
  unfold matchMB
  rw [h1, h2]
  simp

theorem matchMB_false_kill {s : Str}
    (h1 : ('\n' :: '$' :: ['$']).isPrefixOf s = false) :
    ∀ st, matchMB false s st = none := by
  intro st
  unfold matchMB
  rw [h1]
  simp

/-- Stage-1 kill span: a backtick-free span; where a newline in it abuts
the following text, no fence may start there. -/
theorem kills1_span {st : PState} {u R : Str} {a : Bool}
    (hb : btk ∉ u)
    (hR : '\n' ∈ u → fenceMarker.isPrefixOf R = false) :
    KillsOn matchCB st a u R := by
  apply killsOn_of_all
  intro i hilt b
  obtain ⟨c, w, hdrop, hcm, hwm⟩ := drop_shape hilt
  rw [hdrop, List.cons_append]
  have hcb : c ≠ btk := fun he => hb (he ▸ hcm)
  apply matchCB_kill
  · by_cases hcn : c = '\n'
    · subst hcn
      have hred : ('\n' :: fenceMarker).isPrefixOf ('\n' :: (w ++ R)) =
          fenceMarker.isPrefixOf (w ++ R) := by
        simp [List.isPrefixOf]
      rw [hred]
      cases w with
      | nil => simpa using hR hcm
      | cons c' w' =>
        have hc' : c' ≠ btk := fun he => hb (he ▸ hwm c' (by simp))
        rw [List.cons_append,
          show fenceMarker = btk :: btk :: [btk] from rfl]
        exact pfx_false_head (fun he => hc' he.symm)
    · exact pfx_false_head (fun he => hcn he.symm)
  · rw [show fenceMarker = btk :: btk :: [btk] from rfl]
    exact pfx_false_head (fun he => hcb he.symm)

/-- Stage-2 kill span: a backtick-free span never matches an inline code
pattern. -/
theorem kills2_span {st : PState} {u R : Str} {a : Bool} (hb : btk ∉ u) :
    KillsOn matchCI st a u R := by
  apply killsOn_of_chars
  intro c hc t b
  exact matchCI_none (fun he => hb (he ▸ hc)) b st

/-- Stage-3 kill span: a dollar-free span not ending in a backslash against
a dollar (no `\$` can start inside it). -/
theorem kills3_span {st : PState} {u R : Str} {a : Bool}
    (hd : '$' ∉ u)
    (hl : u.getLast? = some '\\' → headIs '$' R = false) :
    KillsOn matchED st a u R := by
  apply killsOn_of_all
  intro i hilt b
  obtain ⟨c, w, hdrop, hcm, hwm⟩ := drop_shape hilt
  rw [hdrop, List.cons_append]
  by_cases hcb : c = '\\'
  · subst hcb
    unfold matchED
    have hc : ('\\' :: ['$']).isPrefixOf ('\\' :: (w ++ R)) = false := by
      cases w with
      | nil =>
        have hlast : u.getLast? = some '\\' := by
          have hu : u = u.take i ++ ['\\'] := by
            conv_lhs => rw [← List.take_append_drop i u]
            rw [hdrop]

          rw [hu, List.getLast?_concat]
        have := hl hlast
        simp only [List.nil_append]
        cases R with
        | nil => rfl
        | cons r rs =>
          simp [headIs] at this
          simp [List.isPrefixOf]
          exact fun he => absurd he.symm this
      | cons c' w' =>
        have hc' : c' ≠ '$' := fun he => hd (he ▸ hwm c' (by simp))
        rw [List.cons_append]
        exact pfx_false_second (fun he => hc' he.symm)
    rw [hc]
    simp
  · exact matchED_none hcb b st

/-- Stage-4 kill span: a dollar-free span; where a newline in it abuts the
following text, no `$$` may start there. -/
theorem kills4_span {st : PState} {u R : Str} {a : Bool}
    (hd : '$' ∉ u)
    (hR : '\n' ∈ u → ('$' :: ['$']).isPrefixOf R = false) :
    KillsOn matchMB st a u R := by
  apply killsOn_of_all
  intro i hilt b
  obtain ⟨c, w, hdrop, hcm, hwm⟩ := drop_shape hilt
  rw [hdrop, List.cons_append]
  have hcd : c ≠ '$' := fun he => hd (he ▸ hcm)
  apply matchMB_kill
  · by_cases hcn : c = '\n'
    · subst hcn
      have hred : ('\n' :: '$' :: ['$']).isPrefixOf ('\n' :: (w ++ R)) =
          ('$' :: ['$']).isPrefixOf (w ++ R) := by
        simp [List.isPrefixOf]
      rw [hred]
      cases w with
      | nil => simpa using hR hcm
      | cons c' w' =>
        have hc' : c' ≠ '$' := fun he => hd (he ▸ hwm c' (by simp))
        rw [List.cons_append]
        exact pfx_false_head (fun he => hc' he.symm)
    · exact pfx_false_head (fun he => hcn he.symm)
  · exact pfx_false_head (fun he => hcd he.symm)

/-- Stage-5 kill span: a dollar-free span. -/
theorem kills5_span {st : PState} {u R : Str} {a : Bool} (hd : '$' ∉ u) :
    KillsOn matchMI st a u R := by
  apply killsOn_of_chars
  intro c hc t b
  exact matchMI_none (fun he => hd (he ▸ hc)) b st

/-- An inline code span is passed through by stage 1. -/
theorem kills1_icode {st : PState} {R b : Str} {a : Bool}
    (hne : b ≠ []) (hb : btk ∉ b) (hnl : '\n' ∉ b) :
    KillsOn matchCB st a (btk :: (b ++ [btk])) R := by
  have h3 : KillsOn matchCB st false [btk] R := by
    apply killsOn_single
    intro b' hb'
    have hb0 : b' = false := hb'.elim id id
    subst hb0
    exact matchCB_false_kill (pfx_false_head (by decide)) st
  have h2 : KillsOn matchCB st false b ([btk] ++ R) := by
    apply kills1_span hb
    intro hmem
    exact absurd hmem hnl
  have h1 : KillsOn matchCB st a [btk] ((b ++ [btk]) ++ R) := by
    apply killsOn_single
    intro b' _
    apply matchCB_kill
    · exact pfx_false_head (by decide)
    · cases b with
      | nil => exact absurd rfl hne
      | cons c0 b' =>
        have hc0 : c0 ≠ btk := fun he => hb (he ▸ List.mem_cons_self c0 b')
        exact pfx_false_second (fun he => hc0 he.symm)
  have := killsOn_append (by simp) h1 (killsOn_append hne h2 h3)
  simpa using this

/-- An inline formula is passed through by stage 4. -/
theorem kills4_minline {st : PState} {R t : Str} {a : Bool}
    (hne : t ≠ []) (hd : '$' ∉ t) (hnl : '\n' ∉ t) :
    KillsOn matchMB st a ('$' :: (t ++ ['$'])) R := by
  have h3 : KillsOn matchMB st false ['$'] R := by
    apply killsOn_single
    intro b' hb'
    have hb0 : b' = false := hb'.elim id id
    subst hb0
    exact matchMB_false_kill (pfx_false_head (by decide)) st
  have h2 : KillsOn matchMB st false t (['$'] ++ R) := by
    apply kills4_span hd
    intro hmem
    exact absurd hmem hnl
  have h1 : KillsOn matchMB st a ['$'] ((t ++ ['$']) ++ R) := by
    apply killsOn_single
    intro b' _
    apply matchMB_kill
    · exact pfx_false_head (by decide)
    · cases t with
      | nil => exact absurd rfl hne
      | cons c0 t' =>
        have hc0 : c0 ≠ '$' := fun he => hd (he ▸ List.mem_cons_self c0 t')
        rw [List.cons_append, List.cons_append]
        exact pfx_false_second (fun he => hc0 he.symm)
  have := killsOn_append (by simp) h1 (killsOn_append hne h2 h3)
  simpa using this

theorem digits_chars : ∀ n, ∀ c ∈ natDigits n, isDigC c = true := by
  intro n
  induction n using Nat.strong_induction_on with
  | _ n ih =>
    intro c hc
    rw [natDigits_eq] at hc
    by_cases h10 : n < 10
    · rw [if_pos h10] at hc
      simp at hc
      subst hc
      simp [isDigC, digit_toNat n h10]
      omega
    · rw [if_neg h10] at hc
      rcases List.mem_append.mp hc with h | h
      · exact ih (n / 10) (Nat.div_lt_self (by omega) (by norm_num)) c h
      · simp at h
        subst h
        have hm : n % 10 < 10 := Nat.mod_lt _ (by norm_num)
        simp [isDigC, digit_toNat _ hm]
        omega

theorem pre_chars : ∀ k, ∀ c ∈ kindPre k, isUpC c = true := by
  intro k
  cases k <;> decide

theorem suf_chars : ∀ k, ∀ c ∈ kindSuf k, isUpC c = true := by
  intro k
  cases k <;> decide

theorem mkKey_chars {k : TokKind} {n : Nat} {c : Char}
    (h : c ∈ mkKey k n) : tokChar c = true := by
  simp only [mkKey, List.append_assoc, List.mem_append] at h
  rcases h with h | h | h
  · simp [tokChar, pre_chars k c h]
  · simp [tokChar, digits_chars n c h]
  · simp [tokChar, suf_chars k c h]

theorem upC_vals {c : Char} (h : isUpC c = true) :
    c ≠ btk ∧ c ≠ '$' ∧ c ≠ '\n' ∧ c ≠ '\\' := by
  simp [isUpC] at h
  refine ⟨?_, ?_, ?_, ?_⟩ <;> (intro he; subst he; revert h; decide)

theorem digC_vals {c : Char} (h : isDigC c = true) :
    c ≠ btk ∧ c ≠ '$' ∧ c ≠ '\n' ∧ c ≠ '\\' := by
  simp [isDigC] at h
  refine ⟨?_, ?_, ?_, ?_⟩ <;> (intro he; subst he; revert h; decide)

theorem tokChar_vals {c : Char} (h : tokChar c = true) :
    c ≠ btk ∧ c ≠ '$' ∧ c ≠ '\n' ∧ c ≠ '\\' := by
  rcases Bool.or_eq_true_iff.mp h with h | h
  · exact upC_vals h
  · exact digC_vals h

theorem mkKey_no_btk {k : TokKind} {n : Nat} : btk ∉ mkKey k n := by
  intro h
  exact absurd rfl (tokChar_vals (mkKey_chars h)).1

theorem mkKey_no_dollar {k : TokKind} {n : Nat} : '$' ∉ mkKey k n := by
  intro h
  exact absurd rfl (tokChar_vals (mkKey_chars h)).2.1

theorem mkKey_no_nl {k : TokKind} {n : Nat} : '\n' ∉ mkKey k n := by
  intro h
  exact absurd rfl (tokChar_vals (mkKey_chars h)).2.2.1

theorem mkKey_no_bsl {k : TokKind} {n : Nat} : '\\' ∉ mkKey k n := by
  intro h
  exact absurd rfl (tokChar_vals (mkKey_chars h)).2.2.2

theorem findFence_exact : ∀ (b R : Str), btk ∉ b →
    findFence (b ++ (fenceMarker ++ R)) = some (b, R) := by
  intro b
  induction b with
  | nil =>
    intro R _
    rw [List.nil_append]
    have hp : fenceMarker.isPrefixOf (btk :: btk :: btk :: R) = true := by
      rw [show (btk :: btk :: btk :: R : Str) = fenceMarker ++ R from rfl,
        List.isPrefixOf_iff_prefix]
      exact List.prefix_append _ _
    rw [show fenceMarker ++ R = btk :: (btk :: btk :: R) from rfl]
    unfold findFence
    rw [if_pos hp]
    rfl
  | cons c b' ih =>
    intro R hb
    have hc : c ≠ btk := fun he => hb (he ▸ List.mem_cons_self c b')
    have hb' : btk ∉ b' := fun hm => hb (List.mem_cons_of_mem c hm)
    rw [List.cons_append]
    unfold findFence
    have hpf : fenceMarker.isPrefixOf (c :: (b' ++ (fenceMarker ++ R))) =
        false :=
      pfx_false_head (fun he => hc he.symm)
    rw [hpf, ih R hb']
    simp

theorem findTicks1_exact : ∀ (b R : Str), btk ∉ b →
    (∀ c ∈ b, dotChar c = true) →
    findTicks 1 (b ++ btk :: R) = some (b, b.length + 1) := by
  intro b
  induction b with
  | nil =>
    intro R _ _
    rw [List.nil_append]
    show (if (List.replicate 1 btk).isPrefixOf (btk :: R) then
      some (([] : Str), 1)
      else _) = some ([], 1)
    rw [if_pos (by simp [List.replicate, List.isPrefixOf])]
  | cons c b' ih =>
    intro R hb hdot
    have hc : c ≠ btk := fun he => hb (he ▸ List.mem_cons_self c b')
    rw [List.cons_append]
    show (if (List.replicate 1 btk).isPrefixOf (c :: (b' ++ btk :: R)) then
      some (([] : Str), 1)
      else if !dotChar c then none
      else match findTicks 1 (b' ++ btk :: R) with
        | some (b, t) => some (c :: b, t + 1)
        | none => none) = _
    rw [if_neg (by
      simp [List.replicate, List.isPrefixOf]
      exact fun he => absurd he.symm hc)]
    rw [if_neg (by simp [hdot c (List.mem_cons_self c b')])]
    rw [ih R (fun hm => hb (List.mem_cons_of_mem c hm))
      (fun x hx => hdot x (List.mem_cons_of_mem c hx))]
    simp [Nat.add_comm]

theorem findMB_exact : ∀ (t R : Str), t ≠ [] → '$' ∉ t →
    findMB (t ++ '$' :: '$' :: '\n' :: R) = some (t, ['\n']) := by
  intro t
  induction t with
  | nil => intro R h; exact absurd rfl h
  | cons x t' ih =>
    intro R _ hd
    have hd' : '$' ∉ t' := fun hm => hd (List.mem_cons_of_mem x hm)
    rw [List.cons_append]
    show (match mbSuffix (t' ++ '$' :: '$' :: '\n' :: R) with
      | some suf => some ([x], suf)
      | none =>
        match findMB (t' ++ '$' :: '$' :: '\n' :: R) with
        | some (b, suf) => some (x :: b, suf)
        | none => none) = _
    cases t' with
    | nil =>
      have hsuf : mbSuffix ('$' :: '$' :: '\n' :: R) = some ['\n'] := by
        simp [mbSuffix, List.isPrefixOf]
      rw [List.nil_append, hsuf]
    | cons y t'' =>
      have hy : y ≠ '$' := fun he => hd' (he ▸ List.mem_cons_self y t'')
      have hsuf : mbSuffix ((y :: t'') ++ '$' :: '$' :: '\n' :: R) = none := by
        unfold mbSuffix
        rw [List.cons_append, pfx_false_head (fun he => hy he.symm)]
        simp
      rw [hsuf, ih R (by simp) hd']

theorem btkRun_zero {c : Char} {cs : Str} (h : c ≠ btk) :
    btkRun (c :: cs) = 0 := by
  simp [btkRun, h]

/-- Stage-1 firing on a fenced block. -/
theorem fireCB {b : Str} (hb : btk ∉ b) :
    ∀ (bf : Bool) (st : PState) (R : Str),
      matchCB bf (renderSeg (Seg.fenced b) ++ R) st =
        some (mkKey .cb st.counter, 7 + b.length,
          { st with
            counter := st.counter + 1
            codeMap := st.codeMap ++
              [(mkKey .cb st.counter, renderSeg (Seg.fenced b))] }) := by
  intro bf st R
  have hsp : renderSeg (Seg.fenced b) ++ R =
      '\n' :: (fenceMarker ++ (b ++ (fenceMarker ++ R))) := by
    simp [renderSeg]
  rw [hsp]
  unfold matchCB
  rw [if_pos (by
    rw [List.isPrefixOf_iff_prefix]
    exact ⟨b ++ (fenceMarker ++ R), by simp⟩)]
  have hdrop : ('\n' :: (fenceMarker ++ (b ++ (fenceMarker ++ R)))).drop 4 =
      b ++ (fenceMarker ++ R) := by
    rw [show ('\n' :: (fenceMarker ++ (b ++ (fenceMarker ++ R))) : Str).drop 4 =
      (fenceMarker ++ (b ++ (fenceMarker ++ R))).drop 3 from rfl]
    rw [show (3 : Nat) = fenceMarker.length from rfl, List.drop_left]
  rw [hdrop, findFence_exact b R hb]
  have hlen : 4 + b.length + 3 = 7 + b.length := by omega
  have hlen2 : (renderSeg (Seg.fenced b)).length = 4 + b.length + 3 := by
    simp [renderSeg, fenceMarker]
    omega
  have htake : ('\n' :: (fenceMarker ++ (b ++ (fenceMarker ++ R)))).take
      (4 + b.length + 3) = renderSeg (Seg.fenced b) := by
    rw [← hsp]
    exact List.take_left' hlen2
  dsimp only
  rw [htake, hlen]

/-- Stage-2 firing on an inline code span. -/
theorem fireCI {b : Str} (hne : b ≠ []) (hb : btk ∉ b)
    (hdot : ∀ c ∈ b, dotChar c = true) :
    ∀ (bf : Bool) (st : PState) (R : Str),
      matchCI bf (renderSeg (Seg.icode b) ++ R) st =
        some (mkKey .ci st.counter, b.length + 2,
          { st with
            counter := st.counter + 1
            codeMap := st.codeMap ++
              [(mkKey .ci st.counter, renderSeg (Seg.icode b))] }) := by
  intro bf st R
  have hsp : renderSeg (Seg.icode b) ++ R = btk :: (b ++ btk :: R) := by
    simp [renderSeg]
  rw [hsp]
  have hrun : btkRun (btk :: (b ++ btk :: R)) = 1 := by
    cases b with
    | nil => exact absurd rfl hne
    | cons c0 b' =>
      have hc0 : c0 ≠ btk := fun he => hb (he ▸ List.mem_cons_self c0 b')
      rw [show btkRun (btk :: ((c0 :: b') ++ btk :: R)) =
        btkRun ((c0 :: b') ++ btk :: R) + 1 from by simp [btkRun]]
      rw [List.cons_append, btkRun_zero hc0]
  unfold matchCI
  rw [hrun]
  have htry : tryInline 1 (btk :: (b ++ btk :: R)) = some (b.length + 2) := by
    show (match findTicks 1 ((btk :: (b ++ btk :: R)).drop 1) with
      | some (_, t) => some (0 + 1 + t)
      | none => tryInline 0 (btk :: (b ++ btk :: R))) = _
    rw [show ((btk :: (b ++ btk :: R)) : Str).drop 1 = b ++ btk :: R from rfl]
    rw [findTicks1_exact b R hb hdot]
    have harith : 0 + 1 + (b.length + 1) = b.length + 2 := by omega
    dsimp only
    rw [harith]
  rw [htry]
  rw [if_neg (by omega : ¬(1 = 0))]
  have hlen2 : (renderSeg (Seg.icode b)).length = b.length + 2 := by
    simp [renderSeg]
  have htake : (btk :: (b ++ btk :: R)).take (b.length + 2) =
      renderSeg (Seg.icode b) := by
    rw [← hsp]
    exact List.take_left' hlen2
  dsimp only
  rw [htake]

/-- Stage-4 firing on a display formula. -/
theorem fireMB {t : Str} (hne : t ≠ []) (hd : '$' ∉ t) :
    ∀ (bf : Bool) (st : PState) (R : Str),
      matchMB bf (renderSeg (Seg.mblock t) ++ R) st =
        some ('\n' :: (mkKey .mb st.counter ++ ['\n']), 6 + t.length,
          { st with
            counter := st.counter + 1
            mathMap := st.mathMap ++ [(mkKey .mb st.counter, t, true)] }) := by
  intro bf st R
  have hsp : renderSeg (Seg.mblock t) ++ R =
      '\n' :: '$' :: '$' :: (t ++ '$' :: '$' :: '\n' :: R) := by
    simp [renderSeg]
  rw [hsp]
  unfold matchMB
  rw [if_pos (by simp [List.isPrefixOf])]
  rw [show ('\n' :: '$' :: '$' :: (t ++ '$' :: '$' :: '\n' :: R) : Str).drop 3 =
    t ++ '$' :: '$' :: '\n' :: R from rfl]
  rw [findMB_exact t R hne hd]
  show some ('\n' :: (mkKey .mb st.counter ++ ['\n']),
    3 + t.length + 2 + ['\n'].length, _) = _
  rw [show 3 + t.length + 2 + (['\n'] : Str).length = 6 + t.length from by
    simp; omega]

/-- Stage-5 firing on an inline formula. -/
theorem fireMI {t : Str} (hne : t ≠ []) (hd : '$' ∉ t) (hnl : '\n' ∉ t)
    (hcjk : hasCJK t = false) :
    ∀ (bf : Bool) (st : PState) (R : Str),
      matchMI bf (renderSeg (Seg.minline t) ++ R) st =
        some (mkKey .mi st.counter, t.length + 2,
          { st with
            counter := st.counter + 1
            mathMap := st.mathMap ++ [(mkKey .mi st.counter, t, false)] }) := by
  intro bf st R
  have hsp : renderSeg (Seg.minline t) ++ R = '$' :: (t ++ '$' :: R) := by
    simp [renderSeg]
  rw [hsp]
  unfold matchMI
  simp only [if_pos rfl]
  rw [findIM_exact t R hne (fun c hc =>
    ⟨fun he => hnl (he ▸ hc), fun he => hd (he ▸ hc)⟩)]
  have harith : 1 + t.length + 1 = t.length + 2 := by omega
  simp only [if_true]
  rw [hcjk]
  simp [harith]

theorem segWF_plain {p : Str} (h : segWFB (Seg.plain p) = true) :
    btk ∉ p ∧ '$' ∉ p ∧ '\\' ∉ p := by
  simp only [segWFB, List.all_eq_true] at h
  refine ⟨fun hm => ?_, fun hm => ?_, fun hm => ?_⟩ <;>
    · have := h _ hm
      simp at this

theorem segWF_fenced {b : Str} (h : segWFB (Seg.fenced b) = true) :
    btk ∉ b ∧ '$' ∉ b := by
  simp only [segWFB, List.all_eq_true] at h
  refine ⟨fun hm => ?_, fun hm => ?_⟩ <;>
    · have := h _ hm
      simp at this

theorem segWF_icode {b : Str} (h : segWFB (Seg.icode b) = true) :
    b ≠ [] ∧ btk ∉ b ∧ '$' ∉ b ∧ ∀ c ∈ b, dotChar c = true := by
  simp only [segWFB, Bool.and_eq_true, List.all_eq_true] at h
  refine ⟨by simpa using h.1, fun hm => ?_, fun hm => ?_, fun c hc => ?_⟩
  · have := (h.2 _ hm).1
    simp at this
  · have := (h.2 _ hm).1
    simp at this
  · exact (h.2 c hc).2

theorem segWF_mblock {t : Str} (h : segWFB (Seg.mblock t) = true) :
    t ≠ [] ∧ '$' ∉ t ∧ btk ∉ t ∧ t.getLast? ≠ some '\\' := by
  simp only [segWFB, Bool.and_eq_true, List.all_eq_true] at h
  refine ⟨by simpa using h.1.1, fun hm => ?_, fun hm => ?_, ?_⟩
  · have := h.1.2 _ hm
    simp at this
  · have := h.1.2 _ hm
    simp at this
  · have := h.2
    simpa using this

theorem segWF_minline {t : Str} (h : segWFB (Seg.minline t) = true) :
    t ≠ [] ∧ '$' ∉ t ∧ btk ∉ t ∧ '\n' ∉ t ∧ t.getLast? ≠ some '\\' ∧
      hasCJK t = false := by
  simp only [segWFB, Bool.and_eq_true, List.all_eq_true] at h
  refine ⟨by simpa using h.1.1.1, fun hm => ?_, fun hm => ?_, fun hm => ?_,
    ?_, ?_⟩
  · have := h.1.1.2 _ hm
    simp at this
  · have := h.1.1.2 _ hm
    simp at this
  · have := h.1.1.2 _ hm
    simp at this
  · have := h.1.2
    simpa using this
  · have := h.2
    simpa using this

theorem no_nl_of_dot {b : Str} (h : ∀ c ∈ b, dotChar c = true) :
    '\n' ∉ b := by
  intro hm
  have := h _ hm
  simp [dotChar] at this

theorem cons_of_ne_nil {u : Str} (h : u ≠ []) :
    ∃ c w, u = c :: w ∧ c ∈ u := by
  cases u with
  | nil => exact absurd rfl h
  | cons c w => exact ⟨c, w, rfl, by simp⟩

theorem mkKey_ne_nil {k : TokKind} {n : Nat} : mkKey k n ≠ [] := by
  cases k <;> simp [mkKey, kindPre, js]

/-- A prefix pattern dies on the head of a non-empty span that avoids its
first character. -/
theorem pfx_false_head_append {d : Char} {dw u T : Str}
    (hne : u ≠ []) (hd : d ∉ u) :
    (d :: dw).isPrefixOf (u ++ T) = false := by
  obtain ⟨c, w, rfl, hcm⟩ := cons_of_ne_nil hne
  rw [List.cons_append]
  exact pfx_false_head (fun he => hd (he ▸ hcm))

theorem fence_pfx_false_of {T : Str}
    (h : [btk, btk].isPrefixOf T = false) :
    fenceMarker.isPrefixOf T = false := by
  cases hf : fenceMarker.isPrefixOf T
  · rfl
  · exfalso
    have hpre := List.isPrefixOf_iff_prefix.mp hf
    have h2 : ([btk, btk] : Str) <+: T :=
      List.IsPrefix.trans ⟨[btk], rfl⟩ hpre
    rw [← List.isPrefixOf_iff_prefix] at h2
    rw [h] at h2
    exact absurd h2 (by simp)

/-- Stage-1 rest shape: the document text of an all-raw well-formed status
list never starts with two backticks. -/
theorem noBtk2_render : ∀ (sts : List SegSt),
    (∀ ss ∈ sts, segWFB ss.1 = true) → (∀ ss ∈ sts, phaseA ss) →
    [btk, btk].isPrefixOf (renderSts sts) = false := by
  intro sts
  induction sts with
  | nil => intro _ _; rfl
  | cons ss sts' ih =>
    intro hwf hph
    have hraw : ss.2 = SStat.raw := hph ss (by simp)
    obtain ⟨s, stat⟩ := ss
    simp only at hraw
    subst hraw
    rw [renderSts_cons]
    have hwf1 : segWFB s = true := hwf (s, SStat.raw) (by simp)
    have ihr := ih (fun x hx => hwf x (List.mem_cons_of_mem _ hx))
      (fun x hx => hph x (List.mem_cons_of_mem _ hx))
    cases s with
    | plain p =>
      show ([btk, btk] : Str).isPrefixOf (p ++ renderSts sts') = false
      cases p with
      | nil => simpa using ihr
      | cons c p' =>
        have hc : c ≠ btk := fun he =>
          (segWF_plain hwf1).1 (he ▸ List.mem_cons_self c p')
        rw [List.cons_append]
        exact pfx_false_head (fun he => hc he.symm)
    | fenced b =>
      show ([btk, btk] : Str).isPrefixOf
        (('\n' :: (fenceMarker ++ b ++ fenceMarker)) ++ renderSts sts') = false
      rw [List.cons_append]
      exact pfx_false_head (by decide)
    | icode b =>
      show ([btk, btk] : Str).isPrefixOf
        ((btk :: (b ++ [btk])) ++ renderSts sts') = false
      obtain ⟨hne, hb, _, _⟩ := segWF_icode hwf1
      obtain ⟨c0, w, rfl, hcm⟩ := cons_of_ne_nil hne
      have hc0 : c0 ≠ btk := fun he => hb (he ▸ hcm)
      rw [List.cons_append, List.cons_append, List.cons_append]
      exact pfx_false_second (fun he => hc0 he.symm)
    | mblock t =>
      show ([btk, btk] : Str).isPrefixOf
        (('\n' :: '$' :: '$' :: (t ++ '$' :: '$' :: ['\n'])) ++
          renderSts sts') = false
      rw [List.cons_append]
      exact pfx_false_head (by decide)
    | minline t =>
      show ([btk, btk] : Str).isPrefixOf
        (('$' :: (t ++ ['$'])) ++ renderSts sts') = false
      rw [List.cons_append]
      exact pfx_false_head (by decide)

/-- Stage-4 rest shape: after stages 1–3 the text never starts with two
dollars (formulas open after a newline consumed by the pattern itself). -/
theorem noDD_render : ∀ (sts : List SegSt),
    (∀ ss ∈ sts, segWFB ss.1 = true) → (∀ ss ∈ sts, phaseC ss) →
    ('$' :: ['$']).isPrefixOf (renderSts sts) = false := by
  intro sts
  induction sts with
  | nil => intro _ _; rfl
  | cons ss sts' ih =>
    intro hwf hph
    have hp := hph ss (by simp)
    obtain ⟨s, stat⟩ := ss
    have hwf1 : segWFB s = true := hwf (s, stat) (by simp)
    have ihr := ih (fun x hx => hwf x (List.mem_cons_of_mem _ hx))
      (fun x hx => hph x (List.mem_cons_of_mem _ hx))
    rw [renderSts_cons]
    cases s with
    | plain p =>
      have hraw : stat = SStat.raw := hp
      subst hraw
      show ('$' :: ['$'] : Str).isPrefixOf (p ++ renderSts sts') = false
      cases p with
      | nil => simpa using ihr
      | cons c p' =>
        have hc : c ≠ '$' := fun he =>
          (segWF_plain hwf1).2.1 (he ▸ List.mem_cons_self c p')
        rw [List.cons_append]
        exact pfx_false_head (fun he => hc he.symm)
    | fenced b =>
      obtain ⟨n, hn⟩ := hp
      subst hn
      show ('$' :: ['$'] : Str).isPrefixOf
        (renderSegSt (Seg.fenced b, SStat.keyed .cb n) ++ renderSts sts') =
          false
      show ('$' :: ['$'] : Str).isPrefixOf
        (mkKey .cb n ++ renderSts sts') = false
      exact pfx_false_head_append mkKey_ne_nil (fun hm =>
        absurd rfl (tokChar_vals (mkKey_chars hm)).2.1)
    | icode b =>
      obtain ⟨n, hn⟩ := hp
      subst hn
      show ('$' :: ['$'] : Str).isPrefixOf
        (mkKey .ci n ++ renderSts sts') = false
      exact pfx_false_head_append mkKey_ne_nil (fun hm =>
        absurd rfl (tokChar_vals (mkKey_chars hm)).2.1)
    | mblock t =>
      have hraw : stat = SStat.raw := hp
      subst hraw
      show ('$' :: ['$'] : Str).isPrefixOf
        (('\n' :: '$' :: '$' :: (t ++ '$' :: '$' :: ['\n'])) ++
          renderSts sts') = false
      rw [List.cons_append]
      exact pfx_false_head (by decide)
    | minline t =>
      have hraw : stat = SStat.raw := hp
      subst hraw
      obtain ⟨hne, hd, _, _, _, _⟩ := segWF_minline hwf1
      show ('$' :: ['$'] : Str).isPrefixOf
        (('$' :: (t ++ ['$'])) ++ renderSts sts') = false
      obtain ⟨c0, w, rfl, hcm⟩ := cons_of_ne_nil hne
      have hc0 : c0 ≠ '$' := fun he => hd (he ▸ hcm)
      rw [List.cons_append, List.cons_append, List.cons_append]
      exact pfx_false_second (fun he => hc0 he.symm)

/-- Stage 1 on a well-formed document: the global scan keys exactly the
raw fenced blocks, in document order, threading the shared counter and
appending their `codeMap` entries. -/
theorem stage1_scan : ∀ (sts : List SegSt) (a : Bool) (st : PState),
    (∀ ss ∈ sts, segWFB ss.1 = true) → (∀ ss ∈ sts, phaseA ss) →
    scanRep matchCB a (renderSts sts) st =
      (renderSts (flipCB sts st.counter).1,
        { st with
          counter := (flipCB sts st.counter).2.1
          codeMap := st.codeMap ++ (flipCB sts st.counter).2.2 }) := by
  intro sts
  induction sts with
  | nil =>
    intro a st _ _
    simp [renderSts, flipCB, scanRep_nil]
  | cons ss sts' ih =>
    intro a st hwf hph
    have hraw : ss.2 = SStat.raw := hph ss (by simp)
    obtain ⟨s, stat⟩ := ss
    simp only at hraw
    subst hraw
    have hwf1 : segWFB s = true := hwf (s, SStat.raw) (by simp)
    have hwf' := fun x hx => hwf x (List.mem_cons_of_mem _ hx)
    have hph' := fun x hx => hph x (List.mem_cons_of_mem _ hx)
    have hRf : fenceMarker.isPrefixOf (renderSts sts') = false :=
      fence_pfx_false_of (noBtk2_render sts' hwf' hph')
    rw [renderSts_cons]
    cases s with
    | fenced b =>
      obtain ⟨hb, _⟩ := segWF_fenced hwf1
      show scanRep matchCB a
        (renderSeg (Seg.fenced b) ++ renderSts sts') st = _
      have hsp : renderSeg (Seg.fenced b) ++ renderSts sts' =
          '\n' :: (fenceMarker ++ (b ++ (fenceMarker ++ renderSts sts'))) := by
        simp [renderSeg]
      have hfire := fireCB hb a st (renderSts sts')
      rw [hsp] at hfire ⊢
      rw [scanRep_cons_some hfire]
      have hmax : max (7 + b.length) 1 = 7 + b.length := by omega
      rw [hmax]
      have hdrop : ('\n' :: (fenceMarker ++ (b ++ (fenceMarker ++
          renderSts sts')))).drop (7 + b.length) = renderSts sts' := by
        rw [← hsp]
        exact List.drop_left' (by simp [renderSeg, fenceMarker]; omega)
      rw [hdrop]
      rw [ih false _ hwf' hph']
      simp [flipCB, renderSts_cons, renderSegSt, isMB]
    | plain p =>
      obtain ⟨hb, _, _⟩ := segWF_plain hwf1
      have hK : KillsOn matchCB st a p (renderSts sts') :=
        kills1_span hb (fun _ => hRf)
      show scanRep matchCB a (p ++ renderSts sts') st = _
      rw [scanRep_skip p (renderSts sts') a hK]
      rw [ih (contFlag p a) st hwf' hph']
      simp [flipCB, renderSts_cons, renderSegSt, renderSeg]
    | icode b =>
      obtain ⟨hne, hb, _, hdot⟩ := segWF_icode hwf1
      have hK : KillsOn matchCB st a (btk :: (b ++ [btk]))
          (renderSts sts') := kills1_icode hne hb (no_nl_of_dot hdot)
      show scanRep matchCB a
        ((btk :: (b ++ [btk])) ++ renderSts sts') st = _
      rw [scanRep_skip _ (renderSts sts') a hK]
      rw [ih (contFlag (btk :: (b ++ [btk])) a) st hwf' hph']
      simp [flipCB, renderSts_cons, renderSegSt, renderSeg]
    | mblock t =>
      obtain ⟨hne, hd, hb, _⟩ := segWF_mblock hwf1
      have hspan : btk ∉ ('\n' :: '$' :: '$' :: (t ++ '$' :: '$' :: ['\n'])
          : Str) := by
        intro hm
        simp only [List.mem_cons, List.mem_append] at hm
        rcases hm with h | h | h | h
        · exact absurd h (by decide)
        · exact absurd h (by decide)
        · exact absurd h (by decide)
        · rcases h with h | h
          · exact hb h
          · rcases h with h | h | h
            · exact absurd h (by decide)
            · exact absurd h (by decide)
            · simp at h
              exact absurd h (by decide)
      have hK : KillsOn matchCB st a
          ('\n' :: '$' :: '$' :: (t ++ '$' :: '$' :: ['\n']))
          (renderSts sts') := kills1_span hspan (fun _ => hRf)
      show scanRep matchCB a
        (('\n' :: '$' :: '$' :: (t ++ '$' :: '$' :: ['\n'])) ++
          renderSts sts') st = _
      rw [scanRep_skip _ (renderSts sts') a hK]
      rw [ih _ st hwf' hph']
      simp [flipCB, renderSts_cons, renderSegSt, renderSeg]
    | minline t =>
      obtain ⟨hne, hd, hb, _, _, _⟩ := segWF_minline hwf1
      have hspan : btk ∉ ('$' :: (t ++ ['$']) : Str) := by
        intro hm
        simp only [List.mem_cons, List.mem_append] at hm
        rcases hm with h | h
        · exact absurd h (by decide)
        · rcases h with h | h
          · exact hb h
          · simp at h
            exact absurd h (by decide)
      have hK : KillsOn matchCB st a ('$' :: (t ++ ['$']))
          (renderSts sts') := kills1_span hspan (fun _ => hRf)
      show scanRep matchCB a
        (('$' :: (t ++ ['$'])) ++ renderSts sts') st = _
      rw [scanRep_skip _ (renderSts sts') a hK]
      rw [ih _ st hwf' hph']
      simp [flipCB, renderSts_cons, renderSegSt, renderSeg]

theorem mblock_span_no_btk {t : Str} (hb : btk ∉ t) :
    btk ∉ ('\n' :: '$' :: '$' :: (t ++ '$' :: '$' :: ['\n']) : Str) := by
  intro hm
  simp only [List.mem_cons, List.mem_append] at hm
  rcases hm with h | h | h | h
  · exact absurd h (by decide)
  · exact absurd h (by decide)
  · exact absurd h (by decide)
  · rcases h with h | h
    · exact hb h
    · rcases h with h | h | h
      · exact absurd h (by decide)
      · exact absurd h (by decide)
      · simp at h
        exact absurd h (by decide)

theorem minline_span_no_btk {t : Str} (hb : btk ∉ t) :
    btk ∉ ('$' :: (t ++ ['$']) : Str) := by
  intro hm
  simp only [List.mem_cons, List.mem_append] at hm
  rcases hm with h | h
  · exact absurd h (by decide)
  · rcases h with h | h
    · exact hb h
    · simp at h
      exact absurd h (by decide)

theorem mbkey_span_no_dollar {n : Nat} :
    '$' ∉ ('\n' :: (mkKey .mb n ++ ['\n']) : Str) := by
  intro hm
  simp only [List.mem_cons, List.mem_append] at hm
  rcases hm with h | h
  · exact absurd h (by decide)
  · rcases h with h | h
    · exact mkKey_no_dollar h
    · simp at h

/-- Stage 2 on a well-formed document: the global scan keys exactly the
raw inline code spans. -/
theorem stage2_scan : ∀ (sts : List SegSt) (a : Bool) (st : PState),
    (∀ ss ∈ sts, segWFB ss.1 = true) → (∀ ss ∈ sts, phaseB ss) →
    scanRep matchCI a (renderSts sts) st =
      (renderSts (flipCI sts st.counter).1,
        { st with
          counter := (flipCI sts st.counter).2.1
          codeMap := st.codeMap ++ (flipCI sts st.counter).2.2 }) := by
  intro sts
  induction sts with
  | nil =>
    intro a st _ _
    simp [renderSts, flipCI, scanRep_nil]
  | cons ss sts' ih =>
    intro a st hwf hph
    have hp : phaseB ss := hph ss (by simp)
    obtain ⟨s, stat⟩ := ss
    have hwf1 : segWFB s = true := hwf (s, stat) (by simp)
    have hwf' := fun x hx => hwf x (List.mem_cons_of_mem _ hx)
    have hph' := fun x hx => hph x (List.mem_cons_of_mem _ hx)
    rw [renderSts_cons]
    cases s with
    | icode b =>
      have hraw : stat = SStat.raw := hp
      subst hraw
      obtain ⟨hne, hb, _, hdot⟩ := segWF_icode hwf1
      show scanRep matchCI a
        (renderSeg (Seg.icode b) ++ renderSts sts') st = _
      have hsp : renderSeg (Seg.icode b) ++ renderSts sts' =
          btk :: (b ++ btk :: renderSts sts') := by
        simp [renderSeg]
      have hfire := fireCI hne hb hdot a st (renderSts sts')
      rw [hsp] at hfire ⊢
      rw [scanRep_cons_some hfire]
      have hmax : max (b.length + 2) 1 = b.length + 2 := by omega
      rw [hmax]
      have hdrop : (btk :: (b ++ btk :: renderSts sts')).drop
          (b.length + 2) = renderSts sts' := by
        rw [← hsp]
        exact List.drop_left' (by simp [renderSeg])
      rw [hdrop]
      rw [ih false _ hwf' hph']
      simp [flipCI, renderSts_cons, renderSegSt, isMB, renderSeg]
    | fenced b =>
      obtain ⟨n, hn⟩ := hp
      simp only at hn
      subst hn
      have hK : KillsOn matchCI st a (mkKey .cb n) (renderSts sts') :=
        kills2_span mkKey_no_btk
      show scanRep matchCI a (mkKey .cb n ++ renderSts sts') st = _
      rw [scanRep_skip _ (renderSts sts') a hK]
      rw [ih _ st hwf' hph']
      simp [flipCI, renderSts_cons, renderSegSt, isMB]
    | plain p =>
      have hraw : stat = SStat.raw := hp
      subst hraw
      obtain ⟨hb, _, _⟩ := segWF_plain hwf1
      have hK : KillsOn matchCI st a p (renderSts sts') := kills2_span hb
      show scanRep matchCI a (p ++ renderSts sts') st = _
      rw [scanRep_skip _ (renderSts sts') a hK]
      rw [ih _ st hwf' hph']
      simp [flipCI, renderSts_cons, renderSegSt, renderSeg]
    | mblock t =>
      have hraw : stat = SStat.raw := hp
      subst hraw
      obtain ⟨hne, hd, hb, _⟩ := segWF_mblock hwf1
      have hK : KillsOn matchCI st a
          ('\n' :: '$' :: '$' :: (t ++ '$' :: '$' :: ['\n']))
          (renderSts sts') := kills2_span (mblock_span_no_btk hb)
      show scanRep matchCI a
        (('\n' :: '$' :: '$' :: (t ++ '$' :: '$' :: ['\n'])) ++
          renderSts sts') st = _
      rw [scanRep_skip _ (renderSts sts') a hK]
      rw [ih _ st hwf' hph']
      simp [flipCI, renderSts_cons, renderSegSt, renderSeg]
    | minline t =>
      have hraw : stat = SStat.raw := hp
      subst hraw
      obtain ⟨hne, hd, hb, _, _, _⟩ := segWF_minline hwf1
      have hK : KillsOn matchCI st a ('$' :: (t ++ ['$']))
          (renderSts sts') := kills2_span (minline_span_no_btk hb)
      show scanRep matchCI a
        (('$' :: (t ++ ['$'])) ++ renderSts sts') st = _
      rw [scanRep_skip _ (renderSts sts') a hK]
      rw [ih _ st hwf' hph']
      simp [flipCI, renderSts_cons, renderSegSt, renderSeg]

/-- Stage 3 on a well-formed document: with code protected and no escaped
dollars in the grammar, the escaped-dollar scan is the identity. -/
theorem stage3_scan : ∀ (sts : List SegSt) (a : Bool) (st : PState),
    (∀ ss ∈ sts, segWFB ss.1 = true) → (∀ ss ∈ sts, phaseC ss) →
    scanRep matchED a (renderSts sts) st = (renderSts sts, st) := by
  intro sts
  induction sts with
  | nil =>
    intro a st _ _
    simp [renderSts, scanRep_nil]
  | cons ss sts' ih =>
    intro a st hwf hph
    have hp : phaseC ss := hph ss (by simp)
    obtain ⟨s, stat⟩ := ss
    have hwf1 : segWFB s = true := hwf (s, stat) (by simp)
    have hwf' := fun x hx => hwf x (List.mem_cons_of_mem _ hx)
    have hph' := fun x hx => hph x (List.mem_cons_of_mem _ hx)
    rw [renderSts_cons]
    have hfin : ∀ (u : Str), KillsOn matchED st a u (renderSts sts') →
        renderSegSt (s, stat) = u →
        scanRep matchED a (u ++ renderSts sts') st =
          (u ++ renderSts sts', st) := by
      intro u hK _
      rw [scanRep_skip _ (renderSts sts') a hK]
      rw [ih _ st hwf' hph']
    cases s with
    | plain p =>
      have hraw : stat = SStat.raw := hp
      subst hraw
      obtain ⟨_, hd, hbs⟩ := segWF_plain hwf1
      exact hfin p (kills3_span hd (fun hlast =>
        absurd (List.mem_of_getLast?_eq_some hlast) hbs)) rfl
    | fenced b =>
      obtain ⟨n, hn⟩ := hp
      simp only at hn
      subst hn
      exact hfin (mkKey .cb n) (kills3_span mkKey_no_dollar (fun hlast =>
        absurd (List.mem_of_getLast?_eq_some hlast) mkKey_no_bsl)) rfl
    | icode b =>
      obtain ⟨n, hn⟩ := hp
      simp only at hn
      subst hn
      exact hfin (mkKey .ci n) (kills3_span mkKey_no_dollar (fun hlast =>
        absurd (List.mem_of_getLast?_eq_some hlast) mkKey_no_bsl)) rfl
    | mblock t =>
      have hraw : stat = SStat.raw := hp
      subst hraw
      obtain ⟨hne, hd, hb, hl⟩ := segWF_mblock hwf1
      have hK3 : KillsOn matchED st false (['$', '$', '\n'] : Str)
          (renderSts sts') := by
        apply killsOn_of_chars
        intro c hc t' b'
        simp at hc
        rcases hc with h | h <;>
          · subst h
            exact matchED_none (by decide) b' st
      have hK2 : KillsOn matchED st false t
          (['$', '$', '\n'] ++ renderSts sts') :=
        kills3_span hd (fun hlast => absurd hlast hl)
      have hK1 : KillsOn matchED st a (['\n', '$', '$'] : Str)
          ((t ++ ['$', '$', '\n']) ++ renderSts sts') := by
        apply killsOn_of_chars
        intro c hc t' b'
        simp at hc
        rcases hc with h | h <;>
          · subst h
            exact matchED_none (by decide) b' st
      have hglue := killsOn_append (by simp) hK1
        (killsOn_append hne hK2 hK3)
      have hsp : (['\n', '$', '$'] ++ (t ++ ['$', '$', '\n'])) =
          ('\n' :: '$' :: '$' :: (t ++ '$' :: '$' :: ['\n']) : Str) := by
        simp
      rw [hsp] at hglue
      exact hfin _ hglue rfl
    | minline t =>
      have hraw : stat = SStat.raw := hp
      subst hraw
      obtain ⟨hne, hd, hb, _, hl, _⟩ := segWF_minline hwf1
      have hK3 : KillsOn matchED st false (['$'] : Str) (renderSts sts') := by
        apply killsOn_of_chars
        intro c hc t' b'
        simp at hc
        subst hc
        exact matchED_none (by decide) b' st
      have hK2 : KillsOn matchED st false t (['$'] ++ renderSts sts') :=
        kills3_span hd (fun hlast => absurd hlast hl)
      have hK1 : KillsOn matchED st a (['$'] : Str)
          ((t ++ ['$']) ++ renderSts sts') := by
        apply killsOn_of_chars
        intro c hc t' b'
        simp at hc
        subst hc
        exact matchED_none (by decide) b' st
      have hglue := killsOn_append (by simp) hK1
        (killsOn_append hne hK2 hK3)
      have hsp : ((['$'] : Str) ++ (t ++ ['$'])) =
          ('$' :: (t ++ ['$']) : Str) := by simp
      rw [hsp] at hglue
      exact hfin _ hglue rfl

/-- Stage 4 on a well-formed document: the global scan keys exactly the
raw display formulas, re-emitting the newlines around them. -/
theorem stage4_scan : ∀ (sts : List SegSt) (a : Bool) (st : PState),
    (∀ ss ∈ sts, segWFB ss.1 = true) → (∀ ss ∈ sts, phaseC ss) →
    scanRep matchMB a (renderSts sts) st =
      (renderSts (flipMB sts st.counter).1,
        { st with
          counter := (flipMB sts st.counter).2.1
          mathMap := st.mathMap ++ (flipMB sts st.counter).2.2 }) := by
  intro sts
  induction sts with
  | nil =>
    intro a st _ _
    simp [renderSts, flipMB, scanRep_nil]
  | cons ss sts' ih =>
    intro a st hwf hph
    have hp : phaseC ss := hph ss (by simp)
    obtain ⟨s, stat⟩ := ss
    have hwf1 : segWFB s = true := hwf (s, stat) (by simp)
    have hwf' := fun x hx => hwf x (List.mem_cons_of_mem _ hx)
    have hph' := fun x hx => hph x (List.mem_cons_of_mem _ hx)
    have hRd : ('$' :: ['$']).isPrefixOf (renderSts sts') = false :=
      noDD_render sts' hwf' hph'
    rw [renderSts_cons]
    cases s with
    | mblock t =>
      have hraw : stat = SStat.raw := hp
      subst hraw
      obtain ⟨hne, hd, hb, _⟩ := segWF_mblock hwf1
      show scanRep matchMB a
        (renderSeg (Seg.mblock t) ++ renderSts sts') st = _
      have hsp : renderSeg (Seg.mblock t) ++ renderSts sts' =
          '\n' :: '$' :: '$' :: (t ++ '$' :: '$' :: '\n' :: renderSts sts')
          := by
        simp [renderSeg]
      have hfire := fireMB hne hd a st (renderSts sts')
      rw [hsp] at hfire ⊢
      rw [scanRep_cons_some hfire]
      have hmax : max (6 + t.length) 1 = 6 + t.length := by omega
      rw [hmax]
      have hdrop : ('\n' :: '$' :: '$' ::
          (t ++ '$' :: '$' :: '\n' :: renderSts sts')).drop (6 + t.length) =
          renderSts sts' := by
        rw [← hsp]
        exact List.drop_left' (by simp [renderSeg]; omega)
      rw [hdrop]
      rw [ih false _ hwf' hph']
      simp [flipMB, renderSts_cons, renderSegSt, isMB, renderSeg]
    | plain p =>
      have hraw : stat = SStat.raw := hp
      subst hraw
      obtain ⟨_, hd, _⟩ := segWF_plain hwf1
      have hK : KillsOn matchMB st a p (renderSts sts') :=
        kills4_span hd (fun _ => hRd)
      show scanRep matchMB a (p ++ renderSts sts') st = _
      rw [scanRep_skip _ (renderSts sts') a hK]
      rw [ih _ st hwf' hph']
      simp [flipMB, renderSts_cons, renderSegSt, renderSeg]
    | fenced b =>
      obtain ⟨n, hn⟩ := hp
      simp only at hn
      subst hn
      have hK : KillsOn matchMB st a (mkKey .cb n) (renderSts sts') :=
        kills4_span mkKey_no_dollar (fun hmem => absurd hmem mkKey_no_nl)
      show scanRep matchMB a (mkKey .cb n ++ renderSts sts') st = _
      rw [scanRep_skip _ (renderSts sts') a hK]
      rw [ih _ st hwf' hph']
      simp [flipMB, renderSts_cons, renderSegSt, isMB]
    | icode b =>
      obtain ⟨n, hn⟩ := hp
      simp only at hn
      subst hn
      have hK : KillsOn matchMB st a (mkKey .ci n) (renderSts sts') :=
        kills4_span mkKey_no_dollar (fun hmem => absurd hmem mkKey_no_nl)
      show scanRep matchMB a (mkKey .ci n ++ renderSts sts') st = _
      rw [scanRep_skip _ (renderSts sts') a hK]
      rw [ih _ st hwf' hph']
      simp [flipMB, renderSts_cons, renderSegSt, isMB]
    | minline t =>
      have hraw : stat = SStat.raw := hp
      subst hraw
      obtain ⟨hne, hd, _, hnl, _, _⟩ := segWF_minline hwf1
      have hK : KillsOn matchMB st a ('$' :: (t ++ ['$']))
          (renderSts sts') := kills4_minline hne hd hnl
      show scanRep matchMB a
        (('$' :: (t ++ ['$'])) ++ renderSts sts') st = _
      rw [scanRep_skip _ (renderSts sts') a hK]
      rw [ih _ st hwf' hph']
      simp [flipMB, renderSts_cons, renderSegSt, renderSeg]

/-- Stage 5 on a well-formed document: the global scan keys exactly the
raw inline formulas (no CJK bail-outs in the grammar). -/
theorem stage5_scan : ∀ (sts : List SegSt) (a : Bool) (st : PState),
    (∀ ss ∈ sts, segWFB ss.1 = true) → (∀ ss ∈ sts, phaseD ss) →
    scanRep matchMI a (renderSts sts) st =
      (renderSts (flipMI sts st.counter).1,
        { st with
          counter := (flipMI sts st.counter).2.1
          mathMap := st.mathMap ++ (flipMI sts st.counter).2.2 }) := by
  intro sts
  induction sts with
  | nil =>
    intro a st _ _
    simp [renderSts, flipMI, scanRep_nil]
  | cons ss sts' ih =>
    intro a st hwf hph
    have hp : phaseD ss := hph ss (by simp)
    obtain ⟨s, stat⟩ := ss
    have hwf1 : segWFB s = true := hwf (s, stat) (by simp)
    have hwf' := fun x hx => hwf x (List.mem_cons_of_mem _ hx)
    have hph' := fun x hx => hph x (List.mem_cons_of_mem _ hx)
    rw [renderSts_cons]
    cases s with
    | minline t =>
      have hraw : stat = SStat.raw := hp
      subst hraw
      obtain ⟨hne, hd, _, hnl, _, hcjk⟩ := segWF_minline hwf1
      show scanRep matchMI a
        (renderSeg (Seg.minline t) ++ renderSts sts') st = _
      have hsp : renderSeg (Seg.minline t) ++ renderSts sts' =
          '$' :: (t ++ '$' :: renderSts sts') := by
        simp [renderSeg]
      have hfire := fireMI hne hd hnl hcjk a st (renderSts sts')
      rw [hsp] at hfire ⊢
      rw [scanRep_cons_some hfire]
      have hmax : max (t.length + 2) 1 = t.length + 2 := by omega
      rw [hmax]
      have hdrop : ('$' :: (t ++ '$' :: renderSts sts')).drop
          (t.length + 2) = renderSts sts' := by
        rw [← hsp]
        exact List.drop_left' (by simp [renderSeg])
      rw [hdrop]
      rw [ih false _ hwf' hph']
      simp [flipMI, renderSts_cons, renderSegSt, isMB, renderSeg]
    | plain p =>
      have hraw : stat = SStat.raw := hp
      subst hraw
      obtain ⟨_, hd, _⟩ := segWF_plain hwf1
      have hK : KillsOn matchMI st a p (renderSts sts') := kills5_span hd
      show scanRep matchMI a (p ++ renderSts sts') st = _
      rw [scanRep_skip _ (renderSts sts') a hK]
      rw [ih _ st hwf' hph']
      simp [flipMI, renderSts_cons, renderSegSt, renderSeg]
    | fenced b =>
      obtain ⟨n, hn⟩ := hp
      simp only at hn
      subst hn
      have hK : KillsOn matchMI st a (mkKey .cb n) (renderSts sts') :=
        kills5_span mkKey_no_dollar
      show scanRep matchMI a (mkKey .cb n ++ renderSts sts') st = _
      rw [scanRep_skip _ (renderSts sts') a hK]
      rw [ih _ st hwf' hph']
      simp [flipMI, renderSts_cons, renderSegSt, isMB]
    | icode b =>
      obtain ⟨n, hn⟩ := hp
      simp only at hn
      subst hn
      have hK : KillsOn matchMI st a (mkKey .ci n) (renderSts sts') :=
        kills5_span mkKey_no_dollar
      show scanRep matchMI a (mkKey .ci n ++ renderSts sts') st = _
      rw [scanRep_skip _ (renderSts sts') a hK]
      rw [ih _ st hwf' hph']
      simp [flipMI, renderSts_cons, renderSegSt, isMB]
    | mblock t =>
      obtain ⟨n, hn⟩ := hp
      simp only at hn
      subst hn
      have hK : KillsOn matchMI st a ('\n' :: (mkKey .mb n ++ ['\n']))
          (renderSts sts') := kills5_span mbkey_span_no_dollar
      show scanRep matchMI a
        (('\n' :: (mkKey .mb n ++ ['\n'])) ++ renderSts sts') st = _
      rw [scanRep_skip _ (renderSts sts') a hK]
      rw [ih _ st hwf' hph']
      simp [flipMI, renderSts_cons, renderSegSt, isMB]

theorem flipCB_segs : ∀ (sts : List SegSt) (c : Nat),
    ((flipCB sts c).1).map Prod.fst = sts.map Prod.fst := by
  intro sts
  induction sts with
  | nil => intro c; rfl
  | cons ss sts' ih =>
    intro c
    obtain ⟨s, stat⟩ := ss
    cases s <;> cases stat <;> simp [flipCB, ih]

theorem flipCI_segs : ∀ (sts : List SegSt) (c : Nat),
    ((flipCI sts c).1).map Prod.fst = sts.map Prod.fst := by
  intro sts
  induction sts with
  | nil => intro c; rfl
  | cons ss sts' ih =>
    intro c
    obtain ⟨s, stat⟩ := ss
    cases s <;> cases stat <;> simp [flipCI, ih]

theorem flipMB_segs : ∀ (sts : List SegSt) (c : Nat),
    ((flipMB sts c).1).map Prod.fst = sts.map Prod.fst := by
  intro sts
  induction sts with
  | nil => intro c; rfl
  | cons ss sts' ih =>
    intro c
    obtain ⟨s, stat⟩ := ss
    cases s <;> cases stat <;> simp [flipMB, ih]

theorem flipMI_segs : ∀ (sts : List SegSt) (c : Nat),
    ((flipMI sts c).1).map Prod.fst = sts.map Prod.fst := by
  intro sts
  induction sts with
  | nil => intro c; rfl
  | cons ss sts' ih =>
    intro c
    obtain ⟨s, stat⟩ := ss
    cases s <;> cases stat <;> simp [flipMI, ih]

theorem wf_of_segs_eq {l₁ l₂ : List SegSt}
    (hs : l₁.map Prod.fst = l₂.map Prod.fst)
    (h : ∀ ss ∈ l₂, segWFB ss.1 = true) :
    ∀ ss ∈ l₁, segWFB ss.1 = true := by
  intro ss hss
  have hm : ss.1 ∈ l₁.map Prod.fst := List.mem_map_of_mem _ hss
  rw [hs] at hm
  obtain ⟨ss', hss', he⟩ := List.mem_map.mp hm
  rw [← he]
  exact h ss' hss'

theorem flipCB_phaseB : ∀ (sts : List SegSt) (c : Nat),
    (∀ ss ∈ sts, phaseA ss) → ∀ ss ∈ (flipCB sts c).1, phaseB ss := by
  intro sts
  induction sts with
  | nil =>
    intro c _ ss hss
    simp [flipCB] at hss
  | cons s0 sts' ih =>
    intro c hph ss hss
    have hp0 : phaseA s0 := hph s0 (by simp)
    have hph' := fun x hx => hph x (List.mem_cons_of_mem _ hx)
    obtain ⟨s, stat⟩ := s0
    have hraw : stat = SStat.raw := hp0
    subst hraw
    cases s with
    | fenced b =>
      rw [show (flipCB ((Seg.fenced b, SStat.raw) :: sts') c).1 =
        (Seg.fenced b, SStat.keyed .cb c) :: (flipCB sts' (c + 1)).1
        from rfl] at hss
      rcases List.mem_cons.mp hss with he | hm
      · subst he
        exact ⟨c, rfl⟩
      · exact ih (c + 1) hph' ss hm
    | plain p =>
      rw [show (flipCB ((Seg.plain p, SStat.raw) :: sts') c).1 =
        (Seg.plain p, SStat.raw) :: (flipCB sts' c).1 from rfl] at hss
      rcases List.mem_cons.mp hss with he | hm
      · subst he
        exact rfl
      · exact ih c hph' ss hm
    | icode b =>
      rw [show (flipCB ((Seg.icode b, SStat.raw) :: sts') c).1 =
        (Seg.icode b, SStat.raw) :: (flipCB sts' c).1 from rfl] at hss
      rcases List.mem_cons.mp hss with he | hm
      · subst he
        exact rfl
      · exact ih c hph' ss hm
    | mblock t =>
      rw [show (flipCB ((Seg.mblock t, SStat.raw) :: sts') c).1 =
        (Seg.mblock t, SStat.raw) :: (flipCB sts' c).1 from rfl] at hss
      rcases List.mem_cons.mp hss with he | hm
      · subst he
        exact rfl
      · exact ih c hph' ss hm
    | minline t =>
      rw [show (flipCB ((Seg.minline t, SStat.raw) :: sts') c).1 =
        (Seg.minline t, SStat.raw) :: (flipCB sts' c).1 from rfl] at hss
      rcases List.mem_cons.mp hss with he | hm
      · subst he
        exact rfl
      · exact ih c hph' ss hm

theorem flipCI_phaseC : ∀ (sts : List SegSt) (c : Nat),
    (∀ ss ∈ sts, phaseB ss) → ∀ ss ∈ (flipCI sts c).1, phaseC ss := by
  intro sts
  induction sts with
  | nil =>
    intro c _ ss hss
    simp [flipCI] at hss
  | cons s0 sts' ih =>
    intro c hph ss hss
    have hp0 : phaseB s0 := hph s0 (by simp)
    have hph' := fun x hx => hph x (List.mem_cons_of_mem _ hx)
    obtain ⟨s, stat⟩ := s0
    cases s with
    | icode b =>
      have hraw : stat = SStat.raw := hp0
      subst hraw
      rw [show (flipCI ((Seg.icode b, SStat.raw) :: sts') c).1 =
        (Seg.icode b, SStat.keyed .ci c) :: (flipCI sts' (c + 1)).1
        from rfl] at hss
      rcases List.mem_cons.mp hss with he | hm
      · subst he
        exact ⟨c, rfl⟩
      · exact ih (c + 1) hph' ss hm
    | fenced b =>
      obtain ⟨n, hn⟩ := hp0
      simp only at hn
      subst hn
      rw [show (flipCI ((Seg.fenced b, SStat.keyed .cb n) :: sts') c).1 =
        (Seg.fenced b, SStat.keyed .cb n) :: (flipCI sts' c).1
        from rfl] at hss
      rcases List.mem_cons.mp hss with he | hm
      · subst he
        exact ⟨n, rfl⟩
      · exact ih c hph' ss hm
    | plain p =>
      have hraw : stat = SStat.raw := hp0
      subst hraw
      rw [show (flipCI ((Seg.plain p, SStat.raw) :: sts') c).1 =
        (Seg.plain p, SStat.raw) :: (flipCI sts' c).1 from rfl] at hss
      rcases List.mem_cons.mp hss with he | hm
      · subst he
        exact rfl
      · exact ih c hph' ss hm
    | mblock t =>
      have hraw : stat = SStat.raw := hp0
      subst hraw
      rw [show (flipCI ((Seg.mblock t, SStat.raw) :: sts') c).1 =
        (Seg.mblock t, SStat.raw) :: (flipCI sts' c).1 from rfl] at hss
      rcases List.mem_cons.mp hss with he | hm
      · subst he
        exact rfl
      · exact ih c hph' ss hm
    | minline t =>
      have hraw : stat = SStat.raw := hp0
      subst hraw
      rw [show (flipCI ((Seg.minline t, SStat.raw) :: sts') c).1 =
        (Seg.minline t, SStat.raw) :: (flipCI sts' c).1 from rfl] at hss
      rcases List.mem_cons.mp hss with he | hm
      · subst he
        exact rfl
      · exact ih c hph' ss hm

theorem flipMB_phaseD : ∀ (sts : List SegSt) (c : Nat),
    (∀ ss ∈ sts, phaseC ss) → ∀ ss ∈ (flipMB sts c).1, phaseD ss := by
  intro sts
  induction sts with
  | nil =>
    intro c _ ss hss
    simp [flipMB] at hss
  | cons s0 sts' ih =>
    intro c hph ss hss
    have hp0 : phaseC s0 := hph s0 (by simp)
    have hph' := fun x hx => hph x (List.mem_cons_of_mem _ hx)
    obtain ⟨s, stat⟩ := s0
    cases s with
    | mblock t =>
      have hraw : stat = SStat.raw := hp0
      subst hraw
      rw [show (flipMB ((Seg.mblock t, SStat.raw) :: sts') c).1 =
        (Seg.mblock t, SStat.keyed .mb c) :: (flipMB sts' (c + 1)).1
        from rfl] at hss
      rcases List.mem_cons.mp hss with he | hm
      · subst he
        exact ⟨c, rfl⟩
      · exact ih (c + 1) hph' ss hm
    | fenced b =>
      obtain ⟨n, hn⟩ := hp0
      simp only at hn
      subst hn
      rw [show (flipMB ((Seg.fenced b, SStat.keyed .cb n) :: sts') c).1 =
        (Seg.fenced b, SStat.keyed .cb n) :: (flipMB sts' c).1
        from rfl] at hss
      rcases List.mem_cons.mp hss with he | hm
      · subst he
        exact ⟨n, rfl⟩
      · exact ih c hph' ss hm
    | icode b =>
      obtain ⟨n, hn⟩ := hp0
      simp only at hn
      subst hn
      rw [show (flipMB ((Seg.icode b, SStat.keyed .ci n) :: sts') c).1 =
        (Seg.icode b, SStat.keyed .ci n) :: (flipMB sts' c).1
        from rfl] at hss
      rcases List.mem_cons.mp hss with he | hm
      · subst he
        exact ⟨n, rfl⟩
      · exact ih c hph' ss hm
    | plain p =>
      have hraw : stat = SStat.raw := hp0
      subst hraw
      rw [show (flipMB ((Seg.plain p, SStat.raw) :: sts') c).1 =
        (Seg.plain p, SStat.raw) :: (flipMB sts' c).1 from rfl] at hss
      rcases List.mem_cons.mp hss with he | hm
      · subst he
        exact rfl
      · exact ih c hph' ss hm
    | minline t =>
      have hraw : stat = SStat.raw := hp0
      subst hraw
      rw [show (flipMB ((Seg.minline t, SStat.raw) :: sts') c).1 =
        (Seg.minline t, SStat.raw) :: (flipMB sts' c).1 from rfl] at hss
      rcases List.mem_cons.mp hss with he | hm
      · subst he
        exact rfl
      · exact ih c hph' ss hm

theorem flipMI_phaseE : ∀ (sts : List SegSt) (c : Nat),
    (∀ ss ∈ sts, phaseD ss) → ∀ ss ∈ (flipMI sts c).1, phaseE ss := by
  intro sts
  induction sts with
  | nil =>
    intro c _ ss hss
    simp [flipMI] at hss
  | cons s0 sts' ih =>
    intro c hph ss hss
    have hp0 : phaseD s0 := hph s0 (by simp)
    have hph' := fun x hx => hph x (List.mem_cons_of_mem _ hx)
    obtain ⟨s, stat⟩ := s0
    cases s with
    | minline t =>
      have hraw : stat = SStat.raw := hp0
      subst hraw
      rw [show (flipMI ((Seg.minline t, SStat.raw) :: sts') c).1 =
        (Seg.minline t, SStat.keyed .mi c) :: (flipMI sts' (c + 1)).1
        from rfl] at hss
      rcases List.mem_cons.mp hss with he | hm
      · subst he
        exact ⟨c, rfl⟩
      · exact ih (c + 1) hph' ss hm
    | fenced b =>
      obtain ⟨n, hn⟩ := hp0
      simp only at hn
      subst hn
      rw [show (flipMI ((Seg.fenced b, SStat.keyed .cb n) :: sts') c).1 =
        (Seg.fenced b, SStat.keyed .cb n) :: (flipMI sts' c).1
        from rfl] at hss
      rcases List.mem_cons.mp hss with he | hm
      · subst he
        exact ⟨n, rfl⟩
      · exact ih c hph' ss hm
    | icode b =>
      obtain ⟨n, hn⟩ := hp0
      simp only at hn
      subst hn
      rw [show (flipMI ((Seg.icode b, SStat.keyed .ci n) :: sts') c).1 =
        (Seg.icode b, SStat.keyed .ci n) :: (flipMI sts' c).1
        from rfl] at hss
      rcases List.mem_cons.mp hss with he | hm
      · subst he
        exact ⟨n, rfl⟩
      · exact ih c hph' ss hm
    | mblock t =>
      obtain ⟨n, hn⟩ := hp0
      simp only at hn
      subst hn
      rw [show (flipMI ((Seg.mblock t, SStat.keyed .mb n) :: sts') c).1 =
        (Seg.mblock t, SStat.keyed .mb n) :: (flipMI sts' c).1
        from rfl] at hss
      rcases List.mem_cons.mp hss with he | hm
      · subst he
        exact ⟨n, rfl⟩
      · exact ih c hph' ss hm
    | plain p =>
      have hraw : stat = SStat.raw := hp0
      subst hraw
      rw [show (flipMI ((Seg.plain p, SStat.raw) :: sts') c).1 =
        (Seg.plain p, SStat.raw) :: (flipMI sts' c).1 from rfl] at hss
      rcases List.mem_cons.mp hss with he | hm
      · subst he
        exact rfl
      · exact ih c hph' ss hm

theorem upC_not_dig {c : Char} (h : isUpC c = true) : isDigC c = false := by
  simp [isUpC] at h
  simp [isDigC]
  omega

theorem pre_nondig {a : TokKind} {c : Char} (h : c ∈ kindPre a) :
    isDigC c = false := upC_not_dig (pre_chars a c h)

theorem suf_nondig {a : TokKind} {c : Char} (h : c ∈ kindSuf a) :
    isDigC c = false := upC_not_dig (suf_chars a c h)

theorem kindPre_ne_nil : ∀ a, kindPre a ≠ [] := by
  intro a
  cases a <;> simp [kindPre, js]

theorem kindSuf_ne_nil : ∀ a, kindSuf a ≠ [] := by
  intro a
  cases a <;> simp [kindSuf, js]

theorem kindPre_len9 : ∀ a, 9 ≤ (kindPre a).length := by
  intro a
  cases a <;> decide

theorem kindSuf_len37 : ∀ a, 3 ≤ (kindSuf a).length ∧
    (kindSuf a).length ≤ 7 := by
  intro a
  cases a <;> decide

theorem kindSuf_end3 : ∀ a, (js "END").isPrefixOf (kindSuf a) = true := by
  intro a
  cases a <;> decide

theorem kindSuf_cons : ∀ a, ∃ w, kindSuf a = 'E' :: w := by
  intro a
  cases a with
  | cb => exact ⟨js "NDCODE", by decide⟩
  | ci => exact ⟨js "NDCODE", by decide⟩
  | ed => exact ⟨js "ND", by decide⟩
  | mb => exact ⟨js "NDMATH", by decide⟩
  | mi => exact ⟨js "NDMATH", by decide⟩

theorem kindPre_inj : ∀ a b, kindPre a = kindPre b → a = b := by
  intro a b h
  cases a <;> cases b <;>
    first
    | rfl
    | (exfalso; simp [kindPre, js] at h)

theorem kindPre_drop_ne : ∀ (a b : TokKind), ∀ t,
    t < (kindPre a).length → 1 ≤ t → (kindPre a).drop t ≠ kindPre b := by
  intro a b
  cases a <;> cases b <;> decide

theorem kindSuf_drop_not_pre : ∀ (a c : TokKind), ∀ j, j < 3 →
    ((kindSuf a).drop j).isPrefixOf (kindPre c) = false := by
  intro a c
  cases a <;> cases c <;> decide

theorem natDigits_ne_nil : ∀ m, natDigits m ≠ [] := by
  intro m
  rw [natDigits_eq]
  split <;> simp

theorem natDigits_cons : ∀ m, ∃ d w, natDigits m = d :: w ∧
    isDigC d = true := by
  intro m
  obtain ⟨d, w, he, hm⟩ := cons_of_ne_nil (natDigits_ne_nil m)
  exact ⟨d, w, he, digits_chars m d hm⟩

theorem key_decomp (a : TokKind) (m : Nat) :
    mkKey a m = kindPre a ++ (natDigits m ++ kindSuf a) := by
  simp [mkKey]

theorem mkKey_len13 {a : TokKind} {m : Nat} : 13 ≤ (mkKey a m).length := by
  have h1 := kindPre_len9 a
  have h2 := (kindSuf_len37 a).1
  have h3 : 1 ≤ (natDigits m).length := by
    cases hn : natDigits m with
    | nil => exact absurd hn (natDigits_ne_nil m)
    | cons d w => simp
  simp [mkKey]
  omega

theorem prefix_append_cases {k X Y : Str} (h : k <+: X ++ Y) :
    (k <+: X) ∨ ∃ k₂, k = X ++ k₂ ∧ k₂ <+: Y := by
  by_cases hle : k.length ≤ X.length
  · left
    have hk : k = (X ++ Y).take k.length := List.prefix_iff_eq_take.mp h
    rw [List.take_append_of_le_length hle] at hk
    rw [hk]
    exact List.take_prefix _ _
  · right
    push_neg at hle
    have hX : X <+: k :=
      List.prefix_of_prefix_length_le (List.prefix_append X Y) h
        (Nat.le_of_lt hle)
    obtain ⟨t, ht⟩ := hX
    refine ⟨t, ht.symm, ?_⟩
    rw [← ht] at h
    exact (List.prefix_append_right_inj X).mp h

theorem prefix_split_long {k q T : Str} (h : k <+: q ++ T)
    (hlen : q.length < k.length) :
    k = q ++ k.drop q.length ∧ k.drop q.length <+: T := by
  rcases prefix_append_cases h with h1 | ⟨k₂, hk, h2⟩
  · exact absurd (List.IsPrefix.length_le h1) (by omega)
  · have hd : k.drop q.length = k₂ := by
      rw [hk]
      exact List.drop_left _ _
    rw [hd]
    exact ⟨hk, h2⟩

theorem drop_ne_nil {l : Str} {i : Nat} (h : i < l.length) :
    l.drop i ≠ [] := by
  intro he
  have := List.drop_eq_nil_iff.mp he
  omega

theorem getLast?_drop {s : Str} {i : Nat} (h : s.drop i ≠ []) :
    s.getLast? = (s.drop i).getLast? := by
  conv_lhs => rw [← List.take_append_drop i s]
  rw [List.getLast?_append]
  cases hd : (s.drop i).getLast? with
  | none =>
    exfalso
    rw [List.getLast?_eq_none_iff] at hd
    exact h hd
  | some x => rfl

theorem substr_of_prefix_drop {w s : Str} {i : Nat}
    (h : w <+: s.drop i) : isSubstrB w s = true :=
  isSubstrB_drop (isSubstrB_of_isPrefixOf (List.isPrefixOf_iff_prefix.mpr h))

theorem kindPre_mem_tokWords : ∀ a, kindPre a ∈ tokWords := by
  intro a
  cases a <;> simp [tokWords]

theorem end_mem_tokWords : js "END" ∈ tokWords := by simp [tokWords]

theorem word_of_wordFree {s : Str} (h : wordFreeB s = true) :
    ∀ w ∈ tokWords, isSubstrB w s = false := by
  simp only [wordFreeB, List.all_eq_true] at h
  intro w hw
  have := h w hw
  simpa using this

theorem wordFree_no_key {s : Str} (hw : wordFreeB s = true)
    {a : TokKind} {m i : Nat} :
    (mkKey a m).isPrefixOf (s.drop i) = false := by
  cases hp : (mkKey a m).isPrefixOf (s.drop i)
  · rfl
  · exfalso
    have hk : mkKey a m <+: s.drop i := List.isPrefixOf_iff_prefix.mp hp
    have hpre : kindPre a <+: mkKey a m :=
      ⟨natDigits m ++ kindSuf a, (key_decomp a m).symm⟩
    have : kindPre a <+: s.drop i := List.IsPrefix.trans hpre hk
    have hsub := substr_of_prefix_drop this
    rw [word_of_wordFree hw (kindPre a) (kindPre_mem_tokWords a)] at hsub
    exact absurd hsub (by simp)

theorem sealed_parts {s : Str} (h : sealedOutB s = true) :
    wordFreeB s = true ∧ s ≠ [] ∧
      (∀ c, s.head? = some c → tokChar c = false) ∧
      (∀ c, s.getLast? = some c → tokChar c = false) := by
  simp only [sealedOutB, Bool.and_eq_true] at h
  refine ⟨h.1.1.1, by simpa using h.1.1.2, ?_, ?_⟩
  · intro c hc
    have := h.1.2
    rw [hc] at this
    simpa using this
  · intro c hc
    have := h.2
    rw [hc] at this
    simpa using this

theorem noLLB_tail {c : RChunk} {cs : List RChunk}
    (h : noLLB (c :: cs) = true) : noLLB cs = true := by
  cases cs with
  | nil => rfl
  | cons c₂ cs' =>
    simp only [noLLB, Bool.and_eq_true] at h
    exact h.2

theorem noLLB_not_ll {s s₂ : Str} {cs : List RChunk}
    (h : noLLB (RChunk.lit s :: RChunk.lit s₂ :: cs) = true) : False := by
  simp [noLLB, isLitC] at h

theorem letters_align : ∀ (α β : Str) (d₁ d₂ : Char) (u w : Str),
    (∀ c ∈ α, isDigC c = false) → (∀ c ∈ β, isDigC c = false) →
    isDigC d₁ = true → isDigC d₂ = true →
    (α ++ d₁ :: u) <+: (β ++ d₂ :: w) → α = β := by
  intro α
  induction α with
  | nil =>
    intro β d₁ d₂ u w _ hβ hd₁ _ h
    cases β with
    | nil => rfl
    | cons b β' =>
      exfalso
      rw [List.nil_append, List.cons_append] at h
      have hd := (List.cons_prefix_cons.mp h).1
      have hb := hβ b (by simp)
      rw [← hd, hd₁] at hb
      exact absurd hb (by simp)
  | cons x α' ih =>
    intro β d₁ d₂ u w hα hβ hd₁ hd₂ h
    cases β with
    | nil =>
      exfalso
      rw [List.nil_append, List.cons_append] at h
      have hd := (List.cons_prefix_cons.mp h).1
      have hx := hα x (by simp)
      rw [hd, hd₂] at hx
      exact absurd hx (by simp)
    | cons b β' =>
      rw [List.cons_append, List.cons_append] at h
      obtain ⟨hxy, h'⟩ := List.cons_prefix_cons.mp h
      rw [hxy]
      have := ih β' d₁ d₂ u w (fun c hc => hα c (by simp [hc]))
        (fun c hc => hβ c (by simp [hc])) hd₁ hd₂ h'
      rw [this]

theorem digitRun_align : ∀ (D D' : Str) (x y : Char) (u w : Str),
    (∀ c ∈ D, isDigC c = true) → (∀ c ∈ D', isDigC c = true) →
    isDigC x = false → isDigC y = false →
    (D ++ x :: u) <+: (D' ++ y :: w) → D = D' := by
  intro D
  induction D with
  | nil =>
    intro D' x y u w _ hD' hx _ h
    cases D' with
    | nil => rfl
    | cons d' D'' =>
      exfalso
      rw [List.nil_append, List.cons_append] at h
      have hd := (List.cons_prefix_cons.mp h).1
      have := hD' d' (by simp)
      rw [← hd, hx] at this
      exact absurd this (by simp)
  | cons d D₂ ih =>
    intro D' x y u w hD hD' hx hy h
    cases D' with
    | nil =>
      exfalso
      rw [List.nil_append, List.cons_append] at h
      have hd := (List.cons_prefix_cons.mp h).1
      have := hD d (by simp)
      rw [hd, hy] at this
      exact absurd this (by simp)
    | cons d' D'' =>
      rw [List.cons_append, List.cons_append] at h
      obtain ⟨hdd, h'⟩ := List.cons_prefix_cons.mp h
      rw [hdd]
      have := ih D'' x y u w (fun c hc => hD c (by simp [hc]))
        (fun c hc => hD' c (by simp [hc])) hx hy h'
      rw [this]

theorem renderChunks_cons (c : RChunk) (cs : List RChunk) :
    renderChunks (c :: cs) = renderChunk c ++ renderChunks cs := by
  simp [renderChunks]

/-- A letter fragment of a token prefix word, followed by the token's
digits and suffix, cannot continue at a chunk boundary whose right side is
not literal text. -/
theorem frag_dead : ∀ (cs₂ : List RChunk), chunksWF cs₂ →
    (∀ s, cs₂.head? = some (RChunk.lit s) → False) →
    ∀ (a : TokKind) (m : Nat) (α : Str), α ≠ [] →
    (∀ c ∈ α, c ∈ kindPre a) → (∀ b, α ≠ kindPre b) →
    (α ++ (natDigits m ++ kindSuf a)) <+: renderChunks cs₂ → False := by
  intro cs₂ hwf₂ hnl a m α hαne hαsub hαnp h
  cases cs₂ with
  | nil =>
    rw [show renderChunks [] = [] from rfl] at h
    have := List.prefix_nil.mp h
    obtain ⟨c, w, he, _⟩ := cons_of_ne_nil hαne
    rw [he] at this
    simp at this
  | cons ch₂ cs₃ =>
    cases ch₂ with
    | lit s₂ => exact hnl s₂ rfl
    | sealed s₂ =>
      have hs := sealed_parts (hwf₂.2.1 s₂ (by simp))
      obtain ⟨x, α', hαe, hxm⟩ := cons_of_ne_nil hαne
      obtain ⟨y, s₂', hse, _⟩ := cons_of_ne_nil hs.2.1
      rw [renderChunks_cons] at h
      rw [hαe, hse] at h
      rw [show renderChunk (RChunk.sealed (y :: s₂')) = y :: s₂' from rfl]
        at h
      rw [List.cons_append, List.cons_append] at h
      have hxy := (List.cons_prefix_cons.mp h).1
      have hxtok : tokChar x = true := by
        simp [tokChar, pre_chars a x (hαsub x (hαe ▸ List.mem_cons_self x α'))]
      have hyn : tokChar y = false := hs.2.2.1 y (by rw [hse]; rfl)
      rw [hxy, hyn] at hxtok
      exact absurd hxtok (by simp)
    | key b₃ n₃ =>
      obtain ⟨d₁, u₀, hde, hd₁⟩ := natDigits_cons m
      obtain ⟨d₂, u₂, hde₂, hd₂⟩ := natDigits_cons n₃
      rw [renderChunks_cons] at h
      rw [show renderChunk (RChunk.key b₃ n₃) = mkKey b₃ n₃ from rfl] at h
      rw [key_decomp b₃ n₃] at h
      rw [hde, hde₂] at h
      have hsh : (α ++ ((d₁ :: u₀) ++ kindSuf a)) =
          α ++ d₁ :: (u₀ ++ kindSuf a) := by simp
      have hsh₂ : kindPre b₃ ++ ((d₂ :: u₂) ++ kindSuf b₃) ++
          renderChunks cs₃ =
          kindPre b₃ ++ d₂ :: (u₂ ++ kindSuf b₃ ++ renderChunks cs₃) := by
        simp
      rw [hsh, hsh₂] at h
      have hαβ := letters_align α (kindPre b₃) d₁ d₂ _ _
        (fun c hc => pre_nondig (hαsub c hc))
        (fun c hc => pre_nondig hc) hd₁ hd₂ h
      exact hαnp b₃ hαβ

/-- A digit fragment of a token, followed by the token's suffix, cannot
continue at a chunk boundary whose right side is not literal text. -/
theorem dig_dead : ∀ (cs₂ : List RChunk), chunksWF cs₂ →
    (∀ s, cs₂.head? = some (RChunk.lit s) → False) →
    ∀ (a : TokKind) (D : Str), D ≠ [] → (∀ c ∈ D, isDigC c = true) →
    (D ++ kindSuf a) <+: renderChunks cs₂ → False := by
  intro cs₂ hwf₂ hnl a D hne hdig h
  obtain ⟨d, D', hDe, hdm⟩ := cons_of_ne_nil hne
  have hd : isDigC d = true := hdig d hdm
  cases cs₂ with
  | nil =>
    rw [show renderChunks [] = [] from rfl] at h
    have := List.prefix_nil.mp h
    rw [hDe] at this
    simp at this
  | cons ch₂ cs₃ =>
    cases ch₂ with
    | lit s₂ => exact hnl s₂ rfl
    | sealed s₂ =>
      have hs := sealed_parts (hwf₂.2.1 s₂ (by simp))
      obtain ⟨y, s₂', hse, _⟩ := cons_of_ne_nil hs.2.1
      rw [renderChunks_cons, hDe, hse] at h
      rw [show renderChunk (RChunk.sealed (y :: s₂')) = y :: s₂' from rfl]
        at h
      rw [List.cons_append, List.cons_append] at h
      have hdy := (List.cons_prefix_cons.mp h).1
      have hyn : tokChar y = false := hs.2.2.1 y (by rw [hse]; rfl)
      rw [← hdy] at hyn
      simp [tokChar] at hyn
      rw [hyn.2] at hd
      exact absurd hd (by simp)
    | key b₃ n₃ =>
      obtain ⟨x, pre', hpe, hxm⟩ := cons_of_ne_nil (kindPre_ne_nil b₃)
      rw [renderChunks_cons] at h
      rw [show renderChunk (RChunk.key b₃ n₃) = mkKey b₃ n₃ from rfl] at h
      rw [key_decomp b₃ n₃, hDe, hpe] at h
      rw [List.cons_append, List.cons_append, List.cons_append] at h
      have hdx := (List.cons_prefix_cons.mp h).1
      have hxn : isDigC x = false := pre_nondig hxm
      rw [← hdx] at hxn
      rw [hxn] at hd
      exact absurd hd (by simp)

/-- A short tail of a token suffix word cannot continue at a chunk boundary
whose right side is not literal text. -/
theorem suf_dead : ∀ (cs₂ : List RChunk), chunksWF cs₂ →
    (∀ s, cs₂.head? = some (RChunk.lit s) → False) →
    ∀ (a : TokKind) (j : Nat), j < 3 →
    ((kindSuf a).drop j) <+: renderChunks cs₂ → False := by
  intro cs₂ hwf₂ hnl a j hj h
  have hjlen : j < (kindSuf a).length := by
    have := (kindSuf_len37 a).1
    omega
  have hne : (kindSuf a).drop j ≠ [] := drop_ne_nil hjlen
  cases cs₂ with
  | nil =>
    rw [show renderChunks [] = [] from rfl] at h
    exact hne (List.prefix_nil.mp h)
  | cons ch₂ cs₃ =>
    cases ch₂ with
    | lit s₂ => exact hnl s₂ rfl
    | sealed s₂ =>
      have hs := sealed_parts (hwf₂.2.1 s₂ (by simp))
      obtain ⟨x, w, hxe, hxm⟩ := cons_of_ne_nil hne
      obtain ⟨y, s₂', hse, _⟩ := cons_of_ne_nil hs.2.1
      rw [renderChunks_cons, hxe, hse] at h
      rw [show renderChunk (RChunk.sealed (y :: s₂')) = y :: s₂' from rfl]
        at h
      rw [List.cons_append] at h
      have hxy := (List.cons_prefix_cons.mp h).1
      have hxtok : tokChar x = true := by
        have hxs : x ∈ kindSuf a :=
          List.drop_subset _ _ (hxe ▸ List.mem_cons_self x w)
        simp [tokChar, suf_chars a x hxs]
      have hyn : tokChar y = false := hs.2.2.1 y (by rw [hse]; rfl)
      rw [hxy, hyn] at hxtok
      exact absurd hxtok (by simp)
    | key b₃ n₃ =>
      rw [renderChunks_cons] at h
      rw [show renderChunk (RChunk.key b₃ n₃) = mkKey b₃ n₃ from rfl] at h
      have hlen : ((kindSuf a).drop j).length ≤ (kindPre b₃).length := by
        have h1 := (kindSuf_len37 a).2
        have h2 := kindPre_len9 b₃
        have h3 : ((kindSuf a).drop j).length = (kindSuf a).length - j := by
          simp
        omega
      have h' : (kindSuf a).drop j <+:
          kindPre b₃ ++ ((natDigits n₃ ++ kindSuf b₃) ++ renderChunks cs₃)
          := by
        rw [key_decomp b₃ n₃, List.append_assoc] at h
        exact h
      have hpre : (kindSuf a).drop j <+: kindPre b₃ :=
        List.prefix_of_prefix_length_le h' (List.prefix_append _ _) hlen
      have := kindSuf_drop_not_pre a b₃ j hj
      rw [List.isPrefixOf_iff_prefix.mpr hpre] at this
      exact absurd this (by simp)

/-- The tail of a token split strictly inside its prefix word can never be
a prefix of the remaining chunk text: the split letters would have to
continue into a neighbouring chunk, and every continuation dies on the
vocabulary-free literals, the sealed boundaries, or the shape of another
key. -/
theorem key_tail_dead : ∀ (cs₂ : List RChunk), chunksWF cs₂ →
    ∀ (a : TokKind) (m t : Nat), 1 ≤ t → t < (kindPre a).length →
    ((kindPre a).drop t ++ (natDigits m ++ kindSuf a)) <+:
      renderChunks cs₂ → False := by
  intro cs₂ hwf₂ a m t ht1 htp h
  have hρne : (kindPre a).drop t ≠ [] := drop_ne_nil htp
  cases cs₂ with
  | nil =>
    rw [show renderChunks [] = [] from rfl] at h
    have := List.prefix_nil.mp h
    obtain ⟨c, w, he, _⟩ := cons_of_ne_nil hρne
    rw [he] at this
    simp at this
  | cons ch₂ cs₃ =>
    cases ch₂ with
    | sealed s₂ =>
      exact frag_dead (RChunk.sealed s₂ :: cs₃) hwf₂
        (by intro s hs; simp at hs) a m _ hρne
        (fun c hc => List.drop_subset _ _ hc)
        (fun b => kindPre_drop_ne a b t htp ht1) h
    | key b₃ n₃ =>
      exact frag_dead (RChunk.key b₃ n₃ :: cs₃) hwf₂
        (by intro s hs; simp at hs) a m _ hρne
        (fun c hc => List.drop_subset _ _ hc)
        (fun b => kindPre_drop_ne a b t htp ht1) h
    | lit s₂ =>
      have hwfree : wordFreeB s₂ = true := hwf₂.1 s₂ (by simp)
      have hwf₃ : chunksWF cs₃ := ⟨fun s hs => hwf₂.1 s (by simp [hs]),
        fun s hs => hwf₂.2.1 s (by simp [hs]), noLLB_tail hwf₂.2.2⟩
      have hnl₃ : ∀ s, cs₃.head? = some (RChunk.lit s) → False := by
        intro s hs
        cases cs₃ with
        | nil => simp at hs
        | cons c₃ cs₄ =>
          simp at hs
          subst hs
          exact noLLB_not_ll hwf₂.2.2
      rw [renderChunks_cons] at h
      rw [show renderChunk (RChunk.lit s₂) = s₂ from rfl] at h
      have hEsuf : js "END" <+: kindSuf a :=
        List.isPrefixOf_iff_prefix.mp (kindSuf_end3 a)
      have hbase : ((kindPre a).drop t ++ (natDigits m ++ js "END")) <+:
          ((kindPre a).drop t ++ (natDigits m ++ kindSuf a)) := by
        apply (List.prefix_append_right_inj _).mpr
        apply (List.prefix_append_right_inj _).mpr
        exact hEsuf
      have endkill : ((kindPre a).drop t ++ (natDigits m ++ js "END")) <+:
          s₂ → False := by
        intro hpre
        obtain ⟨z, hz⟩ := hpre
        have hdropz : s₂.drop (((kindPre a).drop t ++ natDigits m).length) =
            js "END" ++ z := by
          rw [← hz]
          rw [show ((kindPre a).drop t ++ (natDigits m ++ js "END")) ++ z =
            ((kindPre a).drop t ++ natDigits m) ++ (js "END" ++ z) from by
              simp]
          exact List.drop_left _ _
        have hend : js "END" <+:
            s₂.drop (((kindPre a).drop t ++ natDigits m).length) := by
          rw [hdropz]
          exact List.prefix_append _ _
        have hsub := substr_of_prefix_drop hend
        rw [word_of_wordFree hwfree (js "END") end_mem_tokWords] at hsub
        exact absurd hsub (by simp)
      rcases prefix_append_cases h with hin | ⟨k₃, hk₃eq, hk₃⟩
      · exact endkill (hbase.trans hin)
      · have hk₃d : k₃ = ((kindPre a).drop t ++
            (natDigits m ++ kindSuf a)).drop s₂.length := by
          rw [hk₃eq]
          exact (List.drop_left _ _).symm
        have hs₂take : s₂ = ((kindPre a).drop t ++
            (natDigits m ++ kindSuf a)).take s₂.length := by
          have hpre : s₂ <+: ((kindPre a).drop t ++
              (natDigits m ++ kindSuf a)) := ⟨k₃, hk₃eq.symm⟩
          exact List.prefix_iff_eq_take.mp hpre
        have hρlen : ((kindPre a).drop t).length = (kindPre a).length - t
            := by simp
        by_cases hA : s₂.length < ((kindPre a).drop t).length
        · have hk₃form : k₃ = (kindPre a).drop (t + s₂.length) ++
              (natDigits m ++ kindSuf a) := by
            rw [hk₃d]
            rw [List.drop_append_of_le_length (Nat.le_of_lt hA)]
            rw [List.drop_drop]
          have hte : t + s₂.length < (kindPre a).length := by omega
          rw [hk₃form] at hk₃
          exact frag_dead cs₃ hwf₃ hnl₃ a m _
            (drop_ne_nil hte)
            (fun c hc => List.drop_subset _ _ hc)
            (fun b => kindPre_drop_ne a b (t + s₂.length) hte (by omega))
            hk₃
        · push_neg at hA
          by_cases hB : s₂.length <
              ((kindPre a).drop t).length + (natDigits m).length
          · have hk₃form : k₃ = (natDigits m).drop
                (s₂.length - ((kindPre a).drop t).length) ++ kindSuf a := by
              rw [hk₃d]
              rw [show s₂.length = ((kindPre a).drop t).length +
                (s₂.length - ((kindPre a).drop t).length) from by omega]
              rw [List.drop_append]
              rw [List.drop_append_of_le_length (by omega)]
              congr 2
              omega
            rw [hk₃form] at hk₃
            exact dig_dead cs₃ hwf₃ hnl₃ a _
              (drop_ne_nil (by omega))
              (fun c hc => digits_chars m c (List.drop_subset _ _ hc))
              hk₃
          · push_neg at hB
            by_cases hC : s₂.length <
                ((kindPre a).drop t).length + (natDigits m).length + 3
            · have hk₃form : k₃ = (kindSuf a).drop
                  (s₂.length - ((kindPre a).drop t).length -
                    (natDigits m).length) := by
                rw [hk₃d]
                rw [show (kindPre a).drop t ++ (natDigits m ++ kindSuf a) =
                  ((kindPre a).drop t ++ natDigits m) ++ kindSuf a from by
                    simp]
                rw [show s₂.length =
                  ((kindPre a).drop t ++ natDigits m).length +
                  (s₂.length - ((kindPre a).drop t).length -
                    (natDigits m).length) from by simp; omega]
                rw [List.drop_append]
                congr 1
                simp only [List.length_append]
                omega
              rw [hk₃form] at hk₃
              exact suf_dead cs₃ hwf₃ hnl₃ a _ (by omega) hk₃
            · push_neg at hC
              apply endkill
              rw [hs₂take]
              rw [List.prefix_take_iff]
              refine ⟨hbase, ?_⟩
              have : (js "END").length = 3 := by decide
              simp only [List.length_append, this]
              omega

/-- Alignment of token occurrences: in a hygienic chunk decomposition,
every occurrence of a placeholder token is exactly a key chunk of that
kind and index, at that chunk's offset. -/
theorem key_align : ∀ (cs : List RChunk), chunksWF cs →
    ∀ (a : TokKind) (m i : Nat),
    (mkKey a m).isPrefixOf ((renderChunks cs).drop i) = true →
    ∃ pre post, cs = pre ++ RChunk.key a m :: post ∧
      i = (renderChunks pre).length := by
  intro cs
  induction cs with
  | nil =>
    intro _ a m i h
    exfalso
    rw [show renderChunks [] = [] from rfl, List.drop_nil] at h
    have := List.prefix_nil.mp (List.isPrefixOf_iff_prefix.mp h)
    exact mkKey_ne_nil this
  | cons ch cs' ih =>
    intro hwfc a m i h
    have hwfc' : chunksWF cs' := ⟨fun s hs => hwfc.1 s (by simp [hs]),
      fun s hs => hwfc.2.1 s (by simp [hs]), noLLB_tail hwfc.2.2⟩
    rw [renderChunks_cons] at h
    by_cases hge : (renderChunk ch).length ≤ i
    · have hi2 : i = (renderChunk ch).length + (i - (renderChunk ch).length)
        := by omega
      rw [hi2, List.drop_append] at h
      obtain ⟨pre, post, hsplit, hoff⟩ := ih hwfc' a m _ h
      refine ⟨ch :: pre, post, by rw [hsplit, List.cons_append], ?_⟩
      rw [renderChunks_cons]
      simp only [List.length_append]
      omega
    · push_neg at hge
      have hk : mkKey a m <+: (renderChunk ch).drop i ++ renderChunks cs'
          := by
        have hp := List.isPrefixOf_iff_prefix.mp h
        rw [List.drop_append_of_le_length (Nat.le_of_lt hge)] at hp
        exact hp
      have hnl' : ∀ s₃, cs'.head? = some (RChunk.lit s₃) →
          isLitC ch = true → False := by
        intro s₃ hs₃ hlit
        cases cs' with
        | nil => simp at hs₃
        | cons c₃ cs₄ =>
          simp at hs₃
          subst hs₃
          cases ch with
          | lit s => exact noLLB_not_ll hwfc.2.2
          | key k n => simp [isLitC] at hlit
          | sealed s => simp [isLitC] at hlit
      cases ch with
      | lit s =>
        exfalso
        rw [show renderChunk (RChunk.lit s) = s from rfl] at hk
        have hge' : i < s.length := hge
        have hwfree : wordFreeB s = true := hwfc.1 s (by simp)
        rcases prefix_append_cases hk with hin | ⟨k₂, hks, hk₂⟩
        · have := wordFree_no_key hwfree (a := a) (m := m) (i := i)
          rw [List.isPrefixOf_iff_prefix.mpr hin] at this
          exact absurd this (by simp)
        · have hqne : s.drop i ≠ [] := drop_ne_nil hge'
          have ht1 : 1 ≤ (s.drop i).length := by
            cases hq : s.drop i with
            | nil => exact absurd hq hqne
            | cons c w => simp [hq]
          by_cases htp : (kindPre a).length ≤ (s.drop i).length
          · have hqpre : s.drop i <+: mkKey a m := ⟨k₂, hks.symm⟩
            have hPk : kindPre a <+: mkKey a m :=
              ⟨natDigits m ++ kindSuf a, (key_decomp a m).symm⟩
            have hPq : kindPre a <+: s.drop i :=
              List.prefix_of_prefix_length_le hPk hqpre htp
            have hsub := substr_of_prefix_drop hPq
            rw [word_of_wordFree hwfree _ (kindPre_mem_tokWords a)] at hsub
            exact absurd hsub (by simp)
          · push_neg at htp
            have hk₂form : k₂ = (kindPre a).drop (s.drop i).length ++
                (natDigits m ++ kindSuf a) := by
              have h1 : k₂ = (mkKey a m).drop (s.drop i).length := by
                rw [hks]
                exact (List.drop_left _ _).symm
              rw [h1, key_decomp a m]
              rw [List.drop_append_of_le_length (Nat.le_of_lt htp)]
            rw [hk₂form] at hk₂
            exact frag_dead cs' hwfc'
              (fun s₃ hs₃ => hnl' s₃ hs₃ rfl) a m _
              (drop_ne_nil htp)
              (fun c hc => List.drop_subset _ _ hc)
              (fun b => kindPre_drop_ne a b _ htp ht1)
              hk₂
      | sealed s =>
        exfalso
        rw [show renderChunk (RChunk.sealed s) = s from rfl] at hk
        have hge' : i < s.length := hge
        have hsp := sealed_parts (hwfc.2.1 s (by simp))
        rcases prefix_append_cases hk with hin | ⟨k₂, hks, hk₂⟩
        · have := wordFree_no_key hsp.1 (a := a) (m := m) (i := i)
          rw [List.isPrefixOf_iff_prefix.mpr hin] at this
          exact absurd this (by simp)
        · have hqne : s.drop i ≠ [] := drop_ne_nil hge'
          obtain ⟨c, hlast⟩ : ∃ c, (s.drop i).getLast? = some c := by
            cases hq : (s.drop i).getLast? with
            | none => exact absurd (List.getLast?_eq_none_iff.mp hq) hqne
            | some c => exact ⟨c, rfl⟩
          have hcs : s.getLast? = some c := by
            rw [getLast?_drop hqne, hlast]
          have hcin : c ∈ mkKey a m := by
            have h1 : c ∈ s.drop i := List.mem_of_getLast?_eq_some hlast
            rw [hks]
            exact List.mem_append.mpr (Or.inl h1)
          have h1 := mkKey_chars hcin
          rw [hsp.2.2.2 c hcs] at h1
          exact absurd h1 (by simp)
      | key b n' =>
        obtain ⟨d₁, u₁, hd₁e, hd₁⟩ := natDigits_cons m
        obtain ⟨d₂, u₂, hd₂e, hd₂⟩ := natDigits_cons n'
        rw [show renderChunk (RChunk.key b n') = mkKey b n' from rfl] at hk
        have hgelen : i < (mkKey b n').length := hge
        have hklen : (mkKey b n').length = (kindPre b).length +
            (natDigits n').length + (kindSuf b).length := by
          rw [key_decomp b n']
          simp [List.length_append]
          omega
        by_cases hi0 : i = 0
        · subst hi0
          rw [List.drop_zero] at hk
          have hk' : kindPre a ++ d₁ :: (u₁ ++ kindSuf a) <+:
              kindPre b ++ d₂ :: (u₂ ++ (kindSuf b ++ renderChunks cs'))
              := by
            have h0 := hk
            rw [key_decomp a m, key_decomp b n', hd₁e, hd₂e] at h0
            simpa using h0
          have hab : kindPre a = kindPre b :=
            letters_align _ _ d₁ d₂ _ _ (fun c hc => pre_nondig hc)
              (fun c hc => pre_nondig hc) hd₁ hd₂ hk'
          have hab' : a = b := kindPre_inj a b hab
          subst hab'
          obtain ⟨wA, hwA⟩ := kindSuf_cons a
          have h1 := (List.prefix_append_right_inj (kindPre a)).mp hk'
          rw [hwA] at h1
          have hk3 : (natDigits m ++ 'E' :: wA) <+:
              (natDigits n' ++ 'E' :: (wA ++ renderChunks cs')) := by
            rw [hd₁e, hd₂e]
            simpa using h1
          have hdig : natDigits m = natDigits n' :=
            digitRun_align _ _ 'E' 'E' _ _
              (fun c hc => digits_chars m c hc)
              (fun c hc => digits_chars n' c hc)
              (by decide) (by decide) hk3
          have hmn : m = n' := natDigits_inj hdig
          subst hmn
          exact ⟨[], cs', rfl, rfl⟩
        · exfalso
          have hi1 : 1 ≤ i := by omega
          by_cases hA : i < (kindPre b).length
          · have hdropform : (mkKey b n').drop i =
                (kindPre b).drop i ++ (natDigits n' ++ kindSuf b) := by
              rw [key_decomp b n']
              rw [List.drop_append_of_le_length (Nat.le_of_lt hA)]
            rw [hdropform] at hk
            have hk' : kindPre a ++ d₁ :: (u₁ ++ kindSuf a) <+:
                (kindPre b).drop i ++
                  d₂ :: (u₂ ++ (kindSuf b ++ renderChunks cs')) := by
              have h0 := hk
              rw [key_decomp a m, hd₁e, hd₂e] at h0
              simpa using h0
            have hab : kindPre a = (kindPre b).drop i :=
              letters_align _ _ d₁ d₂ _ _ (fun c hc => pre_nondig hc)
                (fun c hc => pre_nondig (List.drop_subset _ _ hc))
                hd₁ hd₂ hk'
            exact kindPre_drop_ne b a i hA hi1 hab.symm
          · push_neg at hA
            by_cases hB : i < (kindPre b).length + (natDigits n').length
            · have hdropform : (mkKey b n').drop i =
                  (natDigits n').drop (i - (kindPre b).length) ++ kindSuf b
                  := by
                rw [key_decomp b n']
                rw [show i = (kindPre b).length +
                  (i - (kindPre b).length) from by omega]
                rw [List.drop_append]
                rw [List.drop_append_of_le_length (by omega)]
                congr 2
                omega
              rw [hdropform] at hk
              obtain ⟨x, preA', hpe, hxm⟩ :=
                cons_of_ne_nil (kindPre_ne_nil a)
              obtain ⟨d, dw, hde, hdm⟩ := cons_of_ne_nil
                (drop_ne_nil (show i - (kindPre b).length <
                  (natDigits n').length from by omega))
              have hk' : x :: (preA' ++ (natDigits m ++ kindSuf a)) <+:
                  d :: (dw ++ (kindSuf b ++ renderChunks cs')) := by
                have h0 := hk
                rw [key_decomp a m, hpe, hde] at h0
                simpa using h0
              have hxd := (List.cons_prefix_cons.mp hk').1
              have hxup : isDigC x = false := pre_nondig hxm
              have hddig : isDigC d = true :=
                digits_chars n' d (List.drop_subset _ _ hdm)
              rw [← hxd] at hddig
              rw [hddig] at hxup
              exact absurd hxup (by simp)
            · push_neg at hB
              have hj' : i - (kindPre b).length - (natDigits n').length <
                  (kindSuf b).length := by omega
              have hdropform : (mkKey b n').drop i = (kindSuf b).drop
                  (i - (kindPre b).length - (natDigits n').length) := by
                rw [key_decomp b n']
                rw [show kindPre b ++ (natDigits n' ++ kindSuf b) =
                  (kindPre b ++ natDigits n') ++ kindSuf b from by simp]
                rw [show i = (kindPre b ++ natDigits n').length +
                  (i - (kindPre b).length - (natDigits n').length) from by
                    simp only [List.length_append]; omega]
                rw [List.drop_append]
                congr 1
                simp only [List.length_append]
                omega
              rw [hdropform] at hk
              have hσlen : ((kindSuf b).drop
                  (i - (kindPre b).length - (natDigits n').length)).length <
                  (mkKey a m).length := by
                have h7 := (kindSuf_len37 b).2
                have h13 := mkKey_len13 (a := a) (m := m)
                simp only [List.length_drop]
                omega
              obtain ⟨hkeq, hkrest⟩ := prefix_split_long hk hσlen
              have hσp : ((kindSuf b).drop
                  (i - (kindPre b).length - (natDigits n').length)).length <
                  (kindPre a).length := by
                have h7 := (kindSuf_len37 b).2
                have h9 := kindPre_len9 a
                simp only [List.length_drop]
                omega
              have hdropk : (mkKey a m).drop
                  ((kindSuf b).drop
                    (i - (kindPre b).length -
                      (natDigits n').length)).length =
                  (kindPre a).drop ((kindSuf b).drop
                    (i - (kindPre b).length -
                      (natDigits n').length)).length ++
                    (natDigits m ++ kindSuf a) := by
                rw [key_decomp a m]
                rw [List.drop_append_of_le_length (Nat.le_of_lt hσp)]
              rw [hdropk] at hkrest
              have hσ1 : 1 ≤ ((kindSuf b).drop
                  (i - (kindPre b).length -
                    (natDigits n').length)).length := by
                have := drop_ne_nil hj'
                cases hq : (kindSuf b).drop
                    (i - (kindPre b).length - (natDigits n').length) with
                | nil => exact absurd hq this
                | cons c w => simp
              exact key_tail_dead cs' hwfc' a m _ hσ1 hσp hkrest

theorem renderSts_append (l₁ l₂ : List SegSt) :
    renderSts (l₁ ++ l₂) = renderSts l₁ ++ renderSts l₂ := by
  simp [renderSts]

theorem origText_cons (ss : SegSt) (sts : List SegSt) :
    origText (ss :: sts) = renderSeg ss.1 ++ origText sts := by
  simp [origText]

/-- Rendering of the optional pending-literal flush. -/
theorem renderChunks_litPre (acc : Str) (cs : List RChunk) :
    renderChunks ((if acc.isEmpty then [] else [.lit acc]) ++ cs) =
      acc ++ renderChunks cs := by
  by_cases he : acc.isEmpty
  · have hae : acc = [] := by
      cases acc with
      | nil => rfl
      | cons c w => simp [List.isEmpty] at he
    rw [if_pos he, hae]
    simp
  · rw [if_neg he]
    rw [show ([RChunk.lit acc] ++ cs) = RChunk.lit acc :: cs from rfl]
    rw [renderChunks_cons]
    rfl

/-- The chunk decomposition renders back to the current document text. -/
theorem renderChunks_chunksOf : ∀ (sts : List SegSt) (acc : Str),
    renderChunks (chunksOf sts acc) = acc ++ renderSts sts := by
  intro sts
  induction sts with
  | nil =>
    intro acc
    rw [show chunksOf [] acc = if acc.isEmpty then [] else [.lit acc]
      from rfl]
    have := renderChunks_litPre acc []
    rw [List.append_nil] at this
    rw [this]
    rfl
  | cons ss rest ih =>
    intro acc
    obtain ⟨s, stat⟩ := ss
    rw [renderSts_cons]
    cases stat with
    | raw =>
      rw [show chunksOf ((s, SStat.raw) :: rest) acc =
        chunksOf rest (acc ++ renderSeg s) from rfl]
      rw [ih]
      show acc ++ renderSeg s ++ renderSts rest =
        acc ++ (renderSegSt (s, SStat.raw) ++ renderSts rest)
      simp [renderSegSt]
    | keyed k n =>
      rw [show chunksOf ((s, SStat.keyed k n) :: rest) acc =
        (if isMB s then
          .lit (acc ++ ['\n']) :: .key k n :: chunksOf rest ['\n']
        else (if acc.isEmpty then [] else [.lit acc]) ++
          .key k n :: chunksOf rest []) from rfl]
      by_cases hmb : isMB s
      · rw [if_pos hmb]
        rw [renderChunks_cons, renderChunks_cons, ih]
        rw [show renderSegSt (s, SStat.keyed k n) =
          '\n' :: (mkKey k n ++ ['\n']) from by simp [renderSegSt, hmb]]
        show (acc ++ ['\n']) ++ (mkKey k n ++ (['\n'] ++ renderSts rest)) =
          acc ++ ('\n' :: (mkKey k n ++ ['\n']) ++ renderSts rest)
        simp
      · rw [if_neg hmb]
        rw [renderChunks_litPre, renderChunks_cons, ih]
        rw [show renderSegSt (s, SStat.keyed k n) = mkKey k n from by
          simp [renderSegSt, hmb]]
        show acc ++ (mkKey k n ++ ([] ++ renderSts rest)) =
          acc ++ (mkKey k n ++ renderSts rest)
        simp
    | subst r =>
      rw [show chunksOf ((s, SStat.subst r) :: rest) acc =
        (if isMB s then
          .lit (acc ++ ['\n']) :: .sealed r :: chunksOf rest ['\n']
        else (if acc.isEmpty then [] else [.lit acc]) ++
          .sealed r :: chunksOf rest []) from rfl]
      by_cases hmb : isMB s
      · rw [if_pos hmb]
        rw [renderChunks_cons, renderChunks_cons, ih]
        rw [show renderSegSt (s, SStat.subst r) =
          '\n' :: (r ++ ['\n']) from by simp [renderSegSt, hmb]]
        show (acc ++ ['\n']) ++ (r ++ (['\n'] ++ renderSts rest)) =
          acc ++ ('\n' :: (r ++ ['\n']) ++ renderSts rest)
        simp
      · rw [if_neg hmb]
        rw [renderChunks_litPre, renderChunks_cons, ih]
        rw [show renderSegSt (s, SStat.subst r) = r from by
          simp [renderSegSt, hmb]]
        show acc ++ (r ++ ([] ++ renderSts rest)) =
          acc ++ (r ++ renderSts rest)
        simp

/-- Every literal chunk of the decomposition is an infix of the original
document text. -/
theorem chunks_lits_infix : ∀ (sts : List SegSt) (acc D : Str),
    (acc ++ origText sts) <:+: D →
    ∀ s, RChunk.lit s ∈ chunksOf sts acc → s <:+: D := by
  intro sts
  induction sts with
  | nil =>
    intro acc D h s hs
    rw [show chunksOf [] acc = if acc.isEmpty then [] else [.lit acc]
      from rfl] at hs
    by_cases he : acc.isEmpty
    · rw [if_pos he] at hs
      simp at hs
    · rw [if_neg he] at hs
      simp at hs
      rw [hs]
      have hz : acc ++ origText [] = acc := by simp [origText]
      rw [hz] at h
      exact h
  | cons ss rest ih =>
    intro acc D h s hs
    obtain ⟨s0, stat⟩ := ss
    rw [origText_cons] at h
    cases stat with
    | raw =>
      rw [show chunksOf ((s0, SStat.raw) :: rest) acc =
        chunksOf rest (acc ++ renderSeg s0) from rfl] at hs
      apply ih (acc ++ renderSeg s0) D _ s hs
      rw [List.append_assoc]
      exact h
    | keyed k n =>
      rw [show chunksOf ((s0, SStat.keyed k n) :: rest) acc =
        (if isMB s0 then
          .lit (acc ++ ['\n']) :: .key k n :: chunksOf rest ['\n']
        else (if acc.isEmpty then [] else [.lit acc]) ++
          .key k n :: chunksOf rest []) from rfl] at hs
      by_cases hmb : isMB s0
      · rw [if_pos hmb] at hs
        cases s0 with
        | mblock t =>
          rcases List.mem_cons.mp hs with he | hs₂
          · simp at he
            rw [he]
            have hpre : (acc ++ ['\n']) <+:
                (acc ++ (renderSeg (Seg.mblock t) ++ origText rest)) := by
              apply (List.prefix_append_right_inj acc).mpr
              rw [show renderSeg (Seg.mblock t) ++ origText rest =
                '\n' :: ('$' :: '$' :: (t ++ '$' :: '$' :: ['\n']) ++
                  origText rest) from by simp [renderSeg]]
              exact List.cons_prefix_cons.mpr ⟨rfl, List.nil_prefix⟩
            exact List.IsInfix.trans hpre.isInfix h
          · rcases List.mem_cons.mp hs₂ with he₂ | hs₃
            · simp at he₂
            · apply ih ['\n'] D _ s hs₃
              have hsuf : (['\n'] ++ origText rest) <:+
                  (acc ++ (renderSeg (Seg.mblock t) ++ origText rest)) := by
                refine ⟨acc ++ ('\n' :: '$' :: '$' :: (t ++ ['$', '$'])), ?_⟩
                simp [renderSeg]
              exact List.IsInfix.trans hsuf.isInfix h
        | plain p => simp [isMB] at hmb
        | fenced b => simp [isMB] at hmb
        | icode b => simp [isMB] at hmb
        | minline t => simp [isMB] at hmb
      · rw [if_neg hmb] at hs
        rcases List.mem_append.mp hs with hpre | hcons
        · by_cases he : acc.isEmpty
          · rw [if_pos he] at hpre
            simp at hpre
          · rw [if_neg he] at hpre
            simp at hpre
            rw [hpre]
            have hpre2 : acc <+:
                (acc ++ (renderSeg s0 ++ origText rest)) :=
              List.prefix_append _ _
            exact List.IsInfix.trans hpre2.isInfix h
        · rcases List.mem_cons.mp hcons with he₂ | hs₃
          · simp at he₂
          · apply ih [] D _ s hs₃
            rw [List.nil_append]
            have hsuf : origText rest <:+
                (acc ++ (renderSeg s0 ++ origText rest)) :=
              ⟨acc ++ renderSeg s0, by simp⟩
            exact List.IsInfix.trans hsuf.isInfix h
    | subst r =>
      rw [show chunksOf ((s0, SStat.subst r) :: rest) acc =
        (if isMB s0 then
          .lit (acc ++ ['\n']) :: .sealed r :: chunksOf rest ['\n']
        else (if acc.isEmpty then [] else [.lit acc]) ++
          .sealed r :: chunksOf rest []) from rfl] at hs
      by_cases hmb : isMB s0
      · rw [if_pos hmb] at hs
        cases s0 with
        | mblock t =>
          rcases List.mem_cons.mp hs with he | hs₂
          · simp at he
            rw [he]
            have hpre : (acc ++ ['\n']) <+:
                (acc ++ (renderSeg (Seg.mblock t) ++ origText rest)) := by
              apply (List.prefix_append_right_inj acc).mpr
              rw [show renderSeg (Seg.mblock t) ++ origText rest =
                '\n' :: ('$' :: '$' :: (t ++ '$' :: '$' :: ['\n']) ++
                  origText rest) from by simp [renderSeg]]
              exact List.cons_prefix_cons.mpr ⟨rfl, List.nil_prefix⟩
            exact List.IsInfix.trans hpre.isInfix h
          · rcases List.mem_cons.mp hs₂ with he₂ | hs₃
            · simp at he₂
            · apply ih ['\n'] D _ s hs₃
              have hsuf : (['\n'] ++ origText rest) <:+
                  (acc ++ (renderSeg (Seg.mblock t) ++ origText rest)) := by
                refine ⟨acc ++ ('\n' :: '$' :: '$' :: (t ++ ['$', '$'])), ?_⟩
                simp [renderSeg]
              exact List.IsInfix.trans hsuf.isInfix h
        | plain p => simp [isMB] at hmb
        | fenced b => simp [isMB] at hmb
        | icode b => simp [isMB] at hmb
        | minline t => simp [isMB] at hmb
      · rw [if_neg hmb] at hs
        rcases List.mem_append.mp hs with hpre | hcons
        · by_cases he : acc.isEmpty
          · rw [if_pos he] at hpre
            simp at hpre
          · rw [if_neg he] at hpre
            simp at hpre
            rw [hpre]
            have hpre2 : acc <+:
                (acc ++ (renderSeg s0 ++ origText rest)) :=
              List.prefix_append _ _
            exact List.IsInfix.trans hpre2.isInfix h
        · rcases List.mem_cons.mp hcons with he₂ | hs₃
          · simp at he₂
          · apply ih [] D _ s hs₃
            rw [List.nil_append]
            have hsuf : origText rest <:+
                (acc ++ (renderSeg s0 ++ origText rest)) :=
              ⟨acc ++ renderSeg s0, by simp⟩
            exact List.IsInfix.trans hsuf.isInfix h

/-- Every sealed chunk comes from a substituted segment. -/
theorem chunks_sealed : ∀ (sts : List SegSt) (acc r : Str),
    RChunk.sealed r ∈ chunksOf sts acc →
    ∃ s0, (s0, SStat.subst r) ∈ sts := by
  intro sts
  induction sts with
  | nil =>
    intro acc r hs
    rw [show chunksOf [] acc = if acc.isEmpty then [] else [.lit acc]
      from rfl] at hs
    by_cases he : acc.isEmpty
    · rw [if_pos he] at hs
      simp at hs
    · rw [if_neg he] at hs
      simp at hs
  | cons ss rest ih =>
    intro acc r hs
    obtain ⟨s0, stat⟩ := ss
    cases stat with
    | raw =>
      rw [show chunksOf ((s0, SStat.raw) :: rest) acc =
        chunksOf rest (acc ++ renderSeg s0) from rfl] at hs
      obtain ⟨s1, hm⟩ := ih _ r hs
      exact ⟨s1, List.mem_cons_of_mem _ hm⟩
    | keyed k n =>
      rw [show chunksOf ((s0, SStat.keyed k n) :: rest) acc =
        (if isMB s0 then
          .lit (acc ++ ['\n']) :: .key k n :: chunksOf rest ['\n']
        else (if acc.isEmpty then [] else [.lit acc]) ++
          .key k n :: chunksOf rest []) from rfl] at hs
      by_cases hmb : isMB s0
      · rw [if_pos hmb] at hs
        rcases List.mem_cons.mp hs with he | hs₂
        · simp at he
        · rcases List.mem_cons.mp hs₂ with he₂ | hs₃
          · simp at he₂
          · obtain ⟨s1, hm⟩ := ih _ r hs₃
            exact ⟨s1, List.mem_cons_of_mem _ hm⟩
      · rw [if_neg hmb] at hs
        rcases List.mem_append.mp hs with hpre | hcons
        · by_cases he : acc.isEmpty
          · rw [if_pos he] at hpre
            simp at hpre
          · rw [if_neg he] at hpre
            simp at hpre
        · rcases List.mem_cons.mp hcons with he₂ | hs₃
          · simp at he₂
          · obtain ⟨s1, hm⟩ := ih _ r hs₃
            exact ⟨s1, List.mem_cons_of_mem _ hm⟩
    | subst r₂ =>
      rw [show chunksOf ((s0, SStat.subst r₂) :: rest) acc =
        (if isMB s0 then
          .lit (acc ++ ['\n']) :: .sealed r₂ :: chunksOf rest ['\n']
        else (if acc.isEmpty then [] else [.lit acc]) ++
          .sealed r₂ :: chunksOf rest []) from rfl] at hs
      by_cases hmb : isMB s0
      · rw [if_pos hmb] at hs
        rcases List.mem_cons.mp hs with he | hs₂
        · simp at he
        · rcases List.mem_cons.mp hs₂ with he₂ | hs₃
          · simp at he₂
            subst he₂
            exact ⟨s0, by simp⟩
          · obtain ⟨s1, hm⟩ := ih _ r hs₃
            exact ⟨s1, List.mem_cons_of_mem _ hm⟩
      · rw [if_neg hmb] at hs
        rcases List.mem_append.mp hs with hpre | hcons
        · by_cases he : acc.isEmpty
          · rw [if_pos he] at hpre
            simp at hpre
          · rw [if_neg he] at hpre
            simp at hpre
        · rcases List.mem_cons.mp hcons with he₂ | hs₃
          · simp at he₂
            subst he₂
            exact ⟨s0, by simp⟩
          · obtain ⟨s1, hm⟩ := ih _ r hs₃
            exact ⟨s1, List.mem_cons_of_mem _ hm⟩

/-- Every key chunk comes from a keyed segment. -/
theorem chunks_keys_mem : ∀ (sts : List SegSt) (acc : Str)
    (k : TokKind) (n : Nat),
    RChunk.key k n ∈ chunksOf sts acc →
    SStat.keyed k n ∈ sts.map Prod.snd := by
  intro sts
  induction sts with
  | nil =>
    intro acc k n hs
    rw [show chunksOf [] acc = if acc.isEmpty then [] else [.lit acc]
      from rfl] at hs
    by_cases he : acc.isEmpty
    · rw [if_pos he] at hs
      simp at hs
    · rw [if_neg he] at hs
      simp at hs
  | cons ss rest ih =>
    intro acc k n hs
    obtain ⟨s0, stat⟩ := ss
    cases stat with
    | raw =>
      rw [show chunksOf ((s0, SStat.raw) :: rest) acc =
        chunksOf rest (acc ++ renderSeg s0) from rfl] at hs
      exact List.mem_cons_of_mem _ (ih _ k n hs)
    | keyed k₂ n₂ =>
      rw [show chunksOf ((s0, SStat.keyed k₂ n₂) :: rest) acc =
        (if isMB s0 then
          .lit (acc ++ ['\n']) :: .key k₂ n₂ :: chunksOf rest ['\n']
        else (if acc.isEmpty then [] else [.lit acc]) ++
          .key k₂ n₂ :: chunksOf rest []) from rfl] at hs
      by_cases hmb : isMB s0
      · rw [if_pos hmb] at hs
        rcases List.mem_cons.mp hs with he | hs₂
        · simp at he
        · rcases List.mem_cons.mp hs₂ with he₂ | hs₃
          · simp at he₂
            obtain ⟨hk, hn⟩ := he₂
            subst hk
            subst hn
            simp
          · exact List.mem_cons_of_mem _ (ih _ k n hs₃)
      · rw [if_neg hmb] at hs
        rcases List.mem_append.mp hs with hpre | hcons
        · by_cases he : acc.isEmpty
          · rw [if_pos he] at hpre
            simp at hpre
          · rw [if_neg he] at hpre
            simp at hpre
        · rcases List.mem_cons.mp hcons with he₂ | hs₃
          · simp at he₂
            obtain ⟨hk, hn⟩ := he₂
            subst hk
            subst hn
            simp
          · exact List.mem_cons_of_mem _ (ih _ k n hs₃)
    | subst r =>
      rw [show chunksOf ((s0, SStat.subst r) :: rest) acc =
        (if isMB s0 then
          .lit (acc ++ ['\n']) :: .sealed r :: chunksOf rest ['\n']
        else (if acc.isEmpty then [] else [.lit acc]) ++
          .sealed r :: chunksOf rest []) from rfl] at hs
      by_cases hmb : isMB s0
      · rw [if_pos hmb] at hs
        rcases List.mem_cons.mp hs with he | hs₂
        · simp at he
        · rcases List.mem_cons.mp hs₂ with he₂ | hs₃
          · simp at he₂
          · exact List.mem_cons_of_mem _ (ih _ k n hs₃)
      · rw [if_neg hmb] at hs
        rcases List.mem_append.mp hs with hpre | hcons
        · by_cases he : acc.isEmpty
          · rw [if_pos he] at hpre
            simp at hpre
          · rw [if_neg he] at hpre
            simp at hpre
        · rcases List.mem_cons.mp hcons with he₂ | hs₃
          · simp at he₂
          · exact List.mem_cons_of_mem _ (ih _ k n hs₃)

theorem noLLB_cons_nonlitfst {x : RChunk} {cs : List RChunk}
    (hx : isLitC x = false) (h : noLLB cs = true) :
    noLLB (x :: cs) = true := by
  cases cs with
  | nil => rfl
  | cons y cs' =>
    simp only [noLLB, Bool.and_eq_true]
    exact ⟨by simp [hx], h⟩

theorem noLLB_lit_cons {s : Str} {y : RChunk} {cs : List RChunk}
    (hy : isLitC y = false) (h : noLLB (y :: cs) = true) :
    noLLB (RChunk.lit s :: y :: cs) = true := by
  simp only [noLLB, Bool.and_eq_true]
  exact ⟨by simp [hy], h⟩

theorem noLLB_litPre {acc : Str} {y : RChunk} {cs : List RChunk}
    (hy : isLitC y = false) (h : noLLB (y :: cs) = true) :
    noLLB ((if acc.isEmpty then [] else [RChunk.lit acc]) ++ y :: cs) =
      true := by
  by_cases he : acc.isEmpty
  · rw [if_pos he]
    exact h
  · rw [if_neg he]
    exact noLLB_lit_cons hy h

/-- The chunk decomposition never has two adjacent literal chunks. -/
theorem noLLB_chunksOf : ∀ (sts : List SegSt) (acc : Str),
    noLLB (chunksOf sts acc) = true := by
  intro sts
  induction sts with
  | nil =>
    intro acc
    rw [show chunksOf [] acc = if acc.isEmpty then [] else [.lit acc]
      from rfl]
    by_cases he : acc.isEmpty
    · rw [if_pos he]
      rfl
    · rw [if_neg he]
      rfl
  | cons ss rest ih =>
    intro acc
    obtain ⟨s0, stat⟩ := ss
    cases stat with
    | raw =>
      rw [show chunksOf ((s0, SStat.raw) :: rest) acc =
        chunksOf rest (acc ++ renderSeg s0) from rfl]
      exact ih _
    | keyed k n =>
      rw [show chunksOf ((s0, SStat.keyed k n) :: rest) acc =
        (if isMB s0 then
          .lit (acc ++ ['\n']) :: .key k n :: chunksOf rest ['\n']
        else (if acc.isEmpty then [] else [.lit acc]) ++
          .key k n :: chunksOf rest []) from rfl]
      by_cases hmb : isMB s0
      · rw [if_pos hmb]
        exact noLLB_lit_cons (by simp [isLitC])
          (noLLB_cons_nonlitfst (by simp [isLitC]) (ih _))
      · rw [if_neg hmb]
        exact noLLB_litPre (by simp [isLitC])
          (noLLB_cons_nonlitfst (by simp [isLitC]) (ih _))
    | subst r =>
      rw [show chunksOf ((s0, SStat.subst r) :: rest) acc =
        (if isMB s0 then
          .lit (acc ++ ['\n']) :: .sealed r :: chunksOf rest ['\n']
        else (if acc.isEmpty then [] else [.lit acc]) ++
          .sealed r :: chunksOf rest []) from rfl]
      by_cases hmb : isMB s0
      · rw [if_pos hmb]
        exact noLLB_lit_cons (by simp [isLitC])
          (noLLB_cons_nonlitfst (by simp [isLitC]) (ih _))
      · rw [if_neg hmb]
        exact noLLB_litPre (by simp [isLitC])
          (noLLB_cons_nonlitfst (by simp [isLitC]) (ih _))

theorem renderChunks_litPre' (acc : Str) :
    renderChunks (if acc.isEmpty then [] else [RChunk.lit acc]) = acc := by
  have := renderChunks_litPre acc []
  rw [List.append_nil] at this
  rw [this]
  simp [renderChunks]

theorem litPre_no_key {acc : Str} {k : TokKind} {n : Nat}
    (h : RChunk.key k n ∈ (if acc.isEmpty then [] else [RChunk.lit acc])) :
    False := by
  by_cases he : acc.isEmpty
  · rw [if_pos he] at h
    simp at h
  · rw [if_neg he] at h
    simp at h

/-- The chunk decomposition around a keyed segment: the keyed slot shows
up as a key chunk whose offset is exactly the rendered text to its left,
and the key chunks on either side come from the statuses on that side. -/
theorem chunksOf_split_gen : ∀ (L : List SegSt) (seg : Seg) (kk : TokKind)
    (nn : Nat) (R : List SegSt) (acc : Str),
    ∃ pre post,
      chunksOf (L ++ (seg, SStat.keyed kk nn) :: R) acc =
        pre ++ RChunk.key kk nn :: post ∧
      renderChunks pre = acc ++ renderSts L ++
        (if isMB seg then ['\n'] else []) ∧
      renderChunks post = (if isMB seg then ['\n'] else []) ++
        renderSts R ∧
      (∀ k n, RChunk.key k n ∈ pre → SStat.keyed k n ∈ L.map Prod.snd) ∧
      (∀ k n, RChunk.key k n ∈ post → SStat.keyed k n ∈ R.map Prod.snd)
    := by
  intro L
  induction L with
  | nil =>
    intro seg kk nn R acc
    by_cases hmb : isMB seg
    · refine ⟨[RChunk.lit (acc ++ ['\n'])], chunksOf R ['\n'], ?_, ?_, ?_,
        ?_, ?_⟩
      · rw [List.nil_append]
        rw [show chunksOf ((seg, SStat.keyed kk nn) :: R) acc =
          (if isMB seg then
            .lit (acc ++ ['\n']) :: .key kk nn :: chunksOf R ['\n']
          else (if acc.isEmpty then [] else [.lit acc]) ++
            .key kk nn :: chunksOf R []) from rfl, if_pos hmb]
        rfl
      · rw [if_pos hmb]
        simp [renderChunks, renderChunk, renderSts]
      · rw [if_pos hmb]
        rw [renderChunks_chunksOf]
      · intro k n hk
        simp at hk
      · intro k n hk
        exact chunks_keys_mem R _ k n hk
    · refine ⟨if acc.isEmpty then [] else [RChunk.lit acc], chunksOf R [],
        ?_, ?_, ?_, ?_, ?_⟩
      · rw [List.nil_append]
        rw [show chunksOf ((seg, SStat.keyed kk nn) :: R) acc =
          (if isMB seg then
            .lit (acc ++ ['\n']) :: .key kk nn :: chunksOf R ['\n']
          else (if acc.isEmpty then [] else [.lit acc]) ++
            .key kk nn :: chunksOf R []) from rfl, if_neg hmb]
      · rw [if_neg hmb]
        rw [renderChunks_litPre']
        simp [renderSts]
      · rw [if_neg hmb]
        rw [renderChunks_chunksOf]
      · intro k n hk
        exact absurd hk (fun h => litPre_no_key h)
      · intro k n hk
        exact chunks_keys_mem R _ k n hk
  | cons ss L' ih =>
    intro seg kk nn R acc
    obtain ⟨s0, stat⟩ := ss
    rw [show ((s0, stat) :: L') ++ (seg, SStat.keyed kk nn) :: R =
      (s0, stat) :: (L' ++ (seg, SStat.keyed kk nn) :: R) from rfl]
    cases stat with
    | raw =>
      obtain ⟨pre, post, heq, hpre, hpost, hkpre, hkpost⟩ :=
        ih seg kk nn R (acc ++ renderSeg s0)
      refine ⟨pre, post, ?_, ?_, hpost, ?_, hkpost⟩
      · rw [show chunksOf ((s0, SStat.raw) ::
          (L' ++ (seg, SStat.keyed kk nn) :: R)) acc =
          chunksOf (L' ++ (seg, SStat.keyed kk nn) :: R)
            (acc ++ renderSeg s0) from rfl]
        exact heq
      · rw [hpre, renderSts_cons]
        show acc ++ renderSeg s0 ++ renderSts L' ++ _ =
          acc ++ (renderSegSt (s0, SStat.raw) ++ renderSts L') ++ _
        simp [renderSegSt]
      · intro k n hk
        exact List.mem_cons_of_mem _ (hkpre k n hk)
    | keyed k₂ n₂ =>
      obtain ⟨pre, post, heq, hpre, hpost, hkpre, hkpost⟩ :=
        ih seg kk nn R (if isMB s0 then ['\n'] else [])
      by_cases hmb0 : isMB s0
      · refine ⟨RChunk.lit (acc ++ ['\n']) :: RChunk.key k₂ n₂ :: pre, post,
          ?_, ?_, hpost, ?_, hkpost⟩
        · rw [show chunksOf ((s0, SStat.keyed k₂ n₂) ::
            (L' ++ (seg, SStat.keyed kk nn) :: R)) acc =
            (if isMB s0 then
              .lit (acc ++ ['\n']) :: .key k₂ n₂ ::
                chunksOf (L' ++ (seg, SStat.keyed kk nn) :: R) ['\n']
            else (if acc.isEmpty then [] else [.lit acc]) ++
              .key k₂ n₂ ::
                chunksOf (L' ++ (seg, SStat.keyed kk nn) :: R) [])
            from rfl, if_pos hmb0]
          rw [if_pos hmb0] at heq
          rw [heq]
          rfl
        · rw [if_pos hmb0] at hpre
          rw [renderChunks_cons, renderChunks_cons, hpre, renderSts_cons]
          rw [show renderSegSt (s0, SStat.keyed k₂ n₂) =
            '\n' :: (mkKey k₂ n₂ ++ ['\n']) from by
              simp [renderSegSt, hmb0]]
          simp [renderChunk]
        · intro k n hk
          rcases List.mem_cons.mp hk with he | hk₂
          · simp at he
          · rcases List.mem_cons.mp hk₂ with he₂ | hk₃
            · simp at he₂
              obtain ⟨h1, h2⟩ := he₂
              subst h1
              subst h2
              simp
            · exact List.mem_cons_of_mem _ (hkpre k n hk₃)
      · refine ⟨(if acc.isEmpty then [] else [RChunk.lit acc]) ++
          RChunk.key k₂ n₂ :: pre, post, ?_, ?_, hpost, ?_, hkpost⟩
        · rw [show chunksOf ((s0, SStat.keyed k₂ n₂) ::
            (L' ++ (seg, SStat.keyed kk nn) :: R)) acc =
            (if isMB s0 then
              .lit (acc ++ ['\n']) :: .key k₂ n₂ ::
                chunksOf (L' ++ (seg, SStat.keyed kk nn) :: R) ['\n']
            else (if acc.isEmpty then [] else [.lit acc]) ++
              .key k₂ n₂ ::
                chunksOf (L' ++ (seg, SStat.keyed kk nn) :: R) [])
            from rfl, if_neg hmb0]
          rw [if_neg hmb0] at heq
          rw [heq]
          simp
        · rw [if_neg hmb0] at hpre
          rw [renderChunks_litPre, renderChunks_cons, hpre, renderSts_cons]
          rw [show renderSegSt (s0, SStat.keyed k₂ n₂) = mkKey k₂ n₂ from by
            simp [renderSegSt, hmb0]]
          simp [renderChunk]
        · intro k n hk
          rcases List.mem_append.mp hk with hp | hc
          · exact absurd hp (fun h => litPre_no_key h)
          · rcases List.mem_cons.mp hc with he₂ | hk₃
            · simp at he₂
              obtain ⟨h1, h2⟩ := he₂
              subst h1
              subst h2
              simp
            · exact List.mem_cons_of_mem _ (hkpre k n hk₃)
    | subst r =>
      obtain ⟨pre, post, heq, hpre, hpost, hkpre, hkpost⟩ :=
        ih seg kk nn R (if isMB s0 then ['\n'] else [])
      by_cases hmb0 : isMB s0
      · refine ⟨RChunk.lit (acc ++ ['\n']) :: RChunk.sealed r :: pre, post,
          ?_, ?_, hpost, ?_, hkpost⟩
        · rw [show chunksOf ((s0, SStat.subst r) ::
            (L' ++ (seg, SStat.keyed kk nn) :: R)) acc =
            (if isMB s0 then
              .lit (acc ++ ['\n']) :: .sealed r ::
                chunksOf (L' ++ (seg, SStat.keyed kk nn) :: R) ['\n']
            else (if acc.isEmpty then [] else [.lit acc]) ++
              .sealed r ::
                chunksOf (L' ++ (seg, SStat.keyed kk nn) :: R) [])
            from rfl, if_pos hmb0]
          rw [if_pos hmb0] at heq
          rw [heq]
          rfl
        · rw [if_pos hmb0] at hpre
          rw [renderChunks_cons, renderChunks_cons, hpre, renderSts_cons]
          rw [show renderSegSt (s0, SStat.subst r) =
            '\n' :: (r ++ ['\n']) from by simp [renderSegSt, hmb0]]
          simp [renderChunk]
        · intro k n hk
          rcases List.mem_cons.mp hk with he | hk₂
          · simp at he
          · rcases List.mem_cons.mp hk₂ with he₂ | hk₃
            · simp at he₂
            · exact List.mem_cons_of_mem _ (hkpre k n hk₃)
      · refine ⟨(if acc.isEmpty then [] else [RChunk.lit acc]) ++
          RChunk.sealed r :: pre, post, ?_, ?_, hpost, ?_, hkpost⟩
        · rw [show chunksOf ((s0, SStat.subst r) ::
            (L' ++ (seg, SStat.keyed kk nn) :: R)) acc =
            (if isMB s0 then
              .lit (acc ++ ['\n']) :: .sealed r ::
                chunksOf (L' ++ (seg, SStat.keyed kk nn) :: R) ['\n']
            else (if acc.isEmpty then [] else [.lit acc]) ++
              .sealed r ::
                chunksOf (L' ++ (seg, SStat.keyed kk nn) :: R) [])
            from rfl, if_neg hmb0]
          rw [if_neg hmb0] at heq
          rw [heq]
          simp
        · rw [if_neg hmb0] at hpre
          rw [renderChunks_litPre, renderChunks_cons, hpre, renderSts_cons]
          rw [show renderSegSt (s0, SStat.subst r) = r from by
            simp [renderSegSt, hmb0]]
          simp [renderChunk]
        · intro k n hk
          rcases List.mem_append.mp hk with hp | hc
          · exact absurd hp (fun h => litPre_no_key h)
          · rcases List.mem_cons.mp hc with he₂ | hk₃
            · simp at he₂
            · exact List.mem_cons_of_mem _ (hkpre k n hk₃)

/-- A split at an element that occurs only once is unique. -/
theorem unique_split {α : Type} {x : α} : ∀ {u v u' v' : List α},
    u ++ x :: v = u' ++ x :: v' → x ∉ u → x ∉ v → u = u' ∧ v = v' := by
  intro u
  induction u with
  | nil =>
    intro v u' v' he hxu hxv
    cases u' with
    | nil =>
      simp at he
      exact ⟨rfl, he⟩
    | cons y u'' =>
      exfalso
      rw [List.nil_append, List.cons_append] at he
      have h1 : x = y := (List.cons.injEq _ _ _ _).mp he |>.1
      have h2 : v = u'' ++ x :: v' := (List.cons.injEq _ _ _ _).mp he |>.2
      apply hxv
      rw [h2]
      simp
  | cons a u₂ ih =>
    intro v u' v' he hxu hxv
    cases u' with
    | nil =>
      exfalso
      rw [List.nil_append, List.cons_append] at he
      have h1 : a = x := (List.cons.injEq _ _ _ _).mp he |>.1
      exact hxu (h1 ▸ List.mem_cons_self a u₂)
    | cons b u'' =>
      rw [List.cons_append, List.cons_append] at he
      have h1 : a = b := (List.cons.injEq _ _ _ _).mp he |>.1
      have h2 := (List.cons.injEq _ _ _ _).mp he |>.2
      obtain ⟨hu, hv⟩ := ih h2 (fun hm => hxu (List.mem_cons_of_mem _ hm))
        hxv
      exact ⟨by rw [h1, hu], hv⟩

/-- `String.replace` with a plain pattern at a located occurrence: when no
occurrence starts inside the prefix, the leftmost occurrence is the located
one. -/
theorem replaceFirstAux_eq (pat repl pre s : Str) :
    replaceFirstAux pat repl pre s =
      if pat.isPrefixOf s then
        expandRepl pat pre.reverse (s.drop pat.length) repl ++
          s.drop pat.length
      else match s with
        | [] => []
        | c :: cs => c :: replaceFirstAux pat repl (c :: pre) cs := by
  rw [replaceFirstAux.eq_def]

theorem replaceFirstAux_at : ∀ (X pat repl pre Y : Str),
    (∀ i, i < X.length →
      pat.isPrefixOf ((X ++ pat ++ Y).drop i) = false) →
    replaceFirstAux pat repl pre (X ++ pat ++ Y) =
      X ++ expandRepl pat (pre.reverse ++ X) Y repl ++ Y := by
  intro X
  induction X with
  | nil =>
    intro pat repl pre Y _
    rw [List.nil_append]
    rw [replaceFirstAux_eq]
    rw [if_pos (by
      rw [List.isPrefixOf_iff_prefix]
      exact List.prefix_append _ _)]
    rw [List.drop_left]
    simp
  | cons c X' ih =>
    intro pat repl pre Y h
    have h0 := h 0 (by simp)
    rw [List.drop_zero] at h0
    rw [show (c :: X') ++ pat ++ Y = c :: (X' ++ pat ++ Y) from by simp]
      at h0 ⊢
    rw [replaceFirstAux_eq]
    rw [if_neg (by rw [h0]; simp)]
    show c :: replaceFirstAux pat repl (c :: pre) (X' ++ pat ++ Y) = _
    rw [ih pat repl (c :: pre) Y (fun i hi => by
      have := h (i + 1) (by simpa using Nat.succ_lt_succ hi)
      rw [show ((c :: X') ++ pat ++ Y) = c :: (X' ++ pat ++ Y) from by simp]
        at this
      simpa using this)]
    rw [show (c :: pre).reverse = pre.reverse ++ [c] from by simp]
    simp

theorem infix_of_isSubstrB : ∀ {s w : Str}, isSubstrB w s = true →
    w <:+: s := by
  intro s
  induction s with
  | nil =>
    intro w h
    simp only [isSubstrB, List.isEmpty_iff] at h
    rw [h]
  | cons c cs ih =>
    intro w h
    simp only [isSubstrB, Bool.or_eq_true] at h
    rcases h with h | h
    · exact (List.isPrefixOf_iff_prefix.mp h).isInfix
    · obtain ⟨u, v, huv⟩ := ih h
      exact ⟨c :: u, v, by rw [← huv]; rfl⟩

theorem isSubstrB_of_infix {w s : Str} (h : w <:+: s) :
    isSubstrB w s = true := by
  obtain ⟨u, v, huv⟩ := h
  apply substr_of_prefix_drop (i := u.length)
  rw [← huv, List.append_assoc, List.drop_left]
  exact List.prefix_append _ _

theorem wordFreeB_of_infix {s D : Str} (hi : s <:+: D)
    (hD : wordFreeB D = true) : wordFreeB s = true := by
  simp only [wordFreeB, List.all_eq_true]
  intro w hw
  cases hsub : isSubstrB w s with
  | false => simp
  | true =>
    exfalso
    have : isSubstrB w D = true :=
      isSubstrB_of_infix ((infix_of_isSubstrB hsub).trans hi)
    rw [word_of_wordFree hD w hw] at this
    exact absurd this (by simp)

/-- The chunk decomposition of a hygienic status list is hygienic. -/
theorem chunksWF_of {sts : List SegSt}
    (hw : wordFreeB (origText sts) = true) (hs : SubSealed sts) :
    chunksWF (chunksOf sts []) := by
  refine ⟨?_, ?_, noLLB_chunksOf sts []⟩
  · intro s hsl
    have hinf : s <:+: origText sts :=
      chunks_lits_infix sts [] (origText sts) (by simp) s hsl
    exact wordFreeB_of_infix hinf hw
  · intro s hss
    obtain ⟨s0, hmem⟩ := chunks_sealed sts [] s hss
    exact hs s (List.mem_map_of_mem Prod.snd hmem)

theorem key_pfx_nil (k0 : TokKind) (n : Nat) :
    (mkKey k0 n).isPrefixOf ([] : Str) = false := by
  cases hk : mkKey k0 n with
  | nil => exact absurd hk mkKey_ne_nil
  | cons c w => rfl

theorem renderChunks_append (l₁ l₂ : List RChunk) :
    renderChunks (l₁ ++ l₂) = renderChunks l₁ ++ renderChunks l₂ := by
  simp [renderChunks]

/-- In a hygienic chunk list holding exactly one `key k0 n` chunk, the
token occurs nowhere before that chunk and nowhere after it. -/
theorem key_occ_unique : ∀ (pre post : List RChunk) (k0 : TokKind)
    (n : Nat),
    chunksWF (pre ++ RChunk.key k0 n :: post) →
    RChunk.key k0 n ∉ pre → RChunk.key k0 n ∉ post →
    (∀ i, i < (renderChunks pre).length →
      (mkKey k0 n).isPrefixOf
        ((renderChunks (pre ++ RChunk.key k0 n :: post)).drop i) = false) ∧
    (∀ i, (mkKey k0 n).isPrefixOf ((renderChunks post).drop i) = false)
    := by
  intro pre post k0 n hwf hnp hns
  constructor
  · intro i hi
    cases hp : (mkKey k0 n).isPrefixOf
        ((renderChunks (pre ++ RChunk.key k0 n :: post)).drop i) with
    | false => rfl
    | true =>
      exfalso
      obtain ⟨pre', post', hcs, hoff⟩ := key_align _ hwf k0 n i hp
      obtain ⟨hpe, _⟩ := unique_split hcs hnp hns
      rw [← hpe] at hoff
      omega
  · intro i
    by_cases hlen : (renderChunks post).length ≤ i
    · rw [List.drop_eq_nil_iff.mpr hlen]
      exact key_pfx_nil k0 n
    · push_neg at hlen
      cases hp : (mkKey k0 n).isPrefixOf ((renderChunks post).drop i) with
      | false => rfl
      | true =>
        exfalso
        have hr : renderChunks (pre ++ RChunk.key k0 n :: post) =
            renderChunks pre ++ (mkKey k0 n ++ renderChunks post) := by
          rw [renderChunks_append, renderChunks_cons]
          rfl
        have hp' : (mkKey k0 n).isPrefixOf
            ((renderChunks (pre ++ RChunk.key k0 n :: post)).drop
              ((renderChunks pre).length + ((mkKey k0 n).length + i))) =
            true := by
          rw [hr, List.drop_append, List.drop_append]
          exact hp
        obtain ⟨pre', post', hcs, hoff⟩ := key_align _ hwf k0 n _ hp'
        obtain ⟨hpe, _⟩ := unique_split hcs hnp hns
        rw [← hpe] at hoff
        have hkl : 13 ≤ (mkKey k0 n).length := mkKey_len13
        omega

theorem expandRepl_eq_cons (matched before after : Str) (c : Char)
    (r : Str) (hc : c ≠ '$') :
    expandRepl matched before after (c :: r) =
      c :: expandRepl matched before after r := by
  rw [expandRepl.eq_def]
  split <;> simp_all

theorem expandRepl_id : ∀ (repl matched before after : Str),
    '$' ∉ repl → expandRepl matched before after repl = repl := by
  intro repl
  induction repl with
  | nil => intro matched before after _; rfl
  | cons c r ih =>
    intro matched before after h
    have hc : c ≠ '$' := fun he => h (he ▸ List.mem_cons_self c r)
    have hr : '$' ∉ r := fun hm => h (List.mem_cons_of_mem c hm)
    rw [expandRepl_eq_cons matched before after c r hc,
      ih matched before after hr]

theorem replaceAllF_succ (pat repl : Str) (f : Nat) (s : Str) :
    replaceAllF pat repl (f + 1) s =
      if pat.isPrefixOf s ∧ pat ≠ [] then
        repl ++ replaceAllF pat repl f (s.drop pat.length)
      else match s with
        | [] => []
        | c :: cs => c :: replaceAllF pat repl f cs := by
  rfl

theorem replaceAllF_noOcc : ∀ (f : Nat) (s pat repl : Str),
    (∀ i, pat.isPrefixOf (s.drop i) = false) →
    replaceAllF pat repl f s = s := by
  intro f
  induction f with
  | zero => intro s pat repl _; rfl
  | succ f' ih =>
    intro s pat repl h
    have h0 : pat.isPrefixOf s = false := by
      have := h 0
      rwa [List.drop_zero] at this
    rw [replaceAllF_succ]
    rw [if_neg (fun hcond => by
      rw [h0] at hcond
      exact absurd hcond.1 (by simp))]
    cases s with
    | nil => rfl
    | cons c cs =>
      show c :: replaceAllF pat repl f' cs = c :: cs
      exact congrArg (c :: ·) (ih cs pat repl (fun i => by
        have := h (i + 1)
        rwa [List.drop_succ_cons] at this))

theorem replaceAll_single : ∀ (X : Str) (f : Nat) (pat repl Y : Str),
    pat ≠ [] →
    (∀ i, i < X.length →
      pat.isPrefixOf ((X ++ pat ++ Y).drop i) = false) →
    (∀ i, pat.isPrefixOf (Y.drop i) = false) →
    X.length + 1 ≤ f →
    replaceAllF pat repl f (X ++ pat ++ Y) = X ++ repl ++ Y := by
  intro X
  induction X with
  | nil =>
    intro f pat repl Y hne _ hY hf
    cases f with
    | zero => omega
    | succ f' =>
      rw [List.nil_append]
      rw [replaceAllF_succ]
      rw [if_pos ⟨by
        rw [List.isPrefixOf_iff_prefix]
        exact List.prefix_append _ _, hne⟩]
      rw [List.drop_left]
      rw [replaceAllF_noOcc f' Y pat repl hY]
      simp
  | cons c X' ih =>
    intro f pat repl Y hne h hY hf
    cases f with
    | zero =>
      exfalso
      simp at hf
    | succ f' =>
      have h0 : pat.isPrefixOf ((c :: X') ++ pat ++ Y) = false := by
        have := h 0 (by simp)
        rwa [List.drop_zero] at this
      rw [show (c :: X') ++ pat ++ Y = c :: (X' ++ pat ++ Y) from by simp]
        at h0 ⊢
      rw [replaceAllF_succ]
      rw [if_neg (fun hcond => by
        rw [h0] at hcond
        exact absurd hcond.1 (by simp))]
      show c :: replaceAllF pat repl f' (X' ++ pat ++ Y) = _
      rw [ih f' pat repl Y hne (fun i hi => by
        have := h (i + 1) (by simpa using Nat.succ_lt_succ hi)
        rw [show ((c :: X') ++ pat ++ Y) = c :: (X' ++ pat ++ Y)
          from by simp] at this
        rwa [List.drop_succ_cons] at this) hY (by
        simp only [List.length_cons] at hf
        omega)]
      simp

theorem stsKeys_cons (ss : SegSt) (rest : List SegSt) :
    stsKeys (ss :: rest) =
      (match ss.2 with
        | SStat.keyed k n => (k, n) :: stsKeys rest
        | _ => stsKeys rest) := rfl

theorem codeEntriesOf_cons (k0 : TokKind) (ss : SegSt)
    (rest : List SegSt) :
    codeEntriesOf k0 (ss :: rest) =
      (match ss.2 with
        | SStat.keyed k n =>
          if k = k0 then
            (mkKey k n, renderSeg ss.1) :: codeEntriesOf k0 rest
          else codeEntriesOf k0 rest
        | _ => codeEntriesOf k0 rest) := rfl

theorem mathEntriesOf_cons (k0 : TokKind) (dflag : Bool) (ss : SegSt)
    (rest : List SegSt) :
    mathEntriesOf k0 dflag (ss :: rest) =
      (match ss.2 with
        | SStat.keyed k n =>
          if k = k0 then
            (mkKey k n, texOf ss.1, dflag) :: mathEntriesOf k0 dflag rest
          else mathEntriesOf k0 dflag rest
        | _ => mathEntriesOf k0 dflag rest) := rfl

theorem mem_stsKeys : ∀ (sts : List SegSt) (k : TokKind) (n : Nat),
    (k, n) ∈ stsKeys sts ↔ SStat.keyed k n ∈ sts.map Prod.snd := by
  intro sts
  induction sts with
  | nil => intro k n; simp [stsKeys]
  | cons ss rest ih =>
    intro k n
    obtain ⟨s, stat⟩ := ss
    cases stat <;> simp [stsKeys_cons, ih]

theorem keys_of_phaseB {sts : List SegSt}
    (h : ∀ ss ∈ sts, phaseB ss) :
    ∀ k n, (k, n) ∈ stsKeys sts → k = TokKind.cb := by
  intro k n hk
  rw [mem_stsKeys] at hk
  obtain ⟨ss, hss, he⟩ := List.mem_map.mp hk
  have hp := h ss hss
  obtain ⟨s, stat⟩ := ss
  cases s with
  | fenced b =>
    obtain ⟨m, hm⟩ := hp
    rw [he] at hm
    simp only [SStat.keyed.injEq] at hm
    exact hm.1
  | plain p =>
    exfalso
    have hr : stat = SStat.raw := hp
    have he2 : stat = SStat.keyed k n := he
    rw [hr] at he2
    exact SStat.noConfusion he2
  | icode b =>
    exfalso
    have hr : stat = SStat.raw := hp
    have he2 : stat = SStat.keyed k n := he
    rw [hr] at he2
    exact SStat.noConfusion he2
  | mblock t =>
    exfalso
    have hr : stat = SStat.raw := hp
    have he2 : stat = SStat.keyed k n := he
    rw [hr] at he2
    exact SStat.noConfusion he2
  | minline t =>
    exfalso
    have hr : stat = SStat.raw := hp
    have he2 : stat = SStat.keyed k n := he
    rw [hr] at he2
    exact SStat.noConfusion he2

theorem keys_of_phaseC {sts : List SegSt}
    (h : ∀ ss ∈ sts, phaseC ss) :
    ∀ k n, (k, n) ∈ stsKeys sts →
      k = TokKind.cb ∨ k = TokKind.ci := by
  intro k n hk
  rw [mem_stsKeys] at hk
  obtain ⟨ss, hss, he⟩ := List.mem_map.mp hk
  have hp := h ss hss
  obtain ⟨s, stat⟩ := ss
  cases s with
  | fenced b =>
    obtain ⟨m, hm⟩ := hp
    rw [he] at hm
    simp only [SStat.keyed.injEq] at hm
    exact Or.inl hm.1
  | icode b =>
    obtain ⟨m, hm⟩ := hp
    rw [he] at hm
    simp only [SStat.keyed.injEq] at hm
    exact Or.inr hm.1
  | plain p =>
    exfalso
    have hr : stat = SStat.raw := hp
    have he2 : stat = SStat.keyed k n := he
    rw [hr] at he2
    exact SStat.noConfusion he2
  | mblock t =>
    exfalso
    have hr : stat = SStat.raw := hp
    have he2 : stat = SStat.keyed k n := he
    rw [hr] at he2
    exact SStat.noConfusion he2
  | minline t =>
    exfalso
    have hr : stat = SStat.raw := hp
    have he2 : stat = SStat.keyed k n := he
    rw [hr] at he2
    exact SStat.noConfusion he2

theorem keys_of_phaseD {sts : List SegSt}
    (h : ∀ ss ∈ sts, phaseD ss) :
    ∀ k n, (k, n) ∈ stsKeys sts →
      k = TokKind.cb ∨ k = TokKind.ci ∨ k = TokKind.mb := by
  intro k n hk
  rw [mem_stsKeys] at hk
  obtain ⟨ss, hss, he⟩ := List.mem_map.mp hk
  have hp := h ss hss
  obtain ⟨s, stat⟩ := ss
  cases s with
  | fenced b =>
    obtain ⟨m, hm⟩ := hp
    rw [he] at hm
    simp only [SStat.keyed.injEq] at hm
    exact Or.inl hm.1
  | icode b =>
    obtain ⟨m, hm⟩ := hp
    rw [he] at hm
    simp only [SStat.keyed.injEq] at hm
    exact Or.inr (Or.inl hm.1)
  | mblock t =>
    obtain ⟨m, hm⟩ := hp
    rw [he] at hm
    simp only [SStat.keyed.injEq] at hm
    exact Or.inr (Or.inr hm.1)
  | plain p =>
    exfalso
    have hr : stat = SStat.raw := hp
    have he2 : stat = SStat.keyed k n := he
    rw [hr] at he2
    exact SStat.noConfusion he2
  | minline t =>
    exfalso
    have hr : stat = SStat.raw := hp
    have he2 : stat = SStat.keyed k n := he
    rw [hr] at he2
    exact SStat.noConfusion he2

/-- Stage 1 records exactly the `codeMap` entries of its keyed statuses:
fresh keys, in document order, pairwise distinct. -/
theorem flipCB_all : ∀ (sts : List SegSt) (c : Nat),
    (∀ n, (TokKind.cb, n) ∉ stsKeys sts) →
    codeEntriesOf TokKind.cb (flipCB sts c).1 = (flipCB sts c).2.2 ∧
    (((flipCB sts c).2.2).map Prod.fst).Nodup ∧
    (∀ key ∈ ((flipCB sts c).2.2).map Prod.fst,
      ∃ n, key = mkKey TokKind.cb n ∧ c ≤ n) := by
  intro sts
  induction sts with
  | nil =>
    intro c _
    exact ⟨rfl, List.nodup_nil, by simp [flipCB]⟩
  | cons ss rest ih =>
    intro c hno
    obtain ⟨s, stat⟩ := ss
    have hno' : ∀ n, (TokKind.cb, n) ∉ stsKeys rest := by
      intro n hn
      apply hno n
      rw [stsKeys_cons]
      cases stat <;> simp [hn]
    cases s <;> cases stat <;>
      first
      | exact ih c hno'
      | (rename_i k2 n2
         have hk2 : k2 ≠ TokKind.cb := by
           intro he
           apply hno n2
           rw [stsKeys_cons, he]
           simp
         obtain ⟨ih1, ih2, ih3⟩ := ih c hno'
         refine ⟨?_, ih2, ih3⟩
         simp only [flipCB]
         rw [codeEntriesOf_cons]
         dsimp only
         rw [if_neg hk2, ih1])
      | (rename_i b
         obtain ⟨ih1, ih2, ih3⟩ := ih (c + 1) hno'
         refine ⟨?_, ?_, ?_⟩
         · show codeEntriesOf TokKind.cb
             ((Seg.fenced b, SStat.keyed TokKind.cb c) ::
               (flipCB rest (c + 1)).1) =
             (mkKey TokKind.cb c, renderSeg (Seg.fenced b)) ::
               (flipCB rest (c + 1)).2.2
           rw [codeEntriesOf_cons]
           dsimp only
           rw [if_pos rfl, ih1]
         · show ((mkKey TokKind.cb c, renderSeg (Seg.fenced b)) ::
             (flipCB rest (c + 1)).2.2).map Prod.fst |>.Nodup
           simp only [List.map_cons]
           rw [List.nodup_cons]
           refine ⟨?_, ih2⟩
           intro hm
           obtain ⟨n, hn, hcn⟩ := ih3 _ hm
           obtain ⟨_, he⟩ := mkKey_inj hn
           omega
         · show ∀ key ∈ ((mkKey TokKind.cb c, renderSeg (Seg.fenced b)) ::
             (flipCB rest (c + 1)).2.2).map Prod.fst,
             ∃ n, key = mkKey TokKind.cb n ∧ c ≤ n
           simp only [List.map_cons]
           intro key hk
           rcases List.mem_cons.mp hk with he | hm
           · exact ⟨c, he, le_refl c⟩
           · obtain ⟨n, hn, hcn⟩ := ih3 key hm
             exact ⟨n, hn, by omega⟩)

/-- Stage 2 records exactly the `codeMap` entries of its keyed statuses. -/
theorem flipCI_all : ∀ (sts : List SegSt) (c : Nat),
    (∀ n, (TokKind.ci, n) ∉ stsKeys sts) →
    codeEntriesOf TokKind.ci (flipCI sts c).1 = (flipCI sts c).2.2 ∧
    (((flipCI sts c).2.2).map Prod.fst).Nodup ∧
    (∀ key ∈ ((flipCI sts c).2.2).map Prod.fst,
      ∃ n, key = mkKey TokKind.ci n ∧ c ≤ n) := by
  intro sts
  induction sts with
  | nil =>
    intro c _
    exact ⟨rfl, List.nodup_nil, by simp [flipCI]⟩
  | cons ss rest ih =>
    intro c hno
    obtain ⟨s, stat⟩ := ss
    have hno' : ∀ n, (TokKind.ci, n) ∉ stsKeys rest := by
      intro n hn
      apply hno n
      rw [stsKeys_cons]
      cases stat <;> simp [hn]
    cases s <;> cases stat <;>
      first
      | exact ih c hno'
      | (rename_i k2 n2
         have hk2 : k2 ≠ TokKind.ci := by
           intro he
           apply hno n2
           rw [stsKeys_cons, he]
           simp
         obtain ⟨ih1, ih2, ih3⟩ := ih c hno'
         refine ⟨?_, ih2, ih3⟩
         simp only [flipCI]
         rw [codeEntriesOf_cons]
         dsimp only
         rw [if_neg hk2, ih1])
      | (rename_i b
         obtain ⟨ih1, ih2, ih3⟩ := ih (c + 1) hno'
         refine ⟨?_, ?_, ?_⟩
         · show codeEntriesOf TokKind.ci
             ((Seg.icode b, SStat.keyed TokKind.ci c) ::
               (flipCI rest (c + 1)).1) =
             (mkKey TokKind.ci c, renderSeg (Seg.icode b)) ::
               (flipCI rest (c + 1)).2.2
           rw [codeEntriesOf_cons]
           dsimp only
           rw [if_pos rfl, ih1]
         · show ((mkKey TokKind.ci c, renderSeg (Seg.icode b)) ::
             (flipCI rest (c + 1)).2.2).map Prod.fst |>.Nodup
           simp only [List.map_cons]
           rw [List.nodup_cons]
           refine ⟨?_, ih2⟩
           intro hm
           obtain ⟨n, hn, hcn⟩ := ih3 _ hm
           obtain ⟨_, he⟩ := mkKey_inj hn
           omega
         · show ∀ key ∈ ((mkKey TokKind.ci c, renderSeg (Seg.icode b)) ::
             (flipCI rest (c + 1)).2.2).map Prod.fst,
             ∃ n, key = mkKey TokKind.ci n ∧ c ≤ n
           simp only [List.map_cons]
           intro key hk
           rcases List.mem_cons.mp hk with he | hm
           · exact ⟨c, he, le_refl c⟩
           · obtain ⟨n, hn, hcn⟩ := ih3 key hm
             exact ⟨n, hn, by omega⟩)

/-- Stage 4 records exactly the `mathMap` entries of its keyed statuses. -/
theorem flipMB_all : ∀ (sts : List SegSt) (c : Nat),
    (∀ n, (TokKind.mb, n) ∉ stsKeys sts) →
    mathEntriesOf TokKind.mb true (flipMB sts c).1 = (flipMB sts c).2.2 ∧
    (((flipMB sts c).2.2).map Prod.fst).Nodup ∧
    (∀ key ∈ ((flipMB sts c).2.2).map Prod.fst,
      ∃ n, key = mkKey TokKind.mb n ∧ c ≤ n) := by
  intro sts
  induction sts with
  | nil =>
    intro c _
    exact ⟨rfl, List.nodup_nil, by simp [flipMB]⟩
  | cons ss rest ih =>
    intro c hno
    obtain ⟨s, stat⟩ := ss
    have hno' : ∀ n, (TokKind.mb, n) ∉ stsKeys rest := by
      intro n hn
      apply hno n
      rw [stsKeys_cons]
      cases stat <;> simp [hn]
    cases s <;> cases stat <;>
      first
      | exact ih c hno'
      | (rename_i k2 n2
         have hk2 : k2 ≠ TokKind.mb := by
           intro he
           apply hno n2
           rw [stsKeys_cons, he]
           simp
         obtain ⟨ih1, ih2, ih3⟩ := ih c hno'
         refine ⟨?_, ih2, ih3⟩
         simp only [flipMB]
         rw [mathEntriesOf_cons]
         dsimp only
         rw [if_neg hk2, ih1])
      | (rename_i t
         obtain ⟨ih1, ih2, ih3⟩ := ih (c + 1) hno'
         refine ⟨?_, ?_, ?_⟩
         · show mathEntriesOf TokKind.mb true
             ((Seg.mblock t, SStat.keyed TokKind.mb c) ::
               (flipMB rest (c + 1)).1) =
             (mkKey TokKind.mb c, t, true) :: (flipMB rest (c + 1)).2.2
           rw [mathEntriesOf_cons]
           dsimp only
           rw [if_pos rfl, ih1]
           rfl
         · show ((mkKey TokKind.mb c, t, true) ::
             (flipMB rest (c + 1)).2.2).map Prod.fst |>.Nodup
           simp only [List.map_cons]
           rw [List.nodup_cons]
           refine ⟨?_, ih2⟩
           intro hm
           obtain ⟨n, hn, hcn⟩ := ih3 _ hm
           obtain ⟨_, he⟩ := mkKey_inj hn
           omega
         · show ∀ key ∈ ((mkKey TokKind.mb c, t, true) ::
             (flipMB rest (c + 1)).2.2).map Prod.fst,
             ∃ n, key = mkKey TokKind.mb n ∧ c ≤ n
           simp only [List.map_cons]
           intro key hk
           rcases List.mem_cons.mp hk with he | hm
           · exact ⟨c, he, le_refl c⟩
           · obtain ⟨n, hn, hcn⟩ := ih3 key hm
             exact ⟨n, hn, by omega⟩)

/-- Stage 5 records exactly the `mathMap` entries of its keyed statuses. -/
theorem flipMI_all : ∀ (sts : List SegSt) (c : Nat),
    (∀ n, (TokKind.mi, n) ∉ stsKeys sts) →
    mathEntriesOf TokKind.mi false (flipMI sts c).1 = (flipMI sts c).2.2 ∧
    (((flipMI sts c).2.2).map Prod.fst).Nodup ∧
    (∀ key ∈ ((flipMI sts c).2.2).map Prod.fst,
      ∃ n, key = mkKey TokKind.mi n ∧ c ≤ n) := by
  intro sts
  induction sts with
  | nil =>
    intro c _
    exact ⟨rfl, List.nodup_nil, by simp [flipMI]⟩
  | cons ss rest ih =>
    intro c hno
    obtain ⟨s, stat⟩ := ss
    have hno' : ∀ n, (TokKind.mi, n) ∉ stsKeys rest := by
      intro n hn
      apply hno n
      rw [stsKeys_cons]
      cases stat <;> simp [hn]
    cases s <;> cases stat <;>
      first
      | exact ih c hno'
      | (rename_i k2 n2
         have hk2 : k2 ≠ TokKind.mi := by
           intro he
           apply hno n2
           rw [stsKeys_cons, he]
           simp
         obtain ⟨ih1, ih2, ih3⟩ := ih c hno'
         refine ⟨?_, ih2, ih3⟩
         simp only [flipMI]
         rw [mathEntriesOf_cons]
         dsimp only
         rw [if_neg hk2, ih1])
      | (rename_i t
         obtain ⟨ih1, ih2, ih3⟩ := ih (c + 1) hno'
         refine ⟨?_, ?_, ?_⟩
         · show mathEntriesOf TokKind.mi false
             ((Seg.minline t, SStat.keyed TokKind.mi c) ::
               (flipMI rest (c + 1)).1) =
             (mkKey TokKind.mi c, t, false) :: (flipMI rest (c + 1)).2.2
           rw [mathEntriesOf_cons]
           dsimp only
           rw [if_pos rfl, ih1]
           rfl
         · show ((mkKey TokKind.mi c, t, false) ::
             (flipMI rest (c + 1)).2.2).map Prod.fst |>.Nodup
           simp only [List.map_cons]
           rw [List.nodup_cons]
           refine ⟨?_, ih2⟩
           intro hm
           obtain ⟨n, hn, hcn⟩ := ih3 _ hm
           obtain ⟨_, he⟩ := mkKey_inj hn
           omega
         · show ∀ key ∈ ((mkKey TokKind.mi c, t, false) ::
             (flipMI rest (c + 1)).2.2).map Prod.fst,
             ∃ n, key = mkKey TokKind.mi n ∧ c ≤ n
           simp only [List.map_cons]
           intro key hk
           rcases List.mem_cons.mp hk with he | hm
           · exact ⟨c, he, le_refl c⟩
           · obtain ⟨n, hn, hcn⟩ := ih3 key hm
             exact ⟨n, hn, by omega⟩)

theorem flipCI_codeE : ∀ (sts : List SegSt) (c : Nat) (k0 : TokKind),
    k0 ≠ TokKind.ci →
    codeEntriesOf k0 (flipCI sts c).1 = codeEntriesOf k0 sts := by
  intro sts
  induction sts with
  | nil => intro c k0 _; rfl
  | cons ss rest ih =>
    intro c k0 hk
    obtain ⟨s, stat⟩ := ss
    cases s <;> cases stat <;>
      first
      | exact ih c k0 hk
      | (rename_i k2 n2
         simp only [flipCI]
         rw [codeEntriesOf_cons, codeEntriesOf_cons]
         dsimp only
         rw [ih c k0 hk])
      | (rename_i b
         simp only [flipCI]
         rw [codeEntriesOf_cons]
         dsimp only
         rw [if_neg (fun he => hk he.symm), ih (c + 1) k0 hk]
         rfl)

theorem flipMB_codeE : ∀ (sts : List SegSt) (c : Nat) (k0 : TokKind),
    k0 ≠ TokKind.mb →
    codeEntriesOf k0 (flipMB sts c).1 = codeEntriesOf k0 sts := by
  intro sts
  induction sts with
  | nil => intro c k0 _; rfl
  | cons ss rest ih =>
    intro c k0 hk
    obtain ⟨s, stat⟩ := ss
    cases s <;> cases stat <;>
      first
      | exact ih c k0 hk
      | (rename_i k2 n2
         simp only [flipMB]
         rw [codeEntriesOf_cons, codeEntriesOf_cons]
         dsimp only
         rw [ih c k0 hk])
      | (rename_i t
         simp only [flipMB]
         rw [codeEntriesOf_cons]
         dsimp only
         rw [if_neg (fun he => hk he.symm), ih (c + 1) k0 hk]
         rfl)

theorem flipMI_codeE : ∀ (sts : List SegSt) (c : Nat) (k0 : TokKind),
    k0 ≠ TokKind.mi →
    codeEntriesOf k0 (flipMI sts c).1 = codeEntriesOf k0 sts := by
  intro sts
  induction sts with
  | nil => intro c k0 _; rfl
  | cons ss rest ih =>
    intro c k0 hk
    obtain ⟨s, stat⟩ := ss
    cases s <;> cases stat <;>
      first
      | exact ih c k0 hk
      | (rename_i k2 n2
         simp only [flipMI]
         rw [codeEntriesOf_cons, codeEntriesOf_cons]
         dsimp only
         rw [ih c k0 hk])
      | (rename_i t
         simp only [flipMI]
         rw [codeEntriesOf_cons]
         dsimp only
         rw [if_neg (fun he => hk he.symm), ih (c + 1) k0 hk]
         rfl)

theorem flipMI_mathE : ∀ (sts : List SegSt) (c : Nat) (k0 : TokKind)
    (d : Bool), k0 ≠ TokKind.mi →
    mathEntriesOf k0 d (flipMI sts c).1 = mathEntriesOf k0 d sts := by
  intro sts
  induction sts with
  | nil => intro c k0 d _; rfl
  | cons ss rest ih =>
    intro c k0 d hk
    obtain ⟨s, stat⟩ := ss
    cases s <;> cases stat <;>
      first
      | exact ih c k0 d hk
      | (rename_i k2 n2
         simp only [flipMI]
         rw [mathEntriesOf_cons, mathEntriesOf_cons]
         dsimp only
         rw [ih c k0 d hk])
      | (rename_i t
         simp only [flipMI]
         rw [mathEntriesOf_cons]
         dsimp only
         rw [if_neg (fun he => hk he.symm), ih (c + 1) k0 d hk]
         rfl)

theorem unkeyK_cons (k0 : TokKind) (ss : SegSt) (rest : List SegSt) :
    unkeyK k0 (ss :: rest) =
      (match ss.2 with
        | SStat.keyed k _ => if k = k0 then (ss.1, SStat.raw) else ss
        | _ => ss) :: unkeyK k0 rest := rfl

theorem substK_cons (k0 : TokKind) (dflag : Bool)
    (kat : Str → Bool → Except Unit Str) (ss : SegSt)
    (rest : List SegSt) :
    substK k0 dflag kat (ss :: rest) =
      (match ss.2 with
        | SStat.keyed k _ =>
          if k = k0 then
            (ss.1, SStat.subst (substOutcome kat (texOf ss.1) dflag))
          else ss
        | _ => ss) :: substK k0 dflag kat rest := rfl

theorem unkeyK_codeE : ∀ (sts : List SegSt) (k0 k1 : TokKind),
    k0 ≠ k1 → codeEntriesOf k0 (unkeyK k1 sts) = codeEntriesOf k0 sts := by
  intro sts
  induction sts with
  | nil => intro k0 k1 _; rfl
  | cons ss rest ih =>
    intro k0 k1 hk
    obtain ⟨s, stat⟩ := ss
    cases stat with
    | raw =>
      rw [unkeyK_cons]
      dsimp only
      rw [codeEntriesOf_cons, codeEntriesOf_cons]
      dsimp only
      rw [ih k0 k1 hk]
    | subst r =>
      rw [unkeyK_cons]
      dsimp only
      rw [codeEntriesOf_cons, codeEntriesOf_cons]
      dsimp only
      rw [ih k0 k1 hk]
    | keyed k2 n2 =>
      rw [unkeyK_cons]
      dsimp only
      by_cases hk2 : k2 = k1
      · rw [if_pos hk2]
        rw [codeEntriesOf_cons, codeEntriesOf_cons]
        dsimp only
        rw [if_neg (fun (he : k2 = k0) => hk (he ▸ hk2))]
        exact ih k0 k1 hk
      · rw [if_neg hk2]
        rw [codeEntriesOf_cons, codeEntriesOf_cons]
        dsimp only
        rw [ih k0 k1 hk]

theorem unkeyK_mathE : ∀ (sts : List SegSt) (k0 k1 : TokKind) (d : Bool),
    k0 ≠ k1 →
    mathEntriesOf k0 d (unkeyK k1 sts) = mathEntriesOf k0 d sts := by
  intro sts
  induction sts with
  | nil => intro k0 k1 d _; rfl
  | cons ss rest ih =>
    intro k0 k1 d hk
    obtain ⟨s, stat⟩ := ss
    cases stat with
    | raw =>
      rw [unkeyK_cons]
      dsimp only
      rw [mathEntriesOf_cons, mathEntriesOf_cons]
      dsimp only
      rw [ih k0 k1 d hk]
    | subst r =>
      rw [unkeyK_cons]
      dsimp only
      rw [mathEntriesOf_cons, mathEntriesOf_cons]
      dsimp only
      rw [ih k0 k1 d hk]
    | keyed k2 n2 =>
      rw [unkeyK_cons]
      dsimp only
      by_cases hk2 : k2 = k1
      · rw [if_pos hk2]
        rw [mathEntriesOf_cons, mathEntriesOf_cons]
        dsimp only
        rw [if_neg (fun (he : k2 = k0) => hk (he ▸ hk2))]
        exact ih k0 k1 d hk
      · rw [if_neg hk2]
        rw [mathEntriesOf_cons, mathEntriesOf_cons]
        dsimp only
        rw [ih k0 k1 d hk]

theorem substK_mathE : ∀ (sts : List SegSt) (k0 k1 : TokKind)
    (d d1 : Bool) (kat : Str → Bool → Except Unit Str), k0 ≠ k1 →
    mathEntriesOf k0 d (substK k1 d1 kat sts) = mathEntriesOf k0 d sts
    := by
  intro sts
  induction sts with
  | nil => intro k0 k1 d d1 kat _; rfl
  | cons ss rest ih =>
    intro k0 k1 d d1 kat hk
    obtain ⟨s, stat⟩ := ss
    cases stat with
    | raw =>
      rw [substK_cons]
      dsimp only
      rw [mathEntriesOf_cons, mathEntriesOf_cons]
      dsimp only
      rw [ih k0 k1 d d1 kat hk]
    | subst r =>
      rw [substK_cons]
      dsimp only
      rw [mathEntriesOf_cons, mathEntriesOf_cons]
      dsimp only
      rw [ih k0 k1 d d1 kat hk]
    | keyed k2 n2 =>
      rw [substK_cons]
      dsimp only
      by_cases hk2 : k2 = k1
      · rw [if_pos hk2]
        rw [mathEntriesOf_cons, mathEntriesOf_cons]
        dsimp only
        rw [if_neg (fun (he : k2 = k0) => hk (he ▸ hk2))]
        exact ih k0 k1 d d1 kat hk
      · rw [if_neg hk2]
        rw [mathEntriesOf_cons, mathEntriesOf_cons]
        dsimp only
        rw [ih k0 k1 d d1 kat hk]

theorem subSealed_of_phaseE {sts : List SegSt}
    (h : ∀ ss ∈ sts, phaseE ss) : SubSealed sts := by
  intro r hr
  obtain ⟨ss, hss, he⟩ := List.mem_map.mp hr
  obtain ⟨s, stat⟩ := ss
  exfalso
  have hp := h (s, stat) hss
  have he2 : stat = SStat.subst r := he
  cases s with
  | plain p =>
    have h1 : stat = SStat.raw := hp
    rw [h1] at he2
    exact SStat.noConfusion he2
  | fenced b =>
    obtain ⟨m, hm⟩ := hp
    have h1 : stat = SStat.keyed TokKind.cb m := hm
    rw [h1] at he2
    exact SStat.noConfusion he2
  | icode b =>
    obtain ⟨m, hm⟩ := hp
    have h1 : stat = SStat.keyed TokKind.ci m := hm
    rw [h1] at he2
    exact SStat.noConfusion he2
  | mblock t =>
    obtain ⟨m, hm⟩ := hp
    have h1 : stat = SStat.keyed TokKind.mb m := hm
    rw [h1] at he2
    exact SStat.noConfusion he2
  | minline t =>
    obtain ⟨m, hm⟩ := hp
    have h1 : stat = SStat.keyed TokKind.mi m := hm
    rw [h1] at he2
    exact SStat.noConfusion he2

theorem kindOK_of_phaseE {sts : List SegSt}
    (h : ∀ ss ∈ sts, phaseE ss) : KindOK sts := by
  intro ss hss k n he
  obtain ⟨s, stat⟩ := ss
  have hp := h (s, stat) hss
  have he2 : stat = SStat.keyed k n := he
  cases s with
  | plain p =>
    have h1 : stat = SStat.raw := hp
    rw [h1] at he2
    exact SStat.noConfusion he2
  | fenced b =>
    obtain ⟨m, hm⟩ := hp
    have h1 : stat = SStat.keyed TokKind.cb m := hm
    rw [h1] at he2
    simp only [SStat.keyed.injEq] at he2
    rw [← he2.1]
    rfl
  | icode b =>
    obtain ⟨m, hm⟩ := hp
    have h1 : stat = SStat.keyed TokKind.ci m := hm
    rw [h1] at he2
    simp only [SStat.keyed.injEq] at he2
    rw [← he2.1]
    rfl
  | mblock t =>
    obtain ⟨m, hm⟩ := hp
    have h1 : stat = SStat.keyed TokKind.mb m := hm
    rw [h1] at he2
    simp only [SStat.keyed.injEq] at he2
    rw [← he2.1]
    rfl
  | minline t =>
    obtain ⟨m, hm⟩ := hp
    have h1 : stat = SStat.keyed TokKind.mi m := hm
    rw [h1] at he2
    simp only [SStat.keyed.injEq] at he2
    rw [← he2.1]
    rfl

theorem subSealed_unkeyK {k0 : TokKind} {sts : List SegSt}
    (h : SubSealed sts) : SubSealed (unkeyK k0 sts) := by
  intro r hr
  rw [unkeyK, List.map_map] at hr
  obtain ⟨ss, hss, he⟩ := List.mem_map.mp hr
  obtain ⟨s, stat⟩ := ss
  cases stat with
  | raw => exact absurd he (by simp)
  | subst r2 =>
    have he2 : SStat.subst r2 = SStat.subst r := he
    simp only [SStat.subst.injEq] at he2
    rw [← he2]
    exact h r2 (List.mem_map_of_mem Prod.snd hss)
  | keyed k2 n2 =>
    exfalso
    by_cases hk2 : k2 = k0 <;> simp [hk2] at he

theorem subSealed_substK {k0 : TokKind} {dflag : Bool}
    {kat : Str → Bool → Except Unit Str} {sts : List SegSt}
    (h : SubSealed sts)
    (hkat : ∀ t d, sealedOutB (substOutcome kat t d) = true) :
    SubSealed (substK k0 dflag kat sts) := by
  intro r hr
  rw [substK, List.map_map] at hr
  obtain ⟨ss, hss, he⟩ := List.mem_map.mp hr
  obtain ⟨s, stat⟩ := ss
  cases stat with
  | raw => exact absurd he (by simp)
  | subst r2 =>
    have he2 : SStat.subst r2 = SStat.subst r := he
    simp only [SStat.subst.injEq] at he2
    rw [← he2]
    exact h r2 (List.mem_map_of_mem Prod.snd hss)
  | keyed k2 n2 =>
    by_cases hk2 : k2 = k0
    · have he2 : SStat.subst (substOutcome kat (texOf s) dflag) =
          SStat.subst r := by
        simpa [hk2] using he
      simp only [SStat.subst.injEq] at he2
      rw [← he2]
      exact hkat (texOf s) dflag
    · exfalso
      simp [hk2] at he

theorem kindOK_unkeyK {k0 : TokKind} {sts : List SegSt}
    (h : KindOK sts) : KindOK (unkeyK k0 sts) := by
  intro ss' hss' k n he
  rw [unkeyK] at hss'
  obtain ⟨ss, hss, hfe⟩ := List.mem_map.mp hss'
  obtain ⟨s, stat⟩ := ss
  cases stat with
  | raw =>
    rw [← hfe] at he
    exact absurd (he : SStat.raw = SStat.keyed k n) (by simp)
  | subst r2 =>
    rw [← hfe] at he
    exact absurd (he : SStat.subst r2 = SStat.keyed k n) (by simp)
  | keyed k2 n2 =>
    by_cases hk2 : k2 = k0
    · rw [← hfe] at he
      simp [hk2] at he
    · rw [← hfe] at he ⊢
      have he2 : SStat.keyed k2 n2 = SStat.keyed k n := by
        simpa [hk2] using he
      simp only [SStat.keyed.injEq] at he2
      have hgoal : kindSegB k s = true := by
        rw [← he2.1]
        exact h (s, SStat.keyed k2 n2) hss k2 n2 rfl
      simpa [hk2] using hgoal

theorem kindOK_substK {k0 : TokKind} {dflag : Bool}
    {kat : Str → Bool → Except Unit Str} {sts : List SegSt}
    (h : KindOK sts) : KindOK (substK k0 dflag kat sts) := by
  intro ss' hss' k n he
  rw [substK] at hss'
  obtain ⟨ss, hss, hfe⟩ := List.mem_map.mp hss'
  obtain ⟨s, stat⟩ := ss
  cases stat with
  | raw =>
    rw [← hfe] at he
    exact absurd (he : SStat.raw = SStat.keyed k n) (by simp)
  | subst r2 =>
    rw [← hfe] at he
    exact absurd (he : SStat.subst r2 = SStat.keyed k n) (by simp)
  | keyed k2 n2 =>
    by_cases hk2 : k2 = k0
    · rw [← hfe] at he
      simp [hk2] at he
    · rw [← hfe] at he ⊢
      have he2 : SStat.keyed k2 n2 = SStat.keyed k n := by
        simpa [hk2] using he
      simp only [SStat.keyed.injEq] at he2
      have hgoal : kindSegB k s = true := by
        rw [← he2.1]
        exact h (s, SStat.keyed k2 n2) hss k2 n2 rfl
      simpa [hk2] using hgoal

theorem unkeyK_segs : ∀ (k0 : TokKind) (sts : List SegSt),
    (unkeyK k0 sts).map Prod.fst = sts.map Prod.fst := by
  intro k0 sts
  induction sts with
  | nil => rfl
  | cons ss rest ih =>
    obtain ⟨s, stat⟩ := ss
    rw [unkeyK_cons, List.map_cons, List.map_cons, ih]
    cases stat with
    | raw => rfl
    | subst r => rfl
    | keyed k2 n2 =>
      by_cases hk2 : k2 = k0
      · simp [hk2]
      · simp [hk2]

theorem substK_segs : ∀ (k0 : TokKind) (dflag : Bool)
    (kat : Str → Bool → Except Unit Str) (sts : List SegSt),
    (substK k0 dflag kat sts).map Prod.fst = sts.map Prod.fst := by
  intro k0 dflag kat sts
  induction sts with
  | nil => rfl
  | cons ss rest ih =>
    obtain ⟨s, stat⟩ := ss
    rw [substK_cons, List.map_cons, List.map_cons, ih]
    cases stat with
    | raw => rfl
    | subst r => rfl
    | keyed k2 n2 =>
      by_cases hk2 : k2 = k0
      · simp [hk2]
      · simp [hk2]

theorem sts0_segs : ∀ (segs : List Seg),
    (sts0 segs).map Prod.fst = segs := by
  intro segs
  induction segs with
  | nil => rfl
  | cons s rest ih =>
    rw [show sts0 (s :: rest) = (s, SStat.raw) :: sts0 rest from rfl,
      List.map_cons, ih]

theorem renderSts_sts0 : ∀ (segs : List Seg),
    renderSts (sts0 segs) = renderDoc segs := by
  intro segs
  induction segs with
  | nil => rfl
  | cons s rest ih =>
    rw [show sts0 (s :: rest) = (s, SStat.raw) :: sts0 rest from rfl,
      renderSts_cons, ih]
    rfl

theorem stsKeys_sts0 : ∀ (segs : List Seg), stsKeys (sts0 segs) = [] := by
  intro segs
  induction segs with
  | nil => rfl
  | cons s rest ih =>
    rw [show sts0 (s :: rest) = (s, SStat.raw) :: sts0 rest from rfl,
      stsKeys_cons]
    exact ih

theorem phaseA_sts0 (segs : List Seg) : ∀ ss ∈ sts0 segs, phaseA ss := by
  intro ss hss
  obtain ⟨s, hs, he⟩ := List.mem_map.mp hss
  rw [← he]
  rfl

theorem segWF_sts0 {segs : List Seg} (h : docWFB segs = true) :
    ∀ ss ∈ sts0 segs, segWFB ss.1 = true := by
  intro ss hss
  obtain ⟨s, hs, he⟩ := List.mem_map.mp hss
  rw [← he]
  rw [docWFB] at h
  have := List.all_eq_true.mp h s hs
  simpa using this

theorem origText_eq : ∀ (sts : List SegSt),
    origText sts = renderDoc (sts.map Prod.fst) := by
  intro sts
  induction sts with
  | nil => rfl
  | cons ss rest ih =>
    rw [origText_cons, ih]
    rfl

theorem substOutcome_sealed {kat : Str → Bool → Except Unit Str}
    (hkat : ∀ t d, ∃ r, kat t d = Except.ok r ∧ sealedOutB r = true)
    (t : Str) (d : Bool) : sealedOutB (substOutcome kat t d) = true := by
  obtain ⟨r, hr, hs⟩ := hkat t d
  rw [substOutcome, hr]
  exact hs

theorem stsKeys_to_codeE : ∀ (sts : List SegSt) (k0 : TokKind) (n : Nat),
    (k0, n) ∈ stsKeys sts →
    ∃ v, (mkKey k0 n, v) ∈ codeEntriesOf k0 sts := by
  intro sts
  induction sts with
  | nil =>
    intro k0 n h
    simp [stsKeys] at h
  | cons ss rest ih =>
    intro k0 n h
    obtain ⟨s, stat⟩ := ss
    cases stat with
    | raw =>
      obtain ⟨v, hv⟩ := ih k0 n h
      exact ⟨v, hv⟩
    | subst r =>
      obtain ⟨v, hv⟩ := ih k0 n h
      exact ⟨v, hv⟩
    | keyed k2 n2 =>
      replace h : (k0, n) ∈ (k2, n2) :: stsKeys rest := h
      rcases List.mem_cons.mp h with he | hm
      · rw [Prod.mk.injEq] at he
        obtain ⟨he1, he2⟩ := he
        refine ⟨renderSeg s, ?_⟩
        show (mkKey k0 n, renderSeg s) ∈
          codeEntriesOf k0 ((s, SStat.keyed k2 n2) :: rest)
        rw [codeEntriesOf_cons]
        dsimp only
        rw [← he1, ← he2]
        rw [if_pos rfl]
        exact List.mem_cons_self _ _
      · obtain ⟨v, hv⟩ := ih k0 n hm
        refine ⟨v, ?_⟩
        show (mkKey k0 n, v) ∈
          codeEntriesOf k0 ((s, SStat.keyed k2 n2) :: rest)
        rw [codeEntriesOf_cons]
        dsimp only
        by_cases hk2 : k2 = k0
        · rw [if_pos hk2]
          exact List.mem_cons_of_mem _ hv
        · rw [if_neg hk2]
          exact hv

theorem stsKeys_to_mathE : ∀ (sts : List SegSt) (k0 : TokKind)
    (dflag : Bool) (n : Nat),
    (k0, n) ∈ stsKeys sts →
    ∃ td, (mkKey k0 n, td) ∈ mathEntriesOf k0 dflag sts := by
  intro sts
  induction sts with
  | nil =>
    intro k0 dflag n h
    simp [stsKeys] at h
  | cons ss rest ih =>
    intro k0 dflag n h
    obtain ⟨s, stat⟩ := ss
    cases stat with
    | raw =>
      obtain ⟨td, hv⟩ := ih k0 dflag n h
      exact ⟨td, hv⟩
    | subst r =>
      obtain ⟨td, hv⟩ := ih k0 dflag n h
      exact ⟨td, hv⟩
    | keyed k2 n2 =>
      replace h : (k0, n) ∈ (k2, n2) :: stsKeys rest := h
      rcases List.mem_cons.mp h with he | hm
      · rw [Prod.mk.injEq] at he
        obtain ⟨he1, he2⟩ := he
        refine ⟨(texOf s, dflag), ?_⟩
        show (mkKey k0 n, texOf s, dflag) ∈
          mathEntriesOf k0 dflag ((s, SStat.keyed k2 n2) :: rest)
        rw [mathEntriesOf_cons]
        dsimp only
        rw [← he1, ← he2]
        rw [if_pos rfl]
        exact List.mem_cons_self _ _
      · obtain ⟨td, hv⟩ := ih k0 dflag n hm
        refine ⟨td, ?_⟩
        show (mkKey k0 n, td) ∈
          mathEntriesOf k0 dflag ((s, SStat.keyed k2 n2) :: rest)
        rw [mathEntriesOf_cons]
        dsimp only
        by_cases hk2 : k2 = k0
        · rw [if_pos hk2]
          exact List.mem_cons_of_mem _ hv
        · rw [if_neg hk2]
          exact hv

theorem origText_append (l₁ l₂ : List SegSt) :
    origText (l₁ ++ l₂) = origText l₁ ++ origText l₂ := by
  simp [origText]

theorem origText_slot {L R : List SegSt} {seg : Seg} (st1 st2 : SStat) :
    origText (L ++ (seg, st1) :: R) = origText (L ++ (seg, st2) :: R) := by
  rw [origText_append, origText_append, origText_cons, origText_cons]

theorem segWF_slot {L R : List SegSt} {seg : Seg} {st1 st2 : SStat}
    (h : ∀ ss ∈ L ++ (seg, st1) :: R, segWFB ss.1 = true) :
    ∀ ss ∈ L ++ (seg, st2) :: R, segWFB ss.1 = true := by
  intro ss hss
  rcases List.mem_append.mp hss with hl | hr
  · exact h ss (List.mem_append_left _ hl)
  · rcases List.mem_cons.mp hr with he | hm
    · rw [he]
      exact h (seg, st1)
        (List.mem_append_right _ (List.mem_cons_self _ _))
    · exact h ss (List.mem_append_right _ (List.mem_cons_of_mem _ hm))

theorem subSealed_slot {L R : List SegSt} {seg : Seg} {st1 st2 : SStat}
    (h : SubSealed (L ++ (seg, st1) :: R))
    (h2 : ∀ r, st2 ≠ SStat.subst r) :
    SubSealed (L ++ (seg, st2) :: R) := by
  intro r hr
  apply h r
  rw [List.map_append, List.map_cons] at hr ⊢
  rcases List.mem_append.mp hr with hl | hr2
  · exact List.mem_append_left _ hl
  · rcases List.mem_cons.mp hr2 with he | hm
    · exact absurd he.symm (h2 r)
    · exact List.mem_append_right _ (List.mem_cons_of_mem _ hm)

theorem kindOK_slot {L R : List SegSt} {seg : Seg} {st1 st2 : SStat}
    (h : KindOK (L ++ (seg, st1) :: R))
    (h2 : ∀ k n, st2 = SStat.keyed k n → kindSegB k seg = true) :
    KindOK (L ++ (seg, st2) :: R) := by
  intro ss hss k n he
  rcases List.mem_append.mp hss with hl | hr
  · exact h ss (List.mem_append_left _ hl) k n he
  · rcases List.mem_cons.mp hr with hee | hm
    · rw [hee] at he ⊢
      exact h2 k n he
    · exact h ss (List.mem_append_right _ (List.mem_cons_of_mem _ hm))
        k n he

theorem codeEntriesOf_append : ∀ (l₁ l₂ : List SegSt) (k0 : TokKind),
    codeEntriesOf k0 (l₁ ++ l₂) =
      codeEntriesOf k0 l₁ ++ codeEntriesOf k0 l₂ := by
  intro l₁
  induction l₁ with
  | nil => intro l₂ k0; rfl
  | cons ss rest ih =>
    intro l₂ k0
    obtain ⟨s, stat⟩ := ss
    cases stat with
    | raw => exact ih l₂ k0
    | subst r => exact ih l₂ k0
    | keyed k2 n2 =>
      show codeEntriesOf k0 ((s, SStat.keyed k2 n2) :: (rest ++ l₂)) = _
      rw [codeEntriesOf_cons]
      dsimp only
      by_cases hk2 : k2 = k0
      · rw [if_pos hk2, ih l₂ k0]
        show _ = codeEntriesOf k0 ((s, SStat.keyed k2 n2) :: rest) ++ _
        rw [codeEntriesOf_cons]
        dsimp only
        rw [if_pos hk2]
        rfl
      · rw [if_neg hk2, ih l₂ k0]
        show _ = codeEntriesOf k0 ((s, SStat.keyed k2 n2) :: rest) ++ _
        rw [codeEntriesOf_cons]
        dsimp only
        rw [if_neg hk2]

theorem mathEntriesOf_append : ∀ (l₁ l₂ : List SegSt) (k0 : TokKind)
    (dflag : Bool),
    mathEntriesOf k0 dflag (l₁ ++ l₂) =
      mathEntriesOf k0 dflag l₁ ++ mathEntriesOf k0 dflag l₂ := by
  intro l₁
  induction l₁ with
  | nil => intro l₂ k0 dflag; rfl
  | cons ss rest ih =>
    intro l₂ k0 dflag
    obtain ⟨s, stat⟩ := ss
    cases stat with
    | raw => exact ih l₂ k0 dflag
    | subst r => exact ih l₂ k0 dflag
    | keyed k2 n2 =>
      show mathEntriesOf k0 dflag ((s, SStat.keyed k2 n2) :: (rest ++ l₂))
        = _
      rw [mathEntriesOf_cons]
      dsimp only
      by_cases hk2 : k2 = k0
      · rw [if_pos hk2, ih l₂ k0 dflag]
        show _ =
          mathEntriesOf k0 dflag ((s, SStat.keyed k2 n2) :: rest) ++ _
        rw [mathEntriesOf_cons]
        dsimp only
        rw [if_pos hk2]
        rfl
      · rw [if_neg hk2, ih l₂ k0 dflag]
        show _ =
          mathEntriesOf k0 dflag ((s, SStat.keyed k2 n2) :: rest) ++ _
        rw [mathEntriesOf_cons]
        dsimp only
        rw [if_neg hk2]

theorem unkeyK_append (k0 : TokKind) (l₁ l₂ : List SegSt) :
    unkeyK k0 (l₁ ++ l₂) = unkeyK k0 l₁ ++ unkeyK k0 l₂ := by
  simp [unkeyK]

theorem substK_append (k0 : TokKind) (dflag : Bool)
    (kat : Str → Bool → Except Unit Str) (l₁ l₂ : List SegSt) :
    substK k0 dflag kat (l₁ ++ l₂) =
      substK k0 dflag kat l₁ ++ substK k0 dflag kat l₂ := by
  simp [substK]

theorem codeEntriesOf_nil_unkey : ∀ (sts : List SegSt) (k0 : TokKind),
    codeEntriesOf k0 sts = [] → unkeyK k0 sts = sts := by
  intro sts
  induction sts with
  | nil => intro k0 _; rfl
  | cons ss rest ih =>
    intro k0 h
    obtain ⟨s, stat⟩ := ss
    cases stat with
    | raw =>
      rw [unkeyK_cons]
      dsimp only
      rw [ih k0 h]
    | subst r =>
      rw [unkeyK_cons]
      dsimp only
      rw [ih k0 h]
    | keyed k2 n2 =>
      by_cases hk2 : k2 = k0
      · exfalso
        have h2 : (if k2 = k0 then
            (mkKey k2 n2, renderSeg s) :: codeEntriesOf k0 rest
          else codeEntriesOf k0 rest) = [] := by
          rw [codeEntriesOf_cons] at h
          exact h
        rw [if_pos hk2] at h2
        exact List.noConfusion h2
      · have h2 : (if k2 = k0 then
            (mkKey k2 n2, renderSeg s) :: codeEntriesOf k0 rest
          else codeEntriesOf k0 rest) = [] := by
          rw [codeEntriesOf_cons] at h
          exact h
        rw [if_neg hk2] at h2
        rw [unkeyK_cons]
        dsimp only
        rw [if_neg hk2, ih k0 h2]

theorem mathEntriesOf_nil_subst : ∀ (sts : List SegSt) (k0 : TokKind)
    (dflag : Bool) (kat : Str → Bool → Except Unit Str),
    mathEntriesOf k0 dflag sts = [] → substK k0 dflag kat sts = sts := by
  intro sts
  induction sts with
  | nil => intro k0 dflag kat _; rfl
  | cons ss rest ih =>
    intro k0 dflag kat h
    obtain ⟨s, stat⟩ := ss
    cases stat with
    | raw =>
      rw [substK_cons]
      dsimp only
      rw [ih k0 dflag kat h]
    | subst r =>
      rw [substK_cons]
      dsimp only
      rw [ih k0 dflag kat h]
    | keyed k2 n2 =>
      by_cases hk2 : k2 = k0
      · exfalso
        have h2 : (if k2 = k0 then
            (mkKey k2 n2, texOf s, dflag) :: mathEntriesOf k0 dflag rest
          else mathEntriesOf k0 dflag rest) = [] := by
          rw [mathEntriesOf_cons] at h
          exact h
        rw [if_pos hk2] at h2
        exact List.noConfusion h2
      · have h2 : (if k2 = k0 then
            (mkKey k2 n2, texOf s, dflag) :: mathEntriesOf k0 dflag rest
          else mathEntriesOf k0 dflag rest) = [] := by
          rw [mathEntriesOf_cons] at h
          exact h
        rw [if_neg hk2] at h2
        rw [substK_cons]
        dsimp only
        rw [if_neg hk2, ih k0 dflag kat h2]

theorem entries_head_split : ∀ (sts : List SegSt) (k0 : TokKind)
    (key v : Str) (E : List (Str × Str)),
    codeEntriesOf k0 sts = (key, v) :: E →
    ∃ L seg n R, sts = L ++ (seg, SStat.keyed k0 n) :: R ∧
      key = mkKey k0 n ∧ v = renderSeg seg ∧
      codeEntriesOf k0 L = [] ∧ E = codeEntriesOf k0 R := by
  intro sts
  induction sts with
  | nil =>
    intro k0 key v E h
    exact absurd h (by simp [codeEntriesOf])
  | cons ss rest ih =>
    intro k0 key v E h
    obtain ⟨s, stat⟩ := ss
    cases stat with
    | raw =>
      obtain ⟨L, seg, n, R, hsts, hkey, hv, hL, hE⟩ := ih k0 key v E h
      refine ⟨(s, SStat.raw) :: L, seg, n, R, ?_, hkey, hv, hL, hE⟩
      simp [hsts]
    | subst r =>
      obtain ⟨L, seg, n, R, hsts, hkey, hv, hL, hE⟩ := ih k0 key v E h
      refine ⟨(s, SStat.subst r) :: L, seg, n, R, ?_, hkey, hv, hL, hE⟩
      simp [hsts]
    | keyed k2 n2 =>
      by_cases hk2 : k2 = k0
      · subst hk2
        have h2 : (mkKey k2 n2, renderSeg s) :: codeEntriesOf k2 rest =
            (key, v) :: E := by
          have h3 : (if k2 = k2 then
              (mkKey k2 n2, renderSeg s) :: codeEntriesOf k2 rest
            else codeEntriesOf k2 rest) = (key, v) :: E := by
            rw [codeEntriesOf_cons] at h
            exact h
          rwa [if_pos rfl] at h3
        rw [List.cons.injEq, Prod.mk.injEq] at h2
        obtain ⟨⟨hkey, hv⟩, hE⟩ := h2
        exact ⟨[], s, n2, rest, rfl, hkey.symm, hv.symm, rfl, hE.symm⟩
      · have h2 : codeEntriesOf k0 rest = (key, v) :: E := by
          have h3 : (if k2 = k0 then
              (mkKey k2 n2, renderSeg s) :: codeEntriesOf k0 rest
            else codeEntriesOf k0 rest) = (key, v) :: E := by
            rw [codeEntriesOf_cons] at h
            exact h
          rwa [if_neg hk2] at h3
        obtain ⟨L, seg, n, R, hsts, hkey, hv, hL, hE⟩ :=
          ih k0 key v E h2
        refine ⟨(s, SStat.keyed k2 n2) :: L, seg, n, R, ?_, hkey, hv,
          ?_, hE⟩
        · simp [hsts]
        · show codeEntriesOf k0 ((s, SStat.keyed k2 n2) :: L) = []
          rw [codeEntriesOf_cons]
          dsimp only
          rw [if_neg hk2]
          exact hL

theorem mentries_head_split : ∀ (sts : List SegSt) (k0 : TokKind)
    (dflag : Bool) (key t : Str) (d : Bool)
    (E : List (Str × Str × Bool)),
    mathEntriesOf k0 dflag sts = (key, t, d) :: E →
    ∃ L seg n R, sts = L ++ (seg, SStat.keyed k0 n) :: R ∧
      key = mkKey k0 n ∧ t = texOf seg ∧ d = dflag ∧
      mathEntriesOf k0 dflag L = [] ∧ E = mathEntriesOf k0 dflag R := by
  intro sts
  induction sts with
  | nil =>
    intro k0 dflag key t d E h
    exact absurd h (by simp [mathEntriesOf])
  | cons ss rest ih =>
    intro k0 dflag key t d E h
    obtain ⟨s, stat⟩ := ss
    cases stat with
    | raw =>
      obtain ⟨L, seg, n, R, hsts, hkey, ht, hd, hL, hE⟩ :=
        ih k0 dflag key t d E h
      refine ⟨(s, SStat.raw) :: L, seg, n, R, ?_, hkey, ht, hd, hL, hE⟩
      simp [hsts]
    | subst r =>
      obtain ⟨L, seg, n, R, hsts, hkey, ht, hd, hL, hE⟩ :=
        ih k0 dflag key t d E h
      refine ⟨(s, SStat.subst r) :: L, seg, n, R, ?_, hkey, ht, hd, hL,
        hE⟩
      simp [hsts]
    | keyed k2 n2 =>
      by_cases hk2 : k2 = k0
      · subst hk2
        have h2 : (mkKey k2 n2, texOf s, dflag) ::
            mathEntriesOf k2 dflag rest = (key, t, d) :: E := by
          have h3 : (if k2 = k2 then
              (mkKey k2 n2, texOf s, dflag) ::
                mathEntriesOf k2 dflag rest
            else mathEntriesOf k2 dflag rest) = (key, t, d) :: E := by
            rw [mathEntriesOf_cons] at h
            exact h
          rwa [if_pos rfl] at h3
        rw [List.cons.injEq, Prod.mk.injEq, Prod.mk.injEq] at h2
        obtain ⟨⟨hkey, ht, hd⟩, hE⟩ := h2
        exact ⟨[], s, n2, rest, rfl, hkey.symm, ht.symm, hd.symm, rfl,
          hE.symm⟩
      · have h2 : mathEntriesOf k0 dflag rest = (key, t, d) :: E := by
          have h3 : (if k2 = k0 then
              (mkKey k2 n2, texOf s, dflag) ::
                mathEntriesOf k0 dflag rest
            else mathEntriesOf k0 dflag rest) = (key, t, d) :: E := by
            rw [mathEntriesOf_cons] at h
            exact h
          rwa [if_neg hk2] at h3
        obtain ⟨L, seg, n, R, hsts, hkey, ht, hd, hL, hE⟩ :=
          ih k0 dflag key t d E h2
        refine ⟨(s, SStat.keyed k2 n2) :: L, seg, n, R, ?_, hkey, ht, hd,
          ?_, hE⟩
        · simp [hsts]
        · show mathEntriesOf k0 dflag ((s, SStat.keyed k2 n2) :: L) = []
          rw [mathEntriesOf_cons]
          dsimp only
          rw [if_neg hk2]
          exact hL

theorem fenced_no_dollar {b : Str} (h : segWFB (Seg.fenced b) = true) :
    '$' ∉ renderSeg (Seg.fenced b) := by
  intro hm
  have h2 : b.all (fun c => !(c = btk || c = '$')) = true := h
  have hall := List.all_eq_true.mp h2
  have hb : '$' ∉ b := by
    intro hbm
    have := hall '$' hbm
    simp at this
  have hfm : '$' ∉ fenceMarker := by decide
  have hnl : ¬ ('$' = '\n') := by decide
  simp only [renderSeg, List.mem_cons, List.mem_append] at hm
  tauto

theorem icode_no_dollar {b : Str} (h : segWFB (Seg.icode b) = true) :
    '$' ∉ renderSeg (Seg.icode b) := by
  intro hm
  have h2 : (!b.isEmpty &&
      b.all (fun c => !(c = btk || c = '$') && dotChar c)) = true := h
  rw [Bool.and_eq_true] at h2
  have hall := List.all_eq_true.mp h2.2
  have hb : '$' ∉ b := by
    intro hbm
    have := hall '$' hbm
    simp at this
  have hbtk : ¬ ('$' = btk) := by decide
  simp only [renderSeg, List.mem_cons, List.mem_append] at hm
  tauto

theorem code_slot_facts {k0 : TokKind}
    (hk0 : k0 = TokKind.cb ∨ k0 = TokKind.ci) {seg : Seg}
    (hkind : kindSegB k0 seg = true) (hwf : segWFB seg = true) :
    isMB seg = false ∧ '$' ∉ renderSeg seg := by
  rcases hk0 with h | h
  · subst h
    cases seg with
    | fenced b => exact ⟨rfl, fenced_no_dollar hwf⟩
    | plain p => exact absurd hkind (by simp [kindSegB])
    | icode b => exact absurd hkind (by simp [kindSegB])
    | mblock t => exact absurd hkind (by simp [kindSegB])
    | minline t => exact absurd hkind (by simp [kindSegB])
  · subst h
    cases seg with
    | icode b => exact ⟨rfl, icode_no_dollar hwf⟩
    | plain p => exact absurd hkind (by simp [kindSegB])
    | fenced b => exact absurd hkind (by simp [kindSegB])
    | mblock t => exact absurd hkind (by simp [kindSegB])
    | minline t => exact absurd hkind (by simp [kindSegB])

/-- The code-restore pass: folding `replace`-first over the code entries
of one token kind restores every such span to its source text. -/
theorem code_restore_fold : ∀ (k0 : TokKind),
    (k0 = TokKind.cb ∨ k0 = TokKind.ci) →
    ∀ (E : List (Str × Str)), ∀ (sts : List SegSt),
    codeEntriesOf k0 sts = E →
    (∀ ss ∈ sts, segWFB ss.1 = true) →
    wordFreeB (origText sts) = true →
    SubSealed sts → KindOK sts →
    (E.map Prod.fst).Nodup →
    restoreCodeKeys E (renderSts sts) = renderSts (unkeyK k0 sts) := by
  intro k0 hk0 E
  induction E with
  | nil =>
    intro sts hE _ _ _ _ _
    rw [show restoreCodeKeys [] (renderSts sts) = renderSts sts from rfl]
    rw [codeEntriesOf_nil_unkey sts k0 hE]
  | cons kv E' ih =>
    intro sts hE hwf hfree hseal hkind hnd
    obtain ⟨key, v⟩ := kv
    obtain ⟨L, seg, n, R, hsts, hkey, hv, hL, hE'⟩ :=
      entries_head_split sts k0 key v E' hE
    have hmem : (seg, SStat.keyed k0 n) ∈ sts := by
      rw [hsts]
      exact List.mem_append_right _ (List.mem_cons_self _ _)
    have hkindseg : kindSegB k0 seg = true := hkind _ hmem k0 n rfl
    have hsegwf : segWFB seg = true := hwf _ hmem
    obtain ⟨hmb, hdollar⟩ := code_slot_facts hk0 hkindseg hsegwf
    obtain ⟨pre, post, hchunks, hpre, hpost, hkpre, hkpost⟩ :=
      chunksOf_split_gen L seg k0 n R []
    have hpre2 : renderChunks pre = renderSts L := by
      rw [hpre, hmb]
      simp
    have hpost2 : renderChunks post = renderSts R := by
      rw [hpost, hmb]
      simp
    have hwfch : chunksWF (pre ++ RChunk.key k0 n :: post) := by
      have h1 := chunksWF_of hfree hseal
      rw [hsts] at h1
      rwa [hchunks] at h1
    have hnp : RChunk.key k0 n ∉ pre := by
      intro hkp
      have h1 := hkpre k0 n hkp
      rw [← mem_stsKeys] at h1
      obtain ⟨v2, hv2⟩ := stsKeys_to_codeE L k0 n h1
      rw [hL] at hv2
      exact absurd hv2 (List.not_mem_nil _)
    have hns : RChunk.key k0 n ∉ post := by
      intro hkp
      have h1 := hkpost k0 n hkp
      rw [← mem_stsKeys] at h1
      obtain ⟨v2, hv2⟩ := stsKeys_to_codeE R k0 n h1
      rw [← hE'] at hv2
      have hmem2 : mkKey k0 n ∈ E'.map Prod.fst := by
        have := List.mem_map_of_mem Prod.fst hv2
        simpa using this
      have hnotin : key ∉ E'.map Prod.fst := by
        simp only [List.map_cons] at hnd
        exact (List.nodup_cons.mp hnd).1
      rw [hkey] at hnotin
      exact hnotin hmem2
    have hocc := key_occ_unique pre post k0 n hwfch hnp hns
    have hocc1 : ∀ i, i < (renderSts L).length →
        (mkKey k0 n).isPrefixOf
          ((renderSts L ++ mkKey k0 n ++ renderSts R).drop i)
          = false := by
      intro i hi
      have h2 := hocc.1 i (by rw [hpre2]; exact hi)
      rw [renderChunks_append, renderChunks_cons] at h2
      rw [show renderChunk (RChunk.key k0 n) = mkKey k0 n from rfl] at h2
      rw [hpre2, hpost2] at h2
      rw [← List.append_assoc] at h2
      exact h2
    have hstep : replaceFirstJS (renderSts sts) (mkKey k0 n)
        (renderSeg seg) = renderSts (L ++ (seg, SStat.raw) :: R) := by
      have hs_render : renderSts sts =
          (renderSts L ++ mkKey k0 n) ++ renderSts R := by
        have h1 : renderChunks (chunksOf sts []) = renderSts sts := by
          rw [renderChunks_chunksOf]
          rfl
        rw [← h1, hsts, hchunks, renderChunks_append, renderChunks_cons]
        rw [show renderChunk (RChunk.key k0 n) = mkKey k0 n from rfl]
        rw [hpre2, hpost2, ← List.append_assoc]
      rw [replaceFirstJS, hs_render]
      rw [replaceFirstAux_at (renderSts L) (mkKey k0 n)
        (renderSeg seg) [] (renderSts R) hocc1]
      rw [expandRepl_id (renderSeg seg) _ _ _ hdollar]
      rw [renderSts_append, renderSts_cons]
      rw [show renderSegSt (seg, SStat.raw) = renderSeg seg from rfl]
      simp [List.append_assoc]
    rw [show restoreCodeKeys ((key, v) :: E') (renderSts sts) =
      restoreCodeKeys E' (replaceFirstJS (renderSts sts) key v)
      from rfl]
    rw [hkey, hv, hstep]
    have hwf' : ∀ ss ∈ L ++ (seg, SStat.raw) :: R, segWFB ss.1 = true :=
      segWF_slot (hsts ▸ hwf)
    have hfree' : wordFreeB (origText (L ++ (seg, SStat.raw) :: R))
        = true := by
      rw [origText_slot SStat.raw (SStat.keyed k0 n), ← hsts]
      exact hfree
    have hseal' : SubSealed (L ++ (seg, SStat.raw) :: R) :=
      subSealed_slot (hsts ▸ hseal) (fun r => by simp)
    have hkind' : KindOK (L ++ (seg, SStat.raw) :: R) :=
      kindOK_slot (hsts ▸ hkind) (fun k n he => absurd he (by simp))
    have hnd' : (E'.map Prod.fst).Nodup := by
      simp only [List.map_cons] at hnd
      exact (List.nodup_cons.mp hnd).2
    have hE2 : codeEntriesOf k0 (L ++ (seg, SStat.raw) :: R) = E' := by
      rw [codeEntriesOf_append, hL, hE']
      rfl
    rw [ih (L ++ (seg, SStat.raw) :: R) hE2 hwf' hfree' hseal' hkind'
      hnd']
    have huk : unkeyK k0 (L ++ (seg, SStat.raw) :: R) =
        unkeyK k0 (L ++ (seg, SStat.keyed k0 n) :: R) := by
      rw [unkeyK_append, unkeyK_append, unkeyK_cons, unkeyK_cons]
      dsimp only
      rw [if_pos rfl]
    rw [huk, ← hsts]

theorem replaceAllJS_single (X pat repl Y : Str) (hne : pat ≠ [])
    (hX : ∀ i, i < X.length →
      pat.isPrefixOf ((X ++ pat ++ Y).drop i) = false)
    (hY : ∀ i, pat.isPrefixOf (Y.drop i) = false) :
    replaceAllJS (X ++ pat ++ Y) pat repl = X ++ repl ++ Y := by
  apply replaceAll_single X _ pat repl Y hne hX hY
  have h1 : 1 ≤ pat.length := by
    cases pat with
    | nil => exact absurd rfl hne
    | cons c w => simp
  simp only [List.length_append]
  omega

theorem subSealed_slot2 {L R : List SegSt} {seg : Seg} {st1 : SStat}
    {r : Str} (h : SubSealed (L ++ (seg, st1) :: R))
    (hr : sealedOutB r = true) :
    SubSealed (L ++ (seg, SStat.subst r) :: R) := by
  intro r2 hr2
  rw [List.map_append, List.map_cons] at hr2
  rcases List.mem_append.mp hr2 with hl | hrr
  · exact h r2 (by
      rw [List.map_append, List.map_cons]
      exact List.mem_append_left _ hl)
  · rcases List.mem_cons.mp hrr with he | hm
    · simp only [SStat.subst.injEq] at he
      rw [he]
      exact hr
    · exact h r2 (by
        rw [List.map_append, List.map_cons]
        exact List.mem_append_right _ (List.mem_cons_of_mem _ hm))

/-- The math-restore pass: folding `split`/`join` over the math entries of
one token kind substitutes every such formula by its typeset outcome. -/
theorem math_restore_fold : ∀ (k0 : TokKind) (dflag : Bool)
    (kat : Str → Bool → Except Unit Str),
    (∀ t d, ∃ r, kat t d = Except.ok r ∧ sealedOutB r = true) →
    ∀ (E : List (Str × Str × Bool)), ∀ (sts : List SegSt),
    mathEntriesOf k0 dflag sts = E →
    wordFreeB (origText sts) = true →
    SubSealed sts →
    (E.map Prod.fst).Nodup →
    _restoreAndRenderMath kat E (renderSts sts) =
      renderSts (substK k0 dflag kat sts) := by
  intro k0 dflag kat hkat E
  induction E with
  | nil =>
    intro sts hE _ _ _
    rw [show _restoreAndRenderMath kat [] (renderSts sts) =
      renderSts sts from rfl]
    rw [mathEntriesOf_nil_subst sts k0 dflag kat hE]
  | cons kv E' ih =>
    intro sts hE hfree hseal hnd
    obtain ⟨key, t, d⟩ := kv
    obtain ⟨L, seg, n, R, hsts, hkey, ht, hd, hL, hE'⟩ :=
      mentries_head_split sts k0 dflag key t d E' hE
    obtain ⟨pre, post, hchunks, hpre, hpost, hkpre, hkpost⟩ :=
      chunksOf_split_gen L seg k0 n R []
    have hpre2 : renderChunks pre =
        renderSts L ++ (if isMB seg then ['\n'] else []) := by
      rw [hpre]
      simp only [List.nil_append]
    have hwfch : chunksWF (pre ++ RChunk.key k0 n :: post) := by
      have h1 := chunksWF_of hfree hseal
      rw [hsts] at h1
      rwa [hchunks] at h1
    have hnp : RChunk.key k0 n ∉ pre := by
      intro hkp
      have h1 := hkpre k0 n hkp
      rw [← mem_stsKeys] at h1
      obtain ⟨td2, hv2⟩ := stsKeys_to_mathE L k0 dflag n h1
      rw [hL] at hv2
      exact absurd hv2 (List.not_mem_nil _)
    have hns : RChunk.key k0 n ∉ post := by
      intro hkp
      have h1 := hkpost k0 n hkp
      rw [← mem_stsKeys] at h1
      obtain ⟨td2, hv2⟩ := stsKeys_to_mathE R k0 dflag n h1
      rw [← hE'] at hv2
      have hmem2 : mkKey k0 n ∈ E'.map Prod.fst := by
        have := List.mem_map_of_mem Prod.fst hv2
        simpa using this
      have hnotin : key ∉ E'.map Prod.fst := by
        simp only [List.map_cons] at hnd
        exact (List.nodup_cons.mp hnd).1
      rw [hkey] at hnotin
      exact hnotin hmem2
    have hocc := key_occ_unique pre post k0 n hwfch hnp hns
    obtain ⟨r, hr, hsr⟩ := hkat t dflag
    have hs_render : renderSts sts =
        (renderChunks pre ++ mkKey k0 n) ++ renderChunks post := by
      have h1 : renderChunks (chunksOf sts []) = renderSts sts := by
        rw [renderChunks_chunksOf]
        rfl
      rw [← h1, hsts, hchunks, renderChunks_append, renderChunks_cons]
      rw [show renderChunk (RChunk.key k0 n) = mkKey k0 n from rfl]
      rw [← List.append_assoc]
    have hocc1 : ∀ i, i < (renderChunks pre).length →
        (mkKey k0 n).isPrefixOf
          ((renderChunks pre ++ mkKey k0 n ++
            renderChunks post).drop i) = false := by
      intro i hi
      have h2 := hocc.1 i hi
      rw [renderChunks_append, renderChunks_cons] at h2
      rw [show renderChunk (RChunk.key k0 n) = mkKey k0 n from rfl] at h2
      rw [← List.append_assoc] at h2
      exact h2
    have hstep : replaceAllJS (renderSts sts) (mkKey k0 n) r =
        renderSts (L ++ (seg, SStat.subst r) :: R) := by
      rw [hs_render]
      rw [show (renderChunks pre ++ mkKey k0 n) ++ renderChunks post =
        renderChunks pre ++ mkKey k0 n ++ renderChunks post from rfl]
      rw [replaceAllJS_single (renderChunks pre) (mkKey k0 n) r
        (renderChunks post) mkKey_ne_nil hocc1 hocc.2]
      rw [renderSts_append, renderSts_cons]
      rw [hpre2, hpost]
      by_cases hmb : isMB seg
      · rw [show renderSegSt (seg, SStat.subst r) =
          '\n' :: (r ++ ['\n']) from by simp [renderSegSt, hmb]]
        simp [hmb]
      · rw [show renderSegSt (seg, SStat.subst r) = r from by
          simp [renderSegSt, hmb]]
        simp [hmb]
    rw [show _restoreAndRenderMath kat ((key, t, d) :: E')
        (renderSts sts) =
      _restoreAndRenderMath kat E'
        (match kat t d with
          | .ok rendered => replaceAllJS (renderSts sts) key rendered
          | .error _ => replaceAllJS (renderSts sts) key t) from rfl]
    rw [hd, hr]
    show _restoreAndRenderMath kat E'
      (replaceAllJS (renderSts sts) key r) = _
    rw [hkey, hstep]
    have hfree' : wordFreeB (origText (L ++ (seg, SStat.subst r) :: R))
        = true := by
      rw [origText_slot (SStat.subst r) (SStat.keyed k0 n), ← hsts]
      exact hfree
    have hseal' : SubSealed (L ++ (seg, SStat.subst r) :: R) :=
      subSealed_slot2 (hsts ▸ hseal) hsr
    have hnd' : (E'.map Prod.fst).Nodup := by
      simp only [List.map_cons] at hnd
      exact (List.nodup_cons.mp hnd).2
    have hE2 : mathEntriesOf k0 dflag (L ++ (seg, SStat.subst r) :: R)
        = E' := by
      rw [mathEntriesOf_append, hL, hE']
      rfl
    rw [ih (L ++ (seg, SStat.subst r) :: R) hE2 hfree' hseal' hnd']
    have hsub_r : substOutcome kat (texOf seg) dflag = r := by
      rw [substOutcome, ← ht, hr]
    have hsk : substK k0 dflag kat (L ++ (seg, SStat.subst r) :: R) =
        substK k0 dflag kat (L ++ (seg, SStat.keyed k0 n) :: R) := by
      rw [substK_append, substK_append, substK_cons, substK_cons]
      dsimp only
      rw [if_pos rfl, hsub_r]
    rw [hsk, ← hsts]

/-- The five encode stages on a rendered document, in terms of the status
bookkeeping: the processed text carries the keyed statuses, and the maps
collect exactly the stage entries in stage order. -/
theorem protect_eq (segs : List Seg) (hwf : docWFB segs = true)
    (hne : renderDoc segs ≠ []) :
    _protectCodeAndMath (renderDoc segs) =
      (restoreCodeKeys ((pipe1 segs).2.2 ++ (pipe2 segs).2.2)
        (renderSts (pipe4 segs).1),
       ⟨(pipe4 segs).2.1,
        (pipe1 segs).2.2 ++ (pipe2 segs).2.2,
        (pipe3 segs).2.2 ++ (pipe4 segs).2.2⟩) := by
  have h0 : renderSts (sts0 segs) = renderDoc segs := renderSts_sts0 segs
  have hwf0 := segWF_sts0 hwf
  have hphA := phaseA_sts0 segs
  have h1 := stage1_scan (sts0 segs) true ⟨0, [], []⟩ hwf0 hphA
  dsimp only at h1
  rw [List.nil_append] at h1
  have hwf1 := wf_of_segs_eq (flipCB_segs (sts0 segs) 0) hwf0
  have hphB := flipCB_phaseB (sts0 segs) 0 hphA
  have h2 := stage2_scan (flipCB (sts0 segs) 0).1 true
    ⟨(flipCB (sts0 segs) 0).2.1, (flipCB (sts0 segs) 0).2.2, []⟩
    hwf1 hphB
  dsimp only at h2
  have hwf2 := wf_of_segs_eq
    (flipCI_segs (flipCB (sts0 segs) 0).1 (flipCB (sts0 segs) 0).2.1)
    hwf1
  have hphC := flipCI_phaseC (flipCB (sts0 segs) 0).1
    (flipCB (sts0 segs) 0).2.1 hphB
  have h3 := stage3_scan
    (flipCI (flipCB (sts0 segs) 0).1 (flipCB (sts0 segs) 0).2.1).1 true
    ⟨(flipCI (flipCB (sts0 segs) 0).1 (flipCB (sts0 segs) 0).2.1).2.1,
     (flipCB (sts0 segs) 0).2.2 ++
       (flipCI (flipCB (sts0 segs) 0).1 (flipCB (sts0 segs) 0).2.1).2.2,
     []⟩ hwf2 hphC
  have h4 := stage4_scan
    (flipCI (flipCB (sts0 segs) 0).1 (flipCB (sts0 segs) 0).2.1).1 true
    ⟨(flipCI (flipCB (sts0 segs) 0).1 (flipCB (sts0 segs) 0).2.1).2.1,
     (flipCB (sts0 segs) 0).2.2 ++
       (flipCI (flipCB (sts0 segs) 0).1 (flipCB (sts0 segs) 0).2.1).2.2,
     []⟩ hwf2 hphC
  dsimp only at h4
  rw [List.nil_append] at h4
  have hwf3 := wf_of_segs_eq
    (flipMB_segs
      (flipCI (flipCB (sts0 segs) 0).1 (flipCB (sts0 segs) 0).2.1).1
      (flipCI (flipCB (sts0 segs) 0).1 (flipCB (sts0 segs) 0).2.1).2.1)
    hwf2
  have hphD := flipMB_phaseD
    (flipCI (flipCB (sts0 segs) 0).1 (flipCB (sts0 segs) 0).2.1).1
    (flipCI (flipCB (sts0 segs) 0).1 (flipCB (sts0 segs) 0).2.1).2.1
    hphC
  have h5 := stage5_scan
    (flipMB (flipCI (flipCB (sts0 segs) 0).1
      (flipCB (sts0 segs) 0).2.1).1
      (flipCI (flipCB (sts0 segs) 0).1 (flipCB (sts0 segs) 0).2.1).2.1).1
    true
    ⟨(flipMB (flipCI (flipCB (sts0 segs) 0).1
        (flipCB (sts0 segs) 0).2.1).1
        (flipCI (flipCB (sts0 segs) 0).1
          (flipCB (sts0 segs) 0).2.1).2.1).2.1,
     (flipCB (sts0 segs) 0).2.2 ++
       (flipCI (flipCB (sts0 segs) 0).1 (flipCB (sts0 segs) 0).2.1).2.2,
     (flipMB (flipCI (flipCB (sts0 segs) 0).1
        (flipCB (sts0 segs) 0).2.1).1
        (flipCI (flipCB (sts0 segs) 0).1
          (flipCB (sts0 segs) 0).2.1).2.1).2.2⟩ hwf3 hphD
  dsimp only at h5
  have hcond : ¬((renderDoc segs).isEmpty = true) := fun h =>
    hne (by simpa [List.isEmpty_iff] using h)
  simp only [_protectCodeAndMath]
  rw [if_neg hcond]
  rw [← h0, h1]
  dsimp only
  rw [h2]
  dsimp only
  rw [h3]
  dsimp only
  rw [h4]
  dsimp only
  rw [h5]
  rfl

theorem restoreCodeKeys_append (E1 E2 : List (Str × Str)) (s : Str) :
    restoreCodeKeys (E1 ++ E2) s =
      restoreCodeKeys E2 (restoreCodeKeys E1 s) := by
  simp [restoreCodeKeys, List.foldl_append]

theorem restoreMath_append (kat : Str → Bool → Except Unit Str)
    (E1 E2 : List (Str × Str × Bool)) (s : Str) :
    _restoreAndRenderMath kat (E1 ++ E2) s =
      _restoreAndRenderMath kat E2 (_restoreAndRenderMath kat E1 s)
    := by
  simp [_restoreAndRenderMath, List.foldl_append]

/-- The complete restore chain on the statuses: code keys unkeyed, math
keys substituted, everything else untouched. -/
theorem phaseF_of_pipeline (kat : Str → Bool → Except Unit Str) :
    ∀ (sts : List SegSt), (∀ ss ∈ sts, phaseE ss) →
    ∀ ss ∈ substK TokKind.mi false kat (substK TokKind.mb true kat
      (unkeyK TokKind.ci (unkeyK TokKind.cb sts))), phaseF kat ss := by
  intro sts
  induction sts with
  | nil =>
    intro _ ss hss
    simp [unkeyK, substK] at hss
  | cons s0 rest ih =>
    intro h ss hss
    obtain ⟨s, stat⟩ := s0
    rw [unkeyK_cons, unkeyK_cons, substK_cons, substK_cons] at hss
    rcases List.mem_cons.mp hss with he | hm
    · have hp := h (s, stat) (List.mem_cons_self _ _)
      rw [he]
      cases s with
      | plain p =>
        have h1 : stat = SStat.raw := hp
        subst h1
        rfl
      | fenced b =>
        obtain ⟨m, hm2⟩ := hp
        have h1 : stat = SStat.keyed TokKind.cb m := hm2
        subst h1
        rfl
      | icode b =>
        obtain ⟨m, hm2⟩ := hp
        have h1 : stat = SStat.keyed TokKind.ci m := hm2
        subst h1
        rfl
      | mblock t =>
        obtain ⟨m, hm2⟩ := hp
        have h1 : stat = SStat.keyed TokKind.mb m := hm2
        subst h1
        rfl
      | minline t =>
        obtain ⟨m, hm2⟩ := hp
        have h1 : stat = SStat.keyed TokKind.mi m := hm2
        subst h1
        rfl
    · exact ih (fun ss2 hss2 => h ss2 (List.mem_cons_of_mem _ hss2))
        ss hm

/-- A status list at the end of the pipeline renders as the final text. -/
theorem renderSts_final (kat : Str → Bool → Except Unit Str) :
    ∀ (sts : List SegSt), (∀ ss ∈ sts, phaseF kat ss) →
    renderSts sts = finalRender kat (sts.map Prod.fst) := by
  intro sts
  induction sts with
  | nil => intro _; rfl
  | cons ss rest ih =>
    intro h
    obtain ⟨s, stat⟩ := ss
    rw [renderSts_cons, List.map_cons]
    rw [show finalRender kat (s :: rest.map Prod.fst) =
      finalSegRender kat s ++ finalRender kat (rest.map Prod.fst)
      from by simp [finalRender]]
    rw [ih (fun ss2 hss2 => h ss2 (List.mem_cons_of_mem _ hss2))]
    have hp := h (s, stat) (List.mem_cons_self _ _)
    cases s with
    | plain p =>
      have h1 : stat = SStat.raw := hp
      subst h1
      rfl
    | fenced b =>
      have h1 : stat = SStat.raw := hp
      subst h1
      rfl
    | icode b =>
      have h1 : stat = SStat.raw := hp
      subst h1
      rfl
    | mblock t =>
      have h1 : stat = SStat.subst (substOutcome kat t true) := hp
      subst h1
      rfl
    | minline t =>
      have h1 : stat = SStat.subst (substOutcome kat t false) := hp
      subst h1
      rfl

theorem noKeys_of_phaseF {kat : Str → Bool → Except Unit Str}
    {sts : List SegSt} (h : ∀ ss ∈ sts, phaseF kat ss) :
    ∀ k n, SStat.keyed k n ∉ sts.map Prod.snd := by
  intro k n hk
  obtain ⟨ss, hss, he⟩ := List.mem_map.mp hk
  obtain ⟨s, stat⟩ := ss
  have hp := h (s, stat) hss
  have he2 : stat = SStat.keyed k n := he
  cases s with
  | plain p =>
    have h1 : stat = SStat.raw := hp
    rw [h1] at he2
    exact SStat.noConfusion he2
  | fenced b =>
    have h1 : stat = SStat.raw := hp
    rw [h1] at he2
    exact SStat.noConfusion he2
  | icode b =>
    have h1 : stat = SStat.raw := hp
    rw [h1] at he2
    exact SStat.noConfusion he2
  | mblock t =>
    have h1 : stat = SStat.subst (substOutcome kat t true) := hp
    rw [h1] at he2
    exact SStat.noConfusion he2
  | minline t =>
    have h1 : stat = SStat.subst (substOutcome kat t false) := hp
    rw [h1] at he2
    exact SStat.noConfusion he2

/-- Without keyed statuses, the rendered text holds no placeholder
token. -/
theorem no_keys_no_token {sts : List SegSt}
    (hfree : wordFreeB (origText sts) = true) (hseal : SubSealed sts)
    (hnokey : ∀ k n, SStat.keyed k n ∉ sts.map Prod.snd) :
    ∀ k n, isSubstrB (mkKey k n) (renderSts sts) = false := by
  intro k n
  cases hss : isSubstrB (mkKey k n) (renderSts sts) with
  | false => rfl
  | true =>
    exfalso
    obtain ⟨u, v, huv⟩ := infix_of_isSubstrB hss
    have hpfx : (mkKey k n).isPrefixOf ((renderSts sts).drop u.length)
        = true := by
      rw [List.isPrefixOf_iff_prefix, ← huv, List.append_assoc,
        List.drop_left]
      exact List.prefix_append _ _
    have hwfch := chunksWF_of hfree hseal
    have hrc : renderChunks (chunksOf sts []) = renderSts sts := by
      rw [renderChunks_chunksOf]
      rfl
    rw [← hrc] at hpfx
    obtain ⟨pre, post, hsplit, _⟩ :=
      key_align (chunksOf sts []) hwfch k n u.length hpfx
    have hkmem : RChunk.key k n ∈ chunksOf sts [] := by
      rw [hsplit]
      exact List.mem_append_right _ (List.mem_cons_self _ _)
    exact hnokey k n (chunks_keys_mem sts [] k n hkmem)

theorem codeE_count_cb : ∀ (sts : List SegSt),
    (∀ ss ∈ sts, phaseE ss) →
    (codeEntriesOf TokKind.cb sts).length =
      ((sts.map Prod.fst).filter isFencedS).length := by
  intro sts
  induction sts with
  | nil => intro _; rfl
  | cons ss rest ih =>
    intro h
    obtain ⟨s, stat⟩ := ss
    have hp := h (s, stat) (List.mem_cons_self _ _)
    have ih' := ih (fun ss2 hss2 => h ss2 (List.mem_cons_of_mem _ hss2))
    cases s with
    | plain p =>
      have h1 : stat = SStat.raw := hp
      subst h1
      show (codeEntriesOf TokKind.cb rest).length = _
      rw [List.map_cons]
      rw [show List.filter isFencedS (Seg.plain p :: rest.map Prod.fst) =
        List.filter isFencedS (rest.map Prod.fst) from by
          simp [List.filter_cons, isFencedS]]
      exact ih'
    | fenced b =>
      obtain ⟨m, hm⟩ := hp
      have h1 : stat = SStat.keyed TokKind.cb m := hm
      subst h1
      show ((mkKey TokKind.cb m, renderSeg (Seg.fenced b)) ::
        codeEntriesOf TokKind.cb rest).length = _
      rw [List.length_cons, List.map_cons]
      rw [show List.filter isFencedS
        (Seg.fenced b :: rest.map Prod.fst) =
        Seg.fenced b :: List.filter isFencedS (rest.map Prod.fst)
        from by simp [List.filter_cons, isFencedS]]
      rw [List.length_cons, ih']
    | icode b =>
      obtain ⟨m, hm⟩ := hp
      have h1 : stat = SStat.keyed TokKind.ci m := hm
      subst h1
      show (codeEntriesOf TokKind.cb rest).length = _
      rw [List.map_cons]
      rw [show List.filter isFencedS (Seg.icode b :: rest.map Prod.fst) =
        List.filter isFencedS (rest.map Prod.fst) from by
          simp [List.filter_cons, isFencedS]]
      exact ih'
    | mblock t =>
      obtain ⟨m, hm⟩ := hp
      have h1 : stat = SStat.keyed TokKind.mb m := hm
      subst h1
      show (codeEntriesOf TokKind.cb rest).length = _
      rw [List.map_cons]
      rw [show List.filter isFencedS
        (Seg.mblock t :: rest.map Prod.fst) =
        List.filter isFencedS (rest.map Prod.fst) from by
          simp [List.filter_cons, isFencedS]]
      exact ih'
    | minline t =>
      obtain ⟨m, hm⟩ := hp
      have h1 : stat = SStat.keyed TokKind.mi m := hm
      subst h1
      show (codeEntriesOf TokKind.cb rest).length = _
      rw [List.map_cons]
      rw [show List.filter isFencedS
        (Seg.minline t :: rest.map Prod.fst) =
        List.filter isFencedS (rest.map Prod.fst) from by
          simp [List.filter_cons, isFencedS]]
      exact ih'

theorem codeE_count_ci : ∀ (sts : List SegSt),
    (∀ ss ∈ sts, phaseE ss) →
    (codeEntriesOf TokKind.ci sts).length =
      ((sts.map Prod.fst).filter isIcodeS).length := by
  intro sts
  induction sts with
  | nil => intro _; rfl
  | cons ss rest ih =>
    intro h
    obtain ⟨s, stat⟩ := ss
    have hp := h (s, stat) (List.mem_cons_self _ _)
    have ih' := ih (fun ss2 hss2 => h ss2 (List.mem_cons_of_mem _ hss2))
    cases s with
    | plain p =>
      have h1 : stat = SStat.raw := hp
      subst h1
      show (codeEntriesOf TokKind.ci rest).length = _
      rw [List.map_cons]
      rw [show List.filter isIcodeS (Seg.plain p :: rest.map Prod.fst) =
        List.filter isIcodeS (rest.map Prod.fst) from by
          simp [List.filter_cons, isIcodeS]]
      exact ih'
    | fenced b =>
      obtain ⟨m, hm⟩ := hp
      have h1 : stat = SStat.keyed TokKind.cb m := hm
      subst h1
      show (codeEntriesOf TokKind.ci rest).length = _
      rw [List.map_cons]
      rw [show List.filter isIcodeS (Seg.fenced b :: rest.map Prod.fst) =
        List.filter isIcodeS (rest.map Prod.fst) from by
          simp [List.filter_cons, isIcodeS]]
      exact ih'
    | icode b =>
      obtain ⟨m, hm⟩ := hp
      have h1 : stat = SStat.keyed TokKind.ci m := hm
      subst h1
      show ((mkKey TokKind.ci m, renderSeg (Seg.icode b)) ::
        codeEntriesOf TokKind.ci rest).length = _
      rw [List.length_cons, List.map_cons]
      rw [show List.filter isIcodeS (Seg.icode b :: rest.map Prod.fst) =
        Seg.icode b :: List.filter isIcodeS (rest.map Prod.fst)
        from by simp [List.filter_cons, isIcodeS]]
      rw [List.length_cons, ih']
    | mblock t =>
      obtain ⟨m, hm⟩ := hp
      have h1 : stat = SStat.keyed TokKind.mb m := hm
      subst h1
      show (codeEntriesOf TokKind.ci rest).length = _
      rw [List.map_cons]
      rw [show List.filter isIcodeS (Seg.mblock t :: rest.map Prod.fst) =
        List.filter isIcodeS (rest.map Prod.fst) from by
          simp [List.filter_cons, isIcodeS]]
      exact ih'
    | minline t =>
      obtain ⟨m, hm⟩ := hp
      have h1 : stat = SStat.keyed TokKind.mi m := hm
      subst h1
      show (codeEntriesOf TokKind.ci rest).length = _
      rw [List.map_cons]
      rw [show List.filter isIcodeS
        (Seg.minline t :: rest.map Prod.fst) =
        List.filter isIcodeS (rest.map Prod.fst) from by
          simp [List.filter_cons, isIcodeS]]
      exact ih'

theorem mathE_count_mb : ∀ (sts : List SegSt),
    (∀ ss ∈ sts, phaseE ss) →
    (mathEntriesOf TokKind.mb true sts).length =
      ((sts.map Prod.fst).filter isMB).length := by
  intro sts
  induction sts with
  | nil => intro _; rfl
  | cons ss rest ih =>
    intro h
    obtain ⟨s, stat⟩ := ss
    have hp := h (s, stat) (List.mem_cons_self _ _)
    have ih' := ih (fun ss2 hss2 => h ss2 (List.mem_cons_of_mem _ hss2))
    cases s with
    | plain p =>
      have h1 : stat = SStat.raw := hp
      subst h1
      show (mathEntriesOf TokKind.mb true rest).length = _
      rw [List.map_cons]
      rw [show List.filter isMB (Seg.plain p :: rest.map Prod.fst) =
        List.filter isMB (rest.map Prod.fst) from by
          simp [List.filter_cons, isMB]]
      exact ih'
    | fenced b =>
      obtain ⟨m, hm⟩ := hp
      have h1 : stat = SStat.keyed TokKind.cb m := hm
      subst h1
      show (mathEntriesOf TokKind.mb true rest).length = _
      rw [List.map_cons]
      rw [show List.filter isMB (Seg.fenced b :: rest.map Prod.fst) =
        List.filter isMB (rest.map Prod.fst) from by
          simp [List.filter_cons, isMB]]
      exact ih'
    | icode b =>
      obtain ⟨m, hm⟩ := hp
      have h1 : stat = SStat.keyed TokKind.ci m := hm
      subst h1
      show (mathEntriesOf TokKind.mb true rest).length = _
      rw [List.map_cons]
      rw [show List.filter isMB (Seg.icode b :: rest.map Prod.fst) =
        List.filter isMB (rest.map Prod.fst) from by
          simp [List.filter_cons, isMB]]
      exact ih'
    | mblock t =>
      obtain ⟨m, hm⟩ := hp
      have h1 : stat = SStat.keyed TokKind.mb m := hm
      subst h1
      show ((mkKey TokKind.mb m, texOf (Seg.mblock t), true) ::
        mathEntriesOf TokKind.mb true rest).length = _
      rw [List.length_cons, List.map_cons]
      rw [show List.filter isMB (Seg.mblock t :: rest.map Prod.fst) =
        Seg.mblock t :: List.filter isMB (rest.map Prod.fst)
        from by simp [List.filter_cons, isMB]]
      rw [List.length_cons, ih']
    | minline t =>
      obtain ⟨m, hm⟩ := hp
      have h1 : stat = SStat.keyed TokKind.mi m := hm
      subst h1
      show (mathEntriesOf TokKind.mb true rest).length = _
      rw [List.map_cons]
      rw [show List.filter isMB (Seg.minline t :: rest.map Prod.fst) =
        List.filter isMB (rest.map Prod.fst) from by
          simp [List.filter_cons, isMB]]
      exact ih'

theorem mathE_count_mi : ∀ (sts : List SegSt),
    (∀ ss ∈ sts, phaseE ss) →
    (mathEntriesOf TokKind.mi false sts).length =
      ((sts.map Prod.fst).filter isMinlineS).length := by
  intro sts
  induction sts with
  | nil => intro _; rfl
  | cons ss rest ih =>
    intro h
    obtain ⟨s, stat⟩ := ss
    have hp := h (s, stat) (List.mem_cons_self _ _)
    have ih' := ih (fun ss2 hss2 => h ss2 (List.mem_cons_of_mem _ hss2))
    cases s with
    | plain p =>
      have h1 : stat = SStat.raw := hp
      subst h1
      show (mathEntriesOf TokKind.mi false rest).length = _
      rw [List.map_cons]
      rw [show List.filter isMinlineS
        (Seg.plain p :: rest.map Prod.fst) =
        List.filter isMinlineS (rest.map Prod.fst) from by
          simp [List.filter_cons, isMinlineS]]
      exact ih'
    | fenced b =>
      obtain ⟨m, hm⟩ := hp
      have h1 : stat = SStat.keyed TokKind.cb m := hm
      subst h1
      show (mathEntriesOf TokKind.mi false rest).length = _
      rw [List.map_cons]
      rw [show List.filter isMinlineS
        (Seg.fenced b :: rest.map Prod.fst) =
        List.filter isMinlineS (rest.map Prod.fst) from by
          simp [List.filter_cons, isMinlineS]]
      exact ih'
    | icode b =>
      obtain ⟨m, hm⟩ := hp
      have h1 : stat = SStat.keyed TokKind.ci m := hm
      subst h1
      show (mathEntriesOf TokKind.mi false rest).length = _
      rw [List.map_cons]
      rw [show List.filter isMinlineS
        (Seg.icode b :: rest.map Prod.fst) =
        List.filter isMinlineS (rest.map Prod.fst) from by
          simp [List.filter_cons, isMinlineS]]
      exact ih'
    | mblock t =>
      obtain ⟨m, hm⟩ := hp
      have h1 : stat = SStat.keyed TokKind.mb m := hm
      subst h1
      show (mathEntriesOf TokKind.mi false rest).length = _
      rw [List.map_cons]
      rw [show List.filter isMinlineS
        (Seg.mblock t :: rest.map Prod.fst) =
        List.filter isMinlineS (rest.map Prod.fst) from by
          simp [List.filter_cons, isMinlineS]]
      exact ih'
    | minline t =>
      obtain ⟨m, hm⟩ := hp
      have h1 : stat = SStat.keyed TokKind.mi m := hm
      subst h1
      show ((mkKey TokKind.mi m, texOf (Seg.minline t), false) ::
        mathEntriesOf TokKind.mi false rest).length = _
      rw [List.length_cons, List.map_cons]
      rw [show List.filter isMinlineS
        (Seg.minline t :: rest.map Prod.fst) =
        Seg.minline t :: List.filter isMinlineS (rest.map Prod.fst)
        from by simp [List.filter_cons, isMinlineS]]
      rw [List.length_cons, ih']

theorem renderDoc_nil {segs : List Seg} (h : renderDoc segs = []) :
    ∀ s ∈ segs, s = Seg.plain [] := by
  intro s hs
  rw [renderDoc] at h
  have h2 := List.flatten_eq_nil_iff.mp h
  have h3 : renderSeg s = [] := h2 _ (List.mem_map_of_mem renderSeg hs)
  cases s with
  | plain p =>
    rw [show renderSeg (Seg.plain p) = p from rfl] at h3
    rw [h3]
  | fenced b => exact absurd h3 (by simp [renderSeg])
  | icode b => exact absurd h3 (by simp [renderSeg])
  | mblock t => exact absurd h3 (by simp [renderSeg])
  | minline t => exact absurd h3 (by simp [renderSeg])

theorem finalRender_allplain (kat : Str → Bool → Except Unit Str) :
    ∀ (segs : List Seg), (∀ s ∈ segs, s = Seg.plain []) →
    finalRender kat segs = [] := by
  intro segs
  induction segs with
  | nil => intro _; rfl
  | cons s rest ih =>
    intro h
    have hs := h s (List.mem_cons_self _ _)
    rw [show finalRender kat (s :: rest) =
      finalSegRender kat s ++ finalRender kat rest from by
        simp [finalRender]]
    rw [hs, ih (fun x hx => h x (List.mem_cons_of_mem _ hx))]
    rfl

theorem filter_allplain (p : Seg → Bool) (hp : p (Seg.plain []) = false) :
    ∀ (segs : List Seg), (∀ s ∈ segs, s = Seg.plain []) →
    segs.filter p = [] := by
  intro segs
  induction segs with
  | nil => intro _; rfl
  | cons s rest ih =>
    intro h
    have hs := h s (List.mem_cons_self _ _)
    rw [hs]
    rw [show List.filter p (Seg.plain [] :: rest) =
      List.filter p rest from by simp [List.filter_cons, hp]]
    exact ih (fun x hx => h x (List.mem_cons_of_mem _ hx))

theorem isSubstrB_nil_key (k : TokKind) (n : Nat) :
    isSubstrB (mkKey k n) [] = false := by
  have h1 : isSubstrB (mkKey k n) [] = (mkKey k n).isEmpty := rfl
  rw [h1]
  cases hk : mkKey k n with
  | nil => exact absurd hk mkKey_ne_nil
  | cons c w => rfl

/-- C3 (amended): for every well-formed interleaving of plain text with
fenced code blocks, inline code spans, display formulas and inline
formulas - protected spans not nesting or overlapping, delimiters absent
from contents, and neither the document nor the typeset outputs containing
the placeholder vocabulary - the encode pass (`_protectCodeAndMath`)
followed by the math restore pass (`_restoreAndRenderMath`) restores every
code span verbatim and substitutes exactly the math renderings (the final
text is the source with each formula replaced by its typeset output), the
`codeMap` holds one entry per code span, the `mathMap` one entry per
formula, and the output contains zero placeholder tokens. -/
theorem C3_roundtrip_amended (segs : List Seg)
    (kat : Str → Bool → Except Unit Str)
    (hwf : docWFB segs = true)
    (hfree : wordFreeB (renderDoc segs) = true)
    (hkat : ∀ t d, ∃ r, kat t d = Except.ok r ∧ sealedOutB r = true) :
    _restoreAndRenderMath kat
        (_protectCodeAndMath (renderDoc segs)).2.mathMap
        (_protectCodeAndMath (renderDoc segs)).1 =
      finalRender kat segs ∧
    ((_protectCodeAndMath (renderDoc segs)).2.codeMap).length =
      (segs.filter isFencedS).length + (segs.filter isIcodeS).length ∧
    ((_protectCodeAndMath (renderDoc segs)).2.mathMap).length =
      (segs.filter isMB).length + (segs.filter isMinlineS).length ∧
    (∀ k n, isSubstrB (mkKey k n)
      (_restoreAndRenderMath kat
        (_protectCodeAndMath (renderDoc segs)).2.mathMap
        (_protectCodeAndMath (renderDoc segs)).1) = false) := by
  by_cases hne : renderDoc segs = []
  · have hplain := renderDoc_nil hne
    have hpc : _protectCodeAndMath (renderDoc segs) =
        ([], ⟨0, [], []⟩) := by
      rw [hne]
      rfl
    rw [hpc]
    refine ⟨?_, ?_, ?_, ?_⟩
    · show _restoreAndRenderMath kat [] [] = finalRender kat segs
      rw [finalRender_allplain kat segs hplain]
      rfl
    · show ([] : List (Str × Str)).length = _
      rw [filter_allplain isFencedS rfl segs hplain,
        filter_allplain isIcodeS rfl segs hplain]
      rfl
    · show ([] : List (Str × Str × Bool)).length = _
      rw [filter_allplain isMB rfl segs hplain,
        filter_allplain isMinlineS rfl segs hplain]
      rfl
    · intro k n
      show isSubstrB (mkKey k n) (_restoreAndRenderMath kat [] [])
        = false
      exact isSubstrB_nil_key k n
  · have hwf0 := segWF_sts0 hwf
    have hphA := phaseA_sts0 segs
    have hphB : ∀ ss ∈ (pipe1 segs).1, phaseB ss :=
      flipCB_phaseB (sts0 segs) 0 hphA
    have hwf1 : ∀ ss ∈ (pipe1 segs).1, segWFB ss.1 = true :=
      wf_of_segs_eq (flipCB_segs (sts0 segs) 0) hwf0
    have hphC : ∀ ss ∈ (pipe2 segs).1, phaseC ss :=
      flipCI_phaseC (pipe1 segs).1 (pipe1 segs).2.1 hphB
    have hwf2 : ∀ ss ∈ (pipe2 segs).1, segWFB ss.1 = true :=
      wf_of_segs_eq (flipCI_segs (pipe1 segs).1 (pipe1 segs).2.1) hwf1
    have hphD : ∀ ss ∈ (pipe3 segs).1, phaseD ss :=
      flipMB_phaseD (pipe2 segs).1 (pipe2 segs).2.1 hphC
    have hwf3 : ∀ ss ∈ (pipe3 segs).1, segWFB ss.1 = true :=
      wf_of_segs_eq (flipMB_segs (pipe2 segs).1 (pipe2 segs).2.1) hwf2
    have hphE : ∀ ss ∈ (pipe4 segs).1, phaseE ss :=
      flipMI_phaseE (pipe3 segs).1 (pipe3 segs).2.1 hphD
    have hwf4 : ∀ ss ∈ (pipe4 segs).1, segWFB ss.1 = true :=
      wf_of_segs_eq (flipMI_segs (pipe3 segs).1 (pipe3 segs).2.1) hwf3
    have hsegs4 : ((pipe4 segs).1).map Prod.fst = segs := by
      calc ((pipe4 segs).1).map Prod.fst
          = ((pipe3 segs).1).map Prod.fst :=
            flipMI_segs (pipe3 segs).1 (pipe3 segs).2.1
        _ = ((pipe2 segs).1).map Prod.fst :=
            flipMB_segs (pipe2 segs).1 (pipe2 segs).2.1
        _ = ((pipe1 segs).1).map Prod.fst :=
            flipCI_segs (pipe1 segs).1 (pipe1 segs).2.1
        _ = (sts0 segs).map Prod.fst := flipCB_segs (sts0 segs) 0
        _ = segs := sts0_segs segs
    have hfree4 : wordFreeB (origText (pipe4 segs).1) = true := by
      rw [origText_eq, hsegs4]
      exact hfree
    have hseal4 : SubSealed (pipe4 segs).1 := subSealed_of_phaseE hphE
    have hkind4 : KindOK (pipe4 segs).1 := kindOK_of_phaseE hphE
    have hnocb0 : ∀ n, (TokKind.cb, n) ∉ stsKeys (sts0 segs) := by
      intro n hn
      rw [stsKeys_sts0] at hn
      exact absurd hn (List.not_mem_nil _)
    obtain ⟨hcb1, hcbnd, _⟩ := flipCB_all (sts0 segs) 0 hnocb0
    have hnoci1 : ∀ n, (TokKind.ci, n) ∉ stsKeys (pipe1 segs).1 := by
      intro n hn
      have := keys_of_phaseB hphB TokKind.ci n hn
      exact absurd this (by decide)
    obtain ⟨hci1, hcind, _⟩ :=
      flipCI_all (pipe1 segs).1 (pipe1 segs).2.1 hnoci1
    have hnomb2 : ∀ n, (TokKind.mb, n) ∉ stsKeys (pipe2 segs).1 := by
      intro n hn
      rcases keys_of_phaseC hphC TokKind.mb n hn with h | h <;>
        exact absurd h (by decide)
    obtain ⟨hmb1, hmbnd, _⟩ :=
      flipMB_all (pipe2 segs).1 (pipe2 segs).2.1 hnomb2
    have hnomi3 : ∀ n, (TokKind.mi, n) ∉ stsKeys (pipe3 segs).1 := by
      intro n hn
      rcases keys_of_phaseD hphD TokKind.mi n hn with h | h | h <;>
        exact absurd h (by decide)
    obtain ⟨hmi1, hmind, _⟩ :=
      flipMI_all (pipe3 segs).1 (pipe3 segs).2.1 hnomi3
    have hcbE : codeEntriesOf TokKind.cb (pipe4 segs).1 =
        (pipe1 segs).2.2 := by
      calc codeEntriesOf TokKind.cb (pipe4 segs).1
          = codeEntriesOf TokKind.cb (pipe3 segs).1 :=
            flipMI_codeE (pipe3 segs).1 (pipe3 segs).2.1 TokKind.cb
              (by decide)
        _ = codeEntriesOf TokKind.cb (pipe2 segs).1 :=
            flipMB_codeE (pipe2 segs).1 (pipe2 segs).2.1 TokKind.cb
              (by decide)
        _ = codeEntriesOf TokKind.cb (pipe1 segs).1 :=
            flipCI_codeE (pipe1 segs).1 (pipe1 segs).2.1 TokKind.cb
              (by decide)
        _ = (pipe1 segs).2.2 := hcb1
    have hciE : codeEntriesOf TokKind.ci (pipe4 segs).1 =
        (pipe2 segs).2.2 := by
      calc codeEntriesOf TokKind.ci (pipe4 segs).1
          = codeEntriesOf TokKind.ci (pipe3 segs).1 :=
            flipMI_codeE (pipe3 segs).1 (pipe3 segs).2.1 TokKind.ci
              (by decide)
        _ = codeEntriesOf TokKind.ci (pipe2 segs).1 :=
            flipMB_codeE (pipe2 segs).1 (pipe2 segs).2.1 TokKind.ci
              (by decide)
        _ = (pipe2 segs).2.2 := hci1
    have hmbE : mathEntriesOf TokKind.mb true (pipe4 segs).1 =
        (pipe3 segs).2.2 := by
      calc mathEntriesOf TokKind.mb true (pipe4 segs).1
          = mathEntriesOf TokKind.mb true (pipe3 segs).1 :=
            flipMI_mathE (pipe3 segs).1 (pipe3 segs).2.1 TokKind.mb true
              (by decide)
        _ = (pipe3 segs).2.2 := hmb1
    have hmiE : mathEntriesOf TokKind.mi false (pipe4 segs).1 =
        (pipe4 segs).2.2 := hmi1
    have hsegs5 : (unkeyK TokKind.cb (pipe4 segs).1).map Prod.fst =
        segs := by
      rw [unkeyK_segs, hsegs4]
    have hwf5 : ∀ ss ∈ unkeyK TokKind.cb (pipe4 segs).1,
        segWFB ss.1 = true :=
      wf_of_segs_eq (unkeyK_segs TokKind.cb (pipe4 segs).1) hwf4
    have hfree5 : wordFreeB
        (origText (unkeyK TokKind.cb (pipe4 segs).1)) = true := by
      rw [origText_eq, hsegs5]
      exact hfree
    have hseal5 : SubSealed (unkeyK TokKind.cb (pipe4 segs).1) :=
      subSealed_unkeyK hseal4
    have hkind5 : KindOK (unkeyK TokKind.cb (pipe4 segs).1) :=
      kindOK_unkeyK hkind4
    have hciE5 : codeEntriesOf TokKind.ci
        (unkeyK TokKind.cb (pipe4 segs).1) = (pipe2 segs).2.2 := by
      rw [unkeyK_codeE (pipe4 segs).1 TokKind.ci TokKind.cb (by decide),
        hciE]
    have hcode : restoreCodeKeys ((pipe1 segs).2.2 ++ (pipe2 segs).2.2)
        (renderSts (pipe4 segs).1) =
        renderSts (unkeyK TokKind.ci
          (unkeyK TokKind.cb (pipe4 segs).1)) := by
      rw [restoreCodeKeys_append]
      rw [code_restore_fold TokKind.cb (Or.inl rfl) (pipe1 segs).2.2
        (pipe4 segs).1 hcbE hwf4 hfree4 hseal4 hkind4 hcbnd]
      rw [code_restore_fold TokKind.ci (Or.inr rfl) (pipe2 segs).2.2
        (unkeyK TokKind.cb (pipe4 segs).1) hciE5 hwf5 hfree5 hseal5
        hkind5 hcind]
    have hsegs6 : (unkeyK TokKind.ci
        (unkeyK TokKind.cb (pipe4 segs).1)).map Prod.fst = segs := by
      rw [unkeyK_segs, hsegs5]
    have hfree6 : wordFreeB (origText (unkeyK TokKind.ci
        (unkeyK TokKind.cb (pipe4 segs).1))) = true := by
      rw [origText_eq, hsegs6]
      exact hfree
    have hseal6 : SubSealed (unkeyK TokKind.ci
        (unkeyK TokKind.cb (pipe4 segs).1)) :=
      subSealed_unkeyK hseal5
    have hmbE6 : mathEntriesOf TokKind.mb true (unkeyK TokKind.ci
        (unkeyK TokKind.cb (pipe4 segs).1)) = (pipe3 segs).2.2 := by
      rw [unkeyK_mathE (unkeyK TokKind.cb (pipe4 segs).1) TokKind.mb
          TokKind.ci true (by decide),
        unkeyK_mathE (pipe4 segs).1 TokKind.mb TokKind.cb true
          (by decide), hmbE]
    have hmath1 := math_restore_fold TokKind.mb true kat hkat
      (pipe3 segs).2.2
      (unkeyK TokKind.ci (unkeyK TokKind.cb (pipe4 segs).1))
      hmbE6 hfree6 hseal6 hmbnd
    have hsegs7 : (substK TokKind.mb true kat (unkeyK TokKind.ci
        (unkeyK TokKind.cb (pipe4 segs).1))).map Prod.fst = segs := by
      rw [substK_segs, hsegs6]
    have hfree7 : wordFreeB (origText (substK TokKind.mb true kat
        (unkeyK TokKind.ci (unkeyK TokKind.cb (pipe4 segs).1)))) =
        true := by
      rw [origText_eq, hsegs7]
      exact hfree
    have hseal7 : SubSealed (substK TokKind.mb true kat
        (unkeyK TokKind.ci (unkeyK TokKind.cb (pipe4 segs).1))) :=
      subSealed_substK hseal6 (substOutcome_sealed hkat)
    have hmiE7 : mathEntriesOf TokKind.mi false
        (substK TokKind.mb true kat (unkeyK TokKind.ci
          (unkeyK TokKind.cb (pipe4 segs).1))) = (pipe4 segs).2.2 := by
      rw [substK_mathE (unkeyK TokKind.ci
          (unkeyK TokKind.cb (pipe4 segs).1)) TokKind.mi TokKind.mb
          false true kat (by decide),
        unkeyK_mathE (unkeyK TokKind.cb (pipe4 segs).1) TokKind.mi
          TokKind.ci false (by decide),
        unkeyK_mathE (pipe4 segs).1 TokKind.mi TokKind.cb false
          (by decide), hmiE]
    have hmath2 := math_restore_fold TokKind.mi false kat hkat
      (pipe4 segs).2.2
      (substK TokKind.mb true kat (unkeyK TokKind.ci
        (unkeyK TokKind.cb (pipe4 segs).1)))
      hmiE7 hfree7 hseal7 hmind
    have hphF : ∀ ss ∈ substK TokKind.mi false kat
        (substK TokKind.mb true kat (unkeyK TokKind.ci
          (unkeyK TokKind.cb (pipe4 segs).1))), phaseF kat ss :=
      phaseF_of_pipeline kat (pipe4 segs).1 hphE
    have hsegs8 : (substK TokKind.mi false kat
        (substK TokKind.mb true kat (unkeyK TokKind.ci
          (unkeyK TokKind.cb (pipe4 segs).1)))).map Prod.fst = segs := by
      rw [substK_segs, hsegs7]
    have hfree8 : wordFreeB (origText (substK TokKind.mi false kat
        (substK TokKind.mb true kat (unkeyK TokKind.ci
          (unkeyK TokKind.cb (pipe4 segs).1))))) = true := by
      rw [origText_eq, hsegs8]
      exact hfree
    have hseal8 : SubSealed (substK TokKind.mi false kat
        (substK TokKind.mb true kat (unkeyK TokKind.ci
          (unkeyK TokKind.cb (pipe4 segs).1)))) :=
      subSealed_substK hseal7 (substOutcome_sealed hkat)
    have hfinal : renderSts (substK TokKind.mi false kat
        (substK TokKind.mb true kat (unkeyK TokKind.ci
          (unkeyK TokKind.cb (pipe4 segs).1)))) =
        finalRender kat segs := by
      rw [renderSts_final kat _ hphF, hsegs8]
    rw [protect_eq segs hwf hne]
    dsimp only
    refine ⟨?_, ?_, ?_, ?_⟩
    · rw [hcode, restoreMath_append, hmath1, hmath2, hfinal]
    · rw [List.length_append, ← hcbE, ← hciE,
        codeE_count_cb (pipe4 segs).1 hphE,
        codeE_count_ci (pipe4 segs).1 hphE, hsegs4]
    · rw [List.length_append, ← hmbE, ← hmiE,
        mathE_count_mb (pipe4 segs).1 hphE,
        mathE_count_mi (pipe4 segs).1 hphE, hsegs4]
    · intro k n
      rw [hcode, restoreMath_append, hmath1, hmath2]
      exact no_keys_no_token hfree8 hseal8 (noKeys_of_phaseF hphF) k n

/-- Witness for the amended C3 round trip: a concrete document with one
fenced block, one inline span, one display formula and one inline formula,
against an engine producing the fixed inert output `<x>`. -/
theorem C3_roundtrip_amended_witness :
    docWFB demoSegs = true ∧
    wordFreeB (renderDoc demoSegs) = true ∧
    (_restoreAndRenderMath demoKat
        (_protectCodeAndMath (renderDoc demoSegs)).2.mathMap
        (_protectCodeAndMath (renderDoc demoSegs)).1 =
      finalRender demoKat demoSegs ∧
    ((_protectCodeAndMath (renderDoc demoSegs)).2.codeMap).length =
      (demoSegs.filter isFencedS).length +
        (demoSegs.filter isIcodeS).length ∧
    ((_protectCodeAndMath (renderDoc demoSegs)).2.mathMap).length =
      (demoSegs.filter isMB).length +
        (demoSegs.filter isMinlineS).length ∧
    (∀ k n, isSubstrB (mkKey k n)
      (_restoreAndRenderMath demoKat
        (_protectCodeAndMath (renderDoc demoSegs)).2.mathMap
        (_protectCodeAndMath (renderDoc demoSegs)).1) = false)) :=
  ⟨by decide, by decide,
    C3_roundtrip_amended demoSegs demoKat (by decide) (by decide)
      (fun t d => ⟨js "<x>", rfl, by decide⟩)⟩

end Akari
